import Mathlib

/-! # osl webconfig: a shallow embedding of `webconfig.h` / `webconfig.cpp`

The development follows the C++ sources of the repository:

* `src/webconfig.h`   : `name_value_record`, `pup_er_virtual`, the object `pup` template,
  the registry (`webconfig_add_pup`, `webconfig_pup_all`);
* `src/webconfig.cpp` : `itos`, `count_newlines`, `escape_HTML`, `unescape_URL`,
  the four visitors `pup_from_binary_file`, `pup_to_binary_file`, `pup_from_name_value`,
  `pup_to_HTML_form`, the responder `webconfig_editor`, `webconfig_save`, `webconfig_restore`;
* `src/webserver.h`, `src/webserver.cpp` : `http_served_client::send`, `send_header`, `send_raw`,
  `send_error`, the constructor of `http_served_client` (the request parser), `get_path`,
  `get_error`, `get_header`;
* `src/random.h`, `src/random.cpp` : `Random::nextInt`, `Random32`;
* `src/vector1d.h` : `seg1dT<int>`.
* `src/optimize.h`, `src/optimize.cpp` : `greedyDiscreteMin`, `secantRoot1D`;
* `src/matrixT.h` : `MatrixT::swapRow`, `scaleRow`, `solve`, `invert`, `product`.

Modelling conventions.

* A C++ `char` is a Lean `Char` with the same code; a `std::string` (and every byte stream:
  the persistence file, the socket) is a `List Char` (`Str`). Names passed as `const char *`
  are `Str` too.
* `int` is an `Int` in `[-2^31, 2^31)`, `unsigned int` a `Nat` below `2^32`; every conversion
  of the source wraps explicitly (`to_int`, `to_unsigned`).
* A `float` is its 32-bit IEEE-754 pattern (a `Nat` below `2^32`); the host is little-endian.
  The C library routines the sources call (`atoi`, `atof`, `sscanf("%x")`, `printf` of `%d`
  and `%f`) are modelled after glibc in the C locale.
* The live objects reached from the registry are a tree (`Item`): the user-written `pup`
  routine of a registered object is the list of `PUPf`/`PUPc` calls it makes, in order.
  The `std::vector` overload of `pup`, whose field list depends on a pup'd length, is outside
  this model.
* Stateful code is explicit state passing; the process-wide lock of
  `webconfig_editor::respond` is not modelled (one request at a time).
* A C++ exception that leaves a function is the result `none`; a loop that may run for ever
  takes a bound on its rounds (`fuel`) and gives `none` when the bound is reached.
* The socket is the list of lines `skt_recv_line` returns and the text handed to
  `skt_sendN` (`wire`).
* The `real` of a `MatrixT` is an exact field (`ℚ`): the claims about `solve` and `invert`
  are about exact arithmetic. The `double` of `optimize.cpp` is either exact (`ℚ`) or a
  parameter (`double_arith`) giving the operations the routine uses.
-/

namespace osl

/-- A `std::string`, and every other sequence of C++ `char`. -/
abbrev Str := List Char

/-! ## Machine integers -/

/-- Conversion of any integer to a 32-bit `unsigned int` (reduction modulo `2^32`). -/
def to_unsigned (v : Int) : Nat := (v % 4294967296).toNat

/-- Conversion of any integer to a 32-bit two's-complement `int`. -/
def to_int (v : Int) : Int :=
  if to_unsigned v < 2147483648 then (to_unsigned v : Int)
  else (to_unsigned v : Int) - 4294967296

/-- The object representation of a 4-byte scalar with bit pattern `bits`, lowest byte first. -/
def bytes4 (bits : Nat) : Str :=
  [Char.ofNat (bits % 256), Char.ofNat (bits / 256 % 256),
   Char.ofNat (bits / 65536 % 256), Char.ofNat (bits / 16777216 % 256)]

/-- The bit pattern held by (at most) four bytes of memory, lowest byte first. -/
def bits_of_bytes : Str → Nat
  | [] => 0
  | c :: cs => c.toNat % 256 + 256 * bits_of_bytes cs

/-- The memory image of an `int`. -/
def int_bytes (v : Int) : Str := bytes4 (to_unsigned v)

/-- The `int` held by four bytes of memory. -/
def bytes_int (b : Str) : Int := to_int (bits_of_bytes (b.take 4))

/-- The memory image of a `float` with the given bit pattern. -/
def float_bytes (bits : Nat) : Str := bytes4 (bits % 4294967296)

/-- The bit pattern of the `float` held by four bytes of memory. -/
def bytes_float (b : Str) : Nat := bits_of_bytes (b.take 4)

/-! ## C library routines used by the sources -/

/-- `isspace` in the C locale. -/
def isspace (c : Char) : Bool :=
  c = ' ' || c = '\t' || c = '\n' || c = Char.ofNat 11 || c = Char.ofNat 12 || c = '\r'

/-- `isdigit`. -/
def isdigit (c : Char) : Bool := decide ('0' ≤ c) && decide (c ≤ '9')

/-- `isxdigit`. -/
def isxdigit (c : Char) : Bool :=
  isdigit c || (decide ('a' ≤ c) && decide (c ≤ 'f')) || (decide ('A' ≤ c) && decide (c ≤ 'F'))

/-- Value of a hexadecimal digit. -/
def hexval (c : Char) : Nat :=
  if isdigit c then c.toNat - 48
  else if decide ('a' ≤ c) && decide (c ≤ 'f') then c.toNat - 87
  else c.toNat - 55

/-- Value of a run of decimal digits, most significant first, on top of `acc`. -/
def digits_value (acc : Nat) : Str → Nat
  | [] => acc
  | c :: cs => digits_value (10 * acc + (c.toNat - 48)) cs

/-- The glibc `atoi`: `(int) strtol (s, NULL, 10)`. Leading white space is skipped, an
optional sign is read, then the longest run of decimal digits; the `long` result saturates
at 64 bits and is then truncated to `int`. No digits gives 0. -/
def atoi (s : Str) : Int :=
  let s1 := s.dropWhile isspace
  let neg := s1.head? = some '-'
  let s2 := if s1.head? = some '-' ∨ s1.head? = some '+' then s1.tail else s1
  let n : Nat := digits_value 0 (s2.takeWhile isdigit)
  let l : Int :=
    if neg then -((min n 9223372036854775808 : Nat) : Int)
    else ((min n 9223372036854775807 : Nat) : Int)
  to_int l

/-- The result of `int v=0; sscanf(buf,"%x",&v); (char)v` on the two-character buffer
`[a, b]`, as a byte value. `%x` skips white space, accepts a sign, then reads hexadecimal
digits; when nothing is converted `v` keeps its initial 0. -/
def sscanf_hex2 (a b : Char) : Nat :=
  if isxdigit a then (if isxdigit b then 16 * hexval a + hexval b else hexval a)
  else if isspace a ∨ a = '+' then (if isxdigit b then hexval b else 0)
  else if a = '-' then (if isxdigit b then (256 - hexval b) % 256 else 0)
  else 0

/-- The characters `printf("%d")` writes for a natural number. -/
def decimal (n : Nat) : Str := Nat.toDigits 10 n

/-- Zero-padding on the left up to `width` characters. -/
def pad_zeros (width : Nat) (s : Str) : Str := List.replicate (width - s.length) '0' ++ s

/-! ### Binary floating point: `atof` and `printf("%f")` -/

/-- Nearest integer to `n / d`, ties to even. -/
def round_half_even (n d : Nat) : Nat :=
  if 2 * (n % d) < d then n / d
  else if d < 2 * (n % d) then n / d + 1
  else if n / d % 2 = 0 then n / d else n / d + 1

/-- Number of binary digits of `n` (0 for 0); `fuel` bounds the recursion. -/
def bit_length : Nat → Nat → Nat
  | 0, _ => 0
  | fuel + 1, n => if n = 0 then 0 else bit_length fuel (n / 2) + 1

/-- Multiplication of the fraction `n / d` by `2 ^ k` for an integer `k`. -/
def scale2 (n d : Nat) (k : Int) : Nat × Nat :=
  if 0 ≤ k then (n * 2 ^ k.toNat, d) else (n, d * 2 ^ (-k).toNat)

/-- Rounding of the positive fraction `n / d` to a binary format with `p` significant bits
whose least exponent (of the last place) is `emin`: the result `(m, e)` stands for `m * 2^e`,
with `m < 2^p` and `e ≥ emin`. -/
def round_binary (p : Nat) (emin : Int) (n d : Nat) : Nat × Int :=
  if n = 0 then (0, emin) else
  let l : Int := (bit_length (n + 1) n : Int) - (bit_length (d + 1) d : Int)
  -- `floor (log2 (n / d))` is `l` or `l - 1`
  let s := scale2 n d (-l)
  let lg : Int := if s.2 ≤ s.1 then l else l - 1
  let e : Int := max (lg - ((p : Int) - 1)) emin
  let t := scale2 n d (-e)
  let m := round_half_even t.1 t.2
  if m = 2 ^ p then (2 ^ (p - 1), e + 1) else (m, e)

/-- Classes of a `strtod` result before it is stored in a `float`. -/
inductive float_class where
  | finite (n d : Nat)
  | infinite
  | not_a_number
deriving DecidableEq, Repr

/-- The `float` bit pattern of the magnitude `n / d` (sign bit clear): rounding to `double`
(as `atof` returns) followed by the conversion to `float` of the assignment. The pattern is
the biased exponent (0 for a subnormal) above the low 23 bits of the significand; a magnitude
too large becomes infinity. -/
def float_of_fraction (n d : Nat) : Nat :=
  let dbl := round_binary 53 (-1074) n d
  if 971 < dbl.2 then 2139095040 else
  let f := round_binary 24 (-149) (scale2 dbl.1 1 dbl.2).1 (scale2 dbl.1 1 dbl.2).2
  if 104 < f.2 then 2139095040
  else (if f.1 < 8388608 then 0 else (f.2 + 150).toNat) * 8388608 + f.1 % 8388608

/-- Lower-casing of an ASCII letter. -/
def tolower (c : Char) : Char :=
  if decide ('A' ≤ c) && decide (c ≤ 'Z') then Char.ofNat (c.toNat + 32) else c

/-- The magnitude `strtod` reads from the text after the sign. Decimal forms
`digits[.digits][e[+-]digits]`, `inf` and `nan` are modelled; a text with no such prefix
converts to 0. (Hexadecimal floating constants are outside this model.) -/
def strtod_magnitude (s : Str) : float_class :=
  let ip := s.takeWhile isdigit
  let r1 := s.dropWhile isdigit
  let fp := if r1.head? = some '.' then r1.tail.takeWhile isdigit else []
  let r2 := if r1.head? = some '.' then r1.tail.dropWhile isdigit else r1
  if ip = [] ∧ fp = [] then
    (if (s.take 3).map tolower = ['i', 'n', 'f'] then .infinite
     else if (s.take 3).map tolower = ['n', 'a', 'n'] then .not_a_number
     else .finite 0 1)
  else
    let mant := digits_value 0 (ip ++ fp)
    let r3 := if r2.head? = some 'e' ∨ r2.head? = some 'E' then r2.tail else []
    let eneg := r3.head? = some '-'
    let r4 := if r3.head? = some '-' ∨ r3.head? = some '+' then r3.tail else r3
    let ex : Int := digits_value 0 (r4.takeWhile isdigit)
    let e10 : Int := (if eneg then -ex else ex) - fp.length
    if 0 ≤ e10 then .finite (mant * 10 ^ e10.toNat) 1 else .finite mant (10 ^ (-e10).toNat)

/-- The statement `value=atof(s)` for a `float value`: the bit pattern stored. -/
def atof (s : Str) : Nat :=
  let s1 := s.dropWhile isspace
  let sign := if s1.head? = some '-' then 2147483648 else 0
  let s2 := if s1.head? = some '-' ∨ s1.head? = some '+' then s1.tail else s1
  match strtod_magnitude s2 with
  | .finite n d => sign + float_of_fraction n d
  | .infinite => sign + 2139095040
  | .not_a_number => sign + 2143289344

/-- The characters `snprintf(curvalue,100,"%f",(float)value)` writes (the longest output,
for the largest finite float, has 47 characters). -/
def format_f (bits : Nat) : Str :=
  let sign : Str := if bits / 2147483648 % 2 = 1 then ['-'] else []
  let ex := bits / 8388608 % 256
  let frac := bits % 8388608
  if ex = 255 then sign ++ (if frac = 0 then ['i', 'n', 'f'] else ['n', 'a', 'n'])
  else
    let m := if ex = 0 then frac else 8388608 + frac
    let e : Int := if ex = 0 then -149 else (ex : Int) - 150
    let t := scale2 (m * 1000000) 1 e
    let n := round_half_even t.1 t.2
    sign ++ decimal (n / 1000000) ++ ['.'] ++ pad_zeros 6 (decimal (n % 1000000))

/-! ## Utility functions of `webconfig.cpp` -/

/-- `itos`: `snprintf(v,100,"%d",(int)i)`. -/
def itos (i : Int) : Str :=
  if i < 0 then '-' :: decimal (-i).toNat else decimal i.toNat

/-- `count_newlines`: the number of newlines in the string (an `int` counter). -/
def count_newlines (src : Str) : Int := (src.filter (fun c => c = '\n')).length

/-- `escape_HTML`: quotes and other bad HTML are replaced by entities. -/
def escape_HTML : Str → Str
  | [] => []
  | c :: str =>
    if c = '"' then "&quot;".data ++ escape_HTML str
    else if c = '<' then "&lt;".data ++ escape_HTML str
    else if c = '>' then "&gt;".data ++ escape_HTML str
    else if c = '&' then "&amp;".data ++ escape_HTML str
    else c :: escape_HTML str

/-- `unescape_URL`: `+` stands for a space; a `%` with at least two characters after it
(`i+2<str.size()`) is replaced, together with them, by the character `sscanf("%x")` reads
from the two; every other character is copied. -/
def unescape_URL : Str → Str
  | [] => []
  | c :: a :: b :: str =>
    if c = '+' then ' ' :: unescape_URL (a :: b :: str)
    else if c = '%' then Char.ofNat (sscanf_hex2 a b) :: unescape_URL str
    else c :: unescape_URL (a :: b :: str)
  | c :: str =>
    if c = '+' then ' ' :: unescape_URL str else c :: unescape_URL str

/-- The `std::string` built from `s.c_str()`: the characters before the first NUL. -/
def c_str (s : Str) : Str := s.takeWhile (fun c => c ≠ Char.ofNat 0)

/-! ## Data model (`webconfig.h`) -/

/-- `name_value_record`: one value of an enum and its human/GUI name. A table is a list of
records (the terminating record with `name == 0` is the end of the list). -/
structure name_value_record where
  value : Nat
  name : Str
deriving DecidableEq, Repr

/-- What a registered object's `pup` routine presents to a visitor, in order:
`PUPc` comments, `float`, `int`, `std::string` and enum fields (`p.pup(shortname, value)`),
and sub-objects (the object `pup` template, bracketed by `pup_objectbegin` and
`pup_objectend`). The `value`s are the live variables. -/
inductive Item where
  | comment (s : Str)
  | pfloat (shortname : Str) (value : Nat)
  | pint (shortname : Str) (value : Int)
  | pstring (shortname : Str) (value : Str)
  | penum (shortname : Str) (value : Nat) (namevalue : List name_value_record)
  | object (shortname : Str) (fields : List Item)

/-- `webconfig_pup_list` together with the objects it points to, in registration order.
An entry made for an object is an `Item.object` carrying the registration name; an entry
made for a `float`, `int` or `std::string` variable is that scalar item, since the scalar
overloads of `pup` are chosen before the object template. -/
abbrev Registry := List Item

/-- `webconfig_add_pup`: add this object to be pup'd at any time by webconfig. -/
def webconfig_add_pup (reg : Registry) (p : Item) : Registry := reg ++ [p]

/-- `pup_er_virtual`: the virtual methods of a visitor whose own state has type `σ`.
A method receives the field by reference, so it returns the field's new value. -/
structure pup_er_virtual (σ : Type) where
  comment : Str → σ → σ
  pup_float : Str → Nat → σ → Nat × σ
  pup_int : Str → Int → σ → Int × σ
  pup_string : Str → Str → σ → Str × σ
  pup_enum : Str → Nat → List name_value_record → σ → Nat × σ
  pup_objectbegin : Str → σ → σ
  pup_objectend : Str → σ → σ

/-- The default enum method of `pup_er_virtual`, "pup enums like ints":
`int v=value; pup(shortname,v); value=v;`. -/
def pup_enum_default {σ : Type} (pup_int : Str → Int → σ → Int × σ)
    (shortname : Str) (value : Nat) (_namevalues : List name_value_record) (s : σ) : Nat × σ :=
  (to_unsigned (pup_int shortname (to_int value) s).1, (pup_int shortname (to_int value) s).2)

mutual
/-- The free function `pup(p, shortname, value)`: a scalar or enum goes to the visitor's
method; any other type goes through the object template
`p.pup_objectbegin(shortname); pup(p,value); p.pup_objectend(shortname);`. -/
def pup {σ : Type} (p : pup_er_virtual σ) : Item → σ → Item × σ
  | .comment s, st => (.comment s, p.comment s st)
  | .pfloat n v, st => (.pfloat n (p.pup_float n v st).1, (p.pup_float n v st).2)
  | .pint n v, st => (.pint n (p.pup_int n v st).1, (p.pup_int n v st).2)
  | .pstring n v, st => (.pstring n (p.pup_string n v st).1, (p.pup_string n v st).2)
  | .penum n v nv, st => (.penum n (p.pup_enum n v nv st).1 nv, (p.pup_enum n v nv st).2)
  | .object n fs, st =>
    (.object n (pup_fields p fs (p.pup_objectbegin n st)).1,
     p.pup_objectend n (pup_fields p fs (p.pup_objectbegin n st)).2)
/-- The body of a user `pup(p, value)` routine: its fields one after the other. -/
def pup_fields {σ : Type} (p : pup_er_virtual σ) : List Item → σ → List Item × σ
  | [], st => ([], st)
  | i :: is, st =>
    ((pup p i st).1 :: (pup_fields p is (pup p i st).2).1, (pup_fields p is (pup p i st).2).2)
end

/-- `webconfig_pup_all`: every registered object is pup'd, in registration order. -/
def webconfig_pup_all {σ : Type} (p : pup_er_virtual σ) (reg : Registry) (st : σ) :
    Registry × σ :=
  pup_fields p reg st

/-! ## Binary streams and the two binary visitors -/

/-- A `std::istream` over a file: the characters not yet read, whether the stream is still
`good()`, and whether an exception has left the traversal (`std::string::resize` with a
negative length). -/
structure istream where
  data : Str
  good : Bool
  thrown : Bool
deriving DecidableEq, Repr

/-- `s.read(ptr, n)` onto memory that held `old`: a stream that is not good stores nothing;
otherwise the available characters, up to `n`, overwrite the start of the memory, and the
stream stops being good when fewer than `n` were available. -/
def istream.read (s : istream) (old : Str) (n : Nat) : Str × istream :=
  if s.good then
    ((s.data.take n) ++ old.drop (s.data.take n).length,
     { s with data := s.data.drop n, good := decide (n ≤ s.data.length) })
  else (old, s)

/-- `value.resize(len)` for `len ≥ 0`: truncation, or padding with NUL characters. -/
def resize (value : Str) (len : Nat) : Str :=
  value.take len ++ List.replicate (len - value.length) (Char.ofNat 0)

/-- `pup_from_binary_file::pup(const char *,std::string &)`. -/
def pup_from_binary_file_string (value : Str) (s : istream) : Str × istream :=
  let r1 := s.read (int_bytes (to_int value.length)) 4
  let len := bytes_int r1.1
  if len < 0 then (value, { r1.2 with thrown := true })
  else (r1.2.read (resize value len.toNat) len.toNat)

/-- `pup_from_binary_file`: read object data from a simple flat binary file. After an
exception no further method runs. -/
def pup_from_binary_file : pup_er_virtual istream :=
  let pup_int : Str → Int → istream → Int × istream := fun _ value s =>
    if s.thrown then (value, s)
    else (bytes_int (s.read (int_bytes value) 4).1, (s.read (int_bytes value) 4).2)
  { comment := fun _ s => s
    pup_float := fun _ value s =>
      if s.thrown then (value, s)
      else (bytes_float (s.read (float_bytes value) 4).1, (s.read (float_bytes value) 4).2)
    pup_int := pup_int
    pup_string := fun _ value s =>
      if s.thrown then (value, s) else pup_from_binary_file_string value s
    pup_enum := fun shortname value namevalues s =>
      if s.thrown then (value, s) else pup_enum_default pup_int shortname value namevalues s
    pup_objectbegin := fun _ s => s
    pup_objectend := fun _ s => s }

/-- `pup_to_binary_file`: write object data to a simple flat binary file. The state is the
`std::ostream`: the characters written so far. The string method writes
`int len=value.length()` and then `len` characters. -/
def pup_to_binary_file : pup_er_virtual Str :=
  let pup_int : Str → Int → Str → Int × Str := fun _ value s => (value, s ++ int_bytes value)
  { comment := fun _ s => s
    pup_float := fun _ value s => (value, s ++ float_bytes value)
    pup_int := pup_int
    pup_string := fun _ value s =>
      (value, s ++ int_bytes (to_int value.length) ++ value.take (to_int value.length).toNat)
    pup_enum := pup_enum_default pup_int
    pup_objectbegin := fun _ s => s
    pup_objectend := fun _ s => s }

/-! ## The Name/Value Applier (`pup_from_name_value`) -/

/-- The mutable members of `pup_from_name_value`. `old_addresses` is the vector used as a
stack, most recent entry first. -/
structure name_value_state where
  found : Bool
  address : Str
  old_addresses : List Str
deriving DecidableEq, Repr

/-- `pup_from_name_value::inner`: is this field the one we are looking for? Sets `found`. -/
def pup_from_name_value_inner (target shortname : Str) (s : name_value_state) :
    Bool × name_value_state :=
  if s.address ++ shortname = target then (true, { s with found := true }) else (false, s)

/-- `pup_from_name_value`: write to only this name and value. -/
def pup_from_name_value (target newvalue : Str) : pup_er_virtual name_value_state where
  comment := fun _ s => s
  pup_float := fun shortname value s =>
    if (pup_from_name_value_inner target shortname s).1
    then (atof (c_str newvalue), (pup_from_name_value_inner target shortname s).2)
    else (value, (pup_from_name_value_inner target shortname s).2)
  pup_int := fun shortname value s =>
    if (pup_from_name_value_inner target shortname s).1
    then (atoi (c_str newvalue), (pup_from_name_value_inner target shortname s).2)
    else (value, (pup_from_name_value_inner target shortname s).2)
  pup_string := fun shortname value s =>
    if (pup_from_name_value_inner target shortname s).1
    then (unescape_URL newvalue, (pup_from_name_value_inner target shortname s).2)
    else (value, (pup_from_name_value_inner target shortname s).2)
  pup_enum := fun shortname value _ s =>
    if (pup_from_name_value_inner target shortname s).1
    then (to_unsigned (atoi (c_str newvalue)), (pup_from_name_value_inner target shortname s).2)
    else (value, (pup_from_name_value_inner target shortname s).2)
  pup_objectbegin := fun shortname s =>
    { s with old_addresses := s.address :: s.old_addresses,
             address := s.address ++ shortname ++ ['.'] }
  pup_objectend := fun _ s =>
    { s with address := s.old_addresses.headD [], old_addresses := s.old_addresses.tail }

/-- The state a freshly constructed `pup_from_name_value` starts in. -/
def name_value_state.init : name_value_state :=
  { found := false, address := [], old_addresses := [] }

/-! ## The HTML Form Renderer (`pup_to_HTML_form`) -/

/-- The mutable members of `pup_to_HTML_form` and the string `html` it writes to. -/
structure html_form_state where
  html : Str
  indent : Int
  divcount : Int
  address : Str
  old_addresses : List Str
deriving DecidableEq, Repr

/-- `getobjectcolor`: the color of an object's content div. -/
def getobjectcolor (indent : Int) : Str :=
  if indent = 0 then "#f0f0f0".data
  else if indent = 1 then "#d0d0d0".data
  else if indent = 2 then "#b0b0b0".data
  else "#909090".data

/-- `itemdiv`: make a div for this item; the low digit of the color alternates. -/
def itemdiv (s : html_form_state) : Str × html_form_state :=
  let divcount := s.divcount + 1
  let color := getobjectcolor s.indent
  let color := if divcount % 2 ≠ 0 then color.set 6 '9' else color.set 2 '9'
  ("<DIV STYLE=\"background-color:".data ++ color ++ "\">\n\t".data,
   { s with divcount := divcount })

/-- `startform`. -/
def startform (form_name : Str) (s : html_form_state) : Str × html_form_state :=
  ((itemdiv s).1 ++ "<FORM ACTION=\"/".data ++ form_name ++ "\">".data, (itemdiv s).2)

/-- `endform`. -/
def endform : Str := "<INPUT type=\"submit\" value=\"Go!\"/></FORM></DIV>\n\n".data

/-- `pup_to_HTML_form::inner`: an HTML form to set this field, with this current value. -/
def pup_to_HTML_form_inner (form_name shortname curvalue : Str) (s : html_form_state) :
    html_form_state :=
  { (startform form_name s).2 with
    html := s.html ++ ((startform form_name s).1
      ++ shortname ++ ": <INPUT type=\"text\" name=\"".data
      ++ (s.address ++ shortname) ++ "\" value=\"".data
      ++ curvalue ++ "\" />".data
      ++ endform) }

/-- The loop over the enum options in `pup_to_HTML_form::pup` for enums. -/
def html_options (value : Nat) : List name_value_record → Str → Str
  | [], html => html
  | nv :: rest, html =>
    html_options value rest
      ((html ++ "<option value=\"".data ++ itos (to_int nv.value) ++ "\" ".data
        ++ (if value = nv.value then "selected=\"selected\"".data else []))
        ++ ">".data ++ nv.name ++ "</option>\n".data)

/-- `pup_to_HTML_form`: convert arbitrary incoming types into working HTML form fields,
a separate FORM for each field. -/
def pup_to_HTML_form (form_name : Str) : pup_er_virtual html_form_state where
  comment := fun c s => { s with html := s.html ++ c }
  pup_float := fun shortname value s =>
    (value, pup_to_HTML_form_inner form_name shortname (format_f value) s)
  pup_int := fun shortname value s =>
    (value, pup_to_HTML_form_inner form_name shortname (itos value) s)
  pup_string := fun shortname value s =>
    if count_newlines value = 0 then
      (value, pup_to_HTML_form_inner form_name shortname (c_str (escape_HTML value)) s)
    else
      (value, { (startform form_name s).2 with
        html := s.html ++ ((startform form_name s).1
          ++ shortname ++ ":<br>\n<textarea name=\"".data ++ (s.address ++ shortname)
          ++ "\" cols=\"85\" rows=\"".data ++ itos (to_int (count_newlines value + 2))
          ++ "\">".data ++ escape_HTML value ++ "</textarea><br>".data ++ endform) })
  pup_enum := fun shortname value namevalue s =>
    (value, { (startform form_name s).2 with
      html := html_options value namevalue
          (s.html ++ ((startform form_name s).1
            ++ shortname ++ ": <SELECT name=\"".data ++ (s.address ++ shortname)
            ++ "\" >\n".data))
        ++ ("</SELECT>".data ++ endform) })
  pup_objectbegin := fun shortname s =>
    { (itemdiv s).2 with
      old_addresses := s.address :: s.old_addresses
      html := s.html ++ (itemdiv s).1 ++ (s.address ++ "<B>".data ++ shortname ++ "</B> \x7b".data)
        ++ "<DIV STYLE=\"margin-left:1em; padding-left:1em;\">\n".data
      address := s.address ++ shortname ++ ['.']
      indent := s.indent + 1 }
  pup_objectend := fun _ s =>
    { s with
      html := s.html ++ "</DIV>\x7d<br>\n\n".data ++ "</DIV><br>".data
      indent := s.indent - 1
      address := s.old_addresses.headD []
      old_addresses := s.old_addresses.tail }

/-- The state of a freshly constructed `pup_to_HTML_form` writing to `html`. -/
def html_form_state.init (html : Str) : html_form_state :=
  { html := html, indent := 0, divcount := 0, address := [], old_addresses := [] }

/-! ## The served client (`webserver.h`, `webserver.cpp`) -/

/-- `http_served_client`: the requested path, the header map, the error flag, and `wire`,
the bytes handed to the socket so far (`skt_sendN`). -/
structure http_served_client where
  path : Str
  header : List (Str × Str)
  error : Option Str
  wire : Str
deriving DecidableEq, Repr

/-- `send_raw`: `skt_sendN(s,data,nData)`. -/
def http_served_client.send_raw (c : http_served_client) (data : Str) (nData : Int) :
    http_served_client :=
  { c with wire := c.wire ++ data.take nData.toNat }

/-- `send_header`: the `sprintf` of the status line and the three header lines, sent raw;
a mime type of 800 characters or more only sets the error flag. -/
def http_served_client.send_header (c : http_served_client) (mime_type : Str)
    (total_data_length : Int) (status : Int) : http_served_client :=
  if 800 ≤ mime_type.length then { c with error := some "Ridiculous mime_type length".data }
  else
    let header : Str :=
      "HTTP/1.1 ".data ++ itos status ++ " ".data
        ++ (if status = 200 then "OK".data else "error".data) ++ "\r\n".data
        ++ "Content-Length: ".data ++ itos total_data_length ++ "\r\n".data
        ++ "Connection: close\r\n".data
        ++ "Content-Type: ".data ++ c_str mime_type ++ "\r\n".data
        ++ "\r\n".data
    c.send_raw header (to_int header.length)

/-- `send(mime_type, str)`: a complete HTTP header and this data (`nData` is an `int`). -/
def http_served_client.send (c : http_served_client) (mime_type : Str) (str : Str) :
    http_served_client :=
  (c.send_header mime_type (to_int str.length) 200).send_raw str (to_int str.length)

/-! ## The editor (`webconfig_editor`) and the persistence file -/

/-- The process state the editor works on: the registry with its live objects, and the
content of the file `WEBCONFIG_FILENAME` (`none` when the file does not exist). Opening the
file for writing is taken to succeed. Diagnostics written to `std::cout` are left out. -/
structure World where
  registry : Registry
  config_file : Option Str

/-- `webconfig_save`: save a copy of the data to the `.dat` file. -/
def webconfig_save (w : World) : World :=
  { registry := (webconfig_pup_all pup_to_binary_file w.registry []).1
    config_file := some (webconfig_pup_all pup_to_binary_file w.registry []).2 }

/-- The `std::ifstream` opened on the file: not good when the file does not exist. -/
def open_istream (file : Option Str) : istream :=
  match file with
  | some data => { data := data, good := true, thrown := false }
  | none => { data := [], good := false, thrown := false }

/-- `webconfig_restore`: restore our objects from the `.dat` file; an exception is caught. -/
def webconfig_restore (w : World) : World :=
  { w with
    registry := (webconfig_pup_all pup_from_binary_file w.registry (open_istream w.config_file)).1 }

/-- `webconfig_editor`: the relative URL of the form and the two public page fragments. -/
structure webconfig_editor where
  form_name : Str
  page_start : Str
  page_end : Str
deriving DecidableEq, Repr

/-- The constructor `webconfig_editor(form_name_)`. `OSL_QUOTE_HTML` stringizes its argument
(white space between tokens becomes one space) and appends a newline. -/
def webconfig_editor.new (form_name : Str) : webconfig_editor where
  form_name := form_name
  page_start :=
    "<HTML><TITLE>Edit Configuration</TITLE> <BODY> <H1>Configuration Editor</H1>\n".data
    ++ ("<FORM ACTION=\"/".data ++ form_name
        ++ "\"><INPUT type=\"submit\" value=\"Refresh\" /></FORM>\n\n".data)
    ++ "Enter new values and hit enter or Submit:<br>\n".data
  page_end := "</BODY> </HTML>\n".data

/-- `parameters.find_first_of("=")`: the index of the first `=`, `none` for `npos`. -/
def find_first_of_eq : Str → Option Nat
  | [] => none
  | c :: cs => if c = '=' then some 0 else (find_first_of_eq cs).map (· + 1)

/-- `webconfig_editor::apply_parameters`: change our values according to these CGI FORM
parameters. Returns the `bool`, the page text `html` and the new process state. -/
def webconfig_editor.apply_parameters (_e : webconfig_editor) (html : Str) (parameters : Str)
    (w : World) : Bool × Str × World :=
  if parameters.length < 2 then (true, html, w)
  else
    match find_first_of_eq parameters with
    | none => (false, html ++ "<P>ERROR! Missing equals sign in CGI parameters!\n".data, w)
    | some eq =>
      let fullname := parameters.take eq
      let value := parameters.drop (eq + 1)
      let p := webconfig_pup_all (pup_from_name_value fullname value) w.registry .init
      let w1 := webconfig_save { w with registry := p.1 }
      if p.2.found then (true, html, w1)
      else (false, html ++ ("<P>ERROR! Missing field \x27".data ++ fullname ++ "\x27!\n".data), w1)

/-- `webconfig_editor::respond`. Returns `send_response`, the client after the response
(if any) was sent, and the new process state. -/
def webconfig_editor.respond (e : webconfig_editor) (client : http_served_client) (w : World) :
    Bool × http_served_client × World :=
  let html := e.page_start
  let initial : Bool := client.path = ['/'] ∨ client.path = '/' :: e.form_name
  let coming_back : Bool :=
    client.path.take (2 + e.form_name.length) = '/' :: e.form_name ++ ['?']
  let send_response := initial || coming_back
  let a : Bool × Str × World :=
    if coming_back then e.apply_parameters html (client.path.drop (2 + e.form_name.length)) w
    else (initial, html, w)
  let make_form := a.1
  let f := webconfig_pup_all (pup_to_HTML_form e.form_name) a.2.2.registry (.init a.2.1)
  let html := if make_form then f.2.html ++ e.page_end else a.2.1
  let w2 : World := if make_form then { a.2.2 with registry := f.1 } else a.2.2
  (send_response, if send_response then client.send "text/html".data html else client, w2)

/-! ## Fields, shapes and representable values (the vocabulary of the specification) -/

/-- The value of a field. -/
inductive Value where
  | vfloat (bits : Nat)
  | vint (v : Int)
  | vstring (v : Str)
  | venum (v : Nat)
deriving DecidableEq, Repr

mutual
/-- The fields below an item, in traversal order, each with its fully-qualified path:
the names of all enclosing objects, each followed by a dot, then the short name. -/
def Item.fields (address : Str) : Item → List (Str × Value)
  | .comment _ => []
  | .pfloat n v => [(address ++ n, .vfloat v)]
  | .pint n v => [(address ++ n, .vint v)]
  | .pstring n v => [(address ++ n, .vstring v)]
  | .penum n v _ => [(address ++ n, .venum v)]
  | .object n fs => fields_of (address ++ n ++ ['.']) fs
/-- The fields of a list of items. -/
def fields_of (address : Str) : List Item → List (Str × Value)
  | [] => []
  | i :: is => i.fields address ++ fields_of address is
end

mutual
/-- The shape of an item: its structure, names and enum tables, with every value blanked. -/
def Item.shape : Item → Item
  | .comment s => .comment s
  | .pfloat n _ => .pfloat n 0
  | .pint n _ => .pint n 0
  | .pstring n _ => .pstring n []
  | .penum n _ nv => .penum n 0 nv
  | .object n fs => .object n (shape_of fs)
/-- The shape of a list of items. -/
def shape_of : List Item → List Item
  | [] => []
  | i :: is => i.shape :: shape_of is
end

mutual
/-- Every value below the item is one its C++ type can hold: a 32-bit pattern for a `float`
and an `unsigned int`, a 32-bit two's-complement number for an `int`. -/
def Item.typed : Item → Bool
  | .comment _ => true
  | .pfloat _ v => decide (v < 4294967296)
  | .pint _ v => decide (to_int v = v)
  | .pstring _ _ => true
  | .penum _ v _ => decide (v < 4294967296)
  | .object _ fs => typed_all fs
/-- Every item of the list is typed. -/
def typed_all : List Item → Bool
  | [] => true
  | i :: is => i.typed && typed_all is
end

mutual
/-- Every value below the item is one the C++ types can hold and the binary format can
carry: 32-bit floats, ints and enums, strings shorter than `2^31`. -/
def Item.storable : Item → Bool
  | .comment _ => true
  | .pfloat _ v => decide (v < 4294967296)
  | .pint _ v => decide (to_int v = v)
  | .pstring _ v => decide (v.length < 2147483648)
  | .penum _ v _ => decide (v < 4294967296)
  | .object _ fs => storable_all fs
/-- Every item of the list is storable. -/
def storable_all : List Item → Bool
  | [] => true
  | i :: is => i.storable && storable_all is
end

/-! ## Example registries -/

/-- The registry of the specification's example: one object `camera` with `x: float=1.0`,
`y: int=2`, `label: string="home"` and an enum `mode`. -/
def camera_saved : Registry :=
  [.object "camera".data
    [.pfloat "x".data 1065353216, .pint "y".data (-2), .pstring "label".data "home".data,
     .penum "mode".data 1 [⟨0, "off".data⟩, ⟨1, "on".data⟩]]]

/-- A registry of the same shape as `camera_saved` holding other values. -/
def camera_other : Registry :=
  [.object "camera".data
    [.pfloat "x".data 0, .pint "y".data 7, .pstring "label".data "elsewhere".data,
     .penum "mode".data 0 [⟨0, "off".data⟩, ⟨1, "on".data⟩]]]

/-- What the Applier stores in a matching field for the raw value `newvalue`: the numeric
parse for a float, an int or an enum, the url-decoded text for a string. -/
def assigned (newvalue : Str) : Value → Value
  | .vfloat _ => .vfloat (atof (c_str newvalue))
  | .vint _ => .vint (atoi (c_str newvalue))
  | .vstring _ => .vstring (unescape_URL newvalue)
  | .venum _ => .venum (to_unsigned (atoi (c_str newvalue)))

/-- The effect of an update aimed at `target` on one field of the field list. -/
def update_field (target newvalue : Str) (f : Str × Value) : Str × Value :=
  if f.1 = target then (f.1, assigned newvalue f.2) else f

/-- A client whose request line asked for `path`, before anything is sent. -/
def client_asking (path : Str) : http_served_client :=
  { path := path, header := [], error := none, wire := [] }

/-- The editor `webconfig_init` installs: `new webconfig_editor("conf")`. -/
def conf_editor : webconfig_editor := webconfig_editor.new "conf".data

/-- The renderer state whose page text has `h` in front of it (a device for stating that
the renderer only appends to `html`). -/
def html_form_state.prepend (h : Str) (s : html_form_state) : html_form_state :=
  { s with html := h ++ s.html }

/-- Two registered `int` variables `a` and `b` (`WEBCONFIG_THIS(a); WEBCONFIG_THIS(b);`). -/
def ab_registry : Registry := [.pint "a".data 0, .pint "b".data 0]

/-- The object of the specification's end-to-end examples: `camera` with `x: float=1.0`,
`y: int=2`, `label: string="home"`. -/
def camera : Registry :=
  [.object "camera".data
    [.pfloat "x".data 1065353216, .pint "y".data 2, .pstring "label".data "home".data]]

/-- One object `o` with an int field `f = 1` and a string field `g` whose value holds a NUL
character between `a` and `b` (what `GET /conf?o.g=a%00b` stores). -/
def nul_registry : Registry :=
  [.object "o".data [.pint "f".data 1, .pstring "g".data ['a', Char.ofNat 0, 'b']]]

/-! ## Vocabulary of the later claims -/

/-- The reference URL-value decoder of the specification: `+` decodes to a space, `%XY`
decodes to the single byte with value `16*X+Y`, every other character passes through
unchanged (a `%` without two characters after it is such an other character). -/
def reference_url_decode : Str → Str
  | [] => []
  | c :: x :: y :: rest =>
    if c = '%' then Char.ofNat (16 * hexval x + hexval y) :: reference_url_decode rest
    else if c = '+' then ' ' :: reference_url_decode (x :: y :: rest)
    else c :: reference_url_decode (x :: y :: rest)
  | c :: rest =>
    if c = '+' then ' ' :: reference_url_decode rest else c :: reference_url_decode rest

/-- Well-formed input of the decoder: each `%` is followed by two hexadecimal digits. -/
def percent_well_formed (s : Str) : Prop :=
  ∀ i < s.length, s.get? i = some '%' →
    (s.get? (i + 1)).any isxdigit = true ∧ (s.get? (i + 2)).any isxdigit = true

instance (s : Str) : Decidable (percent_well_formed s) := by
  unfold percent_well_formed
  exact inferInstance

/-- The hexadecimal digit (upper case) of a value below 16. -/
def hex_digit (d : Nat) : Char := if d < 10 then Char.ofNat (48 + d) else Char.ofNat (55 + d)

/-- The text that writes each byte of `b` as `%` plus its two hexadecimal digits. -/
def percent_encode : Str → Str
  | [] => []
  | c :: b => '%' :: hex_digit (c.toNat / 16) :: hex_digit (c.toNat % 16) :: percent_encode b

/-- The bytes of the persistence format for one field value: 4 bytes for a float, an int or
an enum (the 32-bit pattern, lowest byte first), and for a string a 4-byte length followed by
the raw bytes. -/
def encode_value : Value → Str
  | .vfloat bits => bytes4 (bits % 4294967296)
  | .vint v => int_bytes v
  | .vstring s => int_bytes s.length ++ s
  | .venum v => bytes4 (v % 4294967296)

/-- The concatenation of the encodings of a list of values, in order. -/
def encode_values : List Value → Str
  | [] => []
  | v :: vs => encode_value v ++ encode_values vs

/-- A float, int or enum value, as opposed to a string. -/
def Value.is_numeric : Value → Bool
  | .vstring _ => false
  | _ => true

/-- The share of a value in the sum over string fields of `4 + length`. -/
def Value.string_share : Value → Nat
  | .vstring s => 4 + s.length
  | _ => 0

/-- The length of a string value fits the 4-byte `int` length of the persistence format
(it is below `2^31`); numeric values always fit. -/
def Value.length_fits : Value → Bool
  | .vstring s => decide (s.length < 2147483648)
  | _ => true

/-- The values of `camera_saved`, in the same order, under other names and another nesting. -/
def camera_renamed : Registry :=
  [.pfloat "a".data 1065353216,
   .object "q".data
     [.pint "b".data (-2),
      .object "r".data [.pstring "c".data "home".data, .penum "d".data 1 []]]]

/-- The `camera` object after edits: `x = 3.5`, `y = 7`, `label = "den"`. -/
def camera_edited : Registry :=
  [.object "camera".data
    [.pfloat "x".data 1080033280, .pint "y".data 7, .pstring "label".data "den".data]]

/-- One call a visitor receives during a traversal. -/
inductive Call where
  | comment (s : Str)
  | scalar (shortname : Str)
  | enumerated (shortname : Str)
  | objectbegin (shortname : Str)
  | objectend (shortname : Str)
deriving DecidableEq, Repr

/-- A visitor (one more subclass of `pup_er_virtual`) that changes nothing and records the
calls it receives, in order; it makes the sequence of calls of a traversal observable. -/
def call_recorder : pup_er_virtual (List Call) where
  comment := fun c s => s ++ [.comment c]
  pup_float := fun n v s => (v, s ++ [.scalar n])
  pup_int := fun n v s => (v, s ++ [.scalar n])
  pup_string := fun n v s => (v, s ++ [.scalar n])
  pup_enum := fun n v _ s => (v, s ++ [.enumerated n])
  pup_objectbegin := fun n s => s ++ [.objectbegin n]
  pup_objectend := fun n s => s ++ [.objectend n]

/-- A registered `int` variable `speed` (`int speed=3; WEBCONFIG_THIS(speed);`). -/
def speed_registry : Registry := webconfig_add_pup [] (.pint "speed".data 3)


/-- The short name under which an item is pup'd (empty for a comment). -/
def Item.shortname : Item → Str
  | .comment _ => []
  | .pfloat n _ => n
  | .pint n _ => n
  | .pstring n _ => n
  | .penum n _ _ => n
  | .object n _ => n

/-- A scalar or enum field, as opposed to a comment or a composite object. -/
def Item.is_field : Item → Bool
  | .comment _ => false
  | .object _ _ => false
  | _ => true

mutual
/-- The field visits of a traversal, in order: every scalar or enum item a visitor method is
called for, with the state of the visitor at the call. -/
def field_visits {σ : Type} (p : pup_er_virtual σ) : Item → σ → List (Item × σ)
  | .comment _, _ => []
  | .pfloat n v, st => [(.pfloat n v, st)]
  | .pint n v, st => [(.pint n v, st)]
  | .pstring n v, st => [(.pstring n v, st)]
  | .penum n v nv, st => [(.penum n v nv, st)]
  | .object n fs, st => field_visits_of p fs (p.pup_objectbegin n st)
/-- The field visits of a list of items pup'd one after the other. -/
def field_visits_of {σ : Type} (p : pup_er_virtual σ) : List Item → σ → List (Item × σ)
  | [], _ => []
  | i :: is, st => field_visits p i st ++ field_visits_of p is (pup p i st).2
end

/-- The names joined with `.` between them. -/
def dotted : List Str → Str
  | [] => []
  | [a] => a
  | a :: b :: rest => a ++ '.' :: dotted (b :: rest)

mutual
/-- The fully-qualified paths of the fields below an item, as the specification words them:
the enclosing composite names and the short name, joined with `.`. -/
def Item.dotted_paths (enclosing : List Str) : Item → List Str
  | .comment _ => []
  | .pfloat n _ => [dotted (enclosing ++ [n])]
  | .pint n _ => [dotted (enclosing ++ [n])]
  | .pstring n _ => [dotted (enclosing ++ [n])]
  | .penum n _ _ => [dotted (enclosing ++ [n])]
  | .object n fs => dotted_paths_of (enclosing ++ [n]) fs
/-- The fully-qualified paths of the fields of a list of items. -/
def dotted_paths_of (enclosing : List Str) : List Item → List Str
  | [] => []
  | i :: is => i.dotted_paths enclosing ++ dotted_paths_of enclosing is
end

/-- The address prefix a visitor holds inside the objects `enclosing` (outermost first):
every name followed by a dot. -/
def address_of : List Str → Str
  | [] => []
  | a :: rest => a ++ '.' :: address_of rest

/-- The path-stack discipline shared by the Applier and the Renderer, stated for a visitor
with an `address` and an `old_addresses` member: the methods for comments and fields leave
both alone, `pup_objectbegin` pushes the address and extends it by the name and a dot,
`pup_objectend` pops it. -/
structure tracks_address {σ : Type} (p : pup_er_virtual σ) (address : σ → Str)
    (old_addresses : σ → List Str) : Prop where
  comment : ∀ c s, address (p.comment c s) = address s
    ∧ old_addresses (p.comment c s) = old_addresses s
  pup_float : ∀ n v s, address (p.pup_float n v s).2 = address s
    ∧ old_addresses (p.pup_float n v s).2 = old_addresses s
  pup_int : ∀ n v s, address (p.pup_int n v s).2 = address s
    ∧ old_addresses (p.pup_int n v s).2 = old_addresses s
  pup_string : ∀ n v s, address (p.pup_string n v s).2 = address s
    ∧ old_addresses (p.pup_string n v s).2 = old_addresses s
  pup_enum : ∀ n v nv s, address (p.pup_enum n v nv s).2 = address s
    ∧ old_addresses (p.pup_enum n v nv s).2 = old_addresses s
  pup_objectbegin : ∀ n s, address (p.pup_objectbegin n s) = address s ++ n ++ ['.']
    ∧ old_addresses (p.pup_objectbegin n s) = address s :: old_addresses s
  pup_objectend : ∀ n s, address (p.pup_objectend n s) = (old_addresses s).headD []
    ∧ old_addresses (p.pup_objectend n s) = (old_addresses s).tail

/-- A `comment` call, which names no field. -/
def Item.is_comment : Item → Bool
  | .comment _ => true
  | _ => false

/-- The short names under which the fields and objects of a list are pup'd, in order. -/
def names_of (is : List Item) : List Str :=
  (is.filter (fun i => !i.is_comment)).map Item.shortname

/-- The name holds no `.` character. -/
def dot_free (n : Str) : Bool := n.all (fun c => c != '.')

mutual
/-- Every name below the item is free of dots and the names pup'd inside one object are
pairwise distinct. -/
def Item.well_named : Item → Bool
  | .comment _ => true
  | .pfloat n _ => dot_free n
  | .pint n _ => dot_free n
  | .pstring n _ => dot_free n
  | .penum n _ _ => dot_free n
  | .object n fs => dot_free n && (well_named_all fs && decide (names_of fs).Nodup)
/-- Every item of the list is well named. -/
def well_named_all : List Item → Bool
  | [] => true
  | i :: is => i.well_named && well_named_all is
end

/-- The registry after one `webconfig_add_pup` call for each entry, in order, starting from
the empty `webconfig_pup_list`. -/
def registered (entries : List Item) : Registry := entries.foldl webconfig_add_pup []

/-- Two `int` variables, both registered under the name `speed`. -/
def speed_twice : Registry :=
  webconfig_add_pup (webconfig_add_pup [] (.pint "speed".data 3)) (.pint "speed".data 4)

/-! ## Intervals (`vector1d.h`) -/

/-- `seg1dT<int>` (`seg1i`): a closed span of 1d space, `[min,max]`. -/
structure seg1dT where
  min : Int
  max : Int
deriving DecidableEq, Repr

/-- `getHiValue`: `std::numeric_limits<int>::max()`. -/
def seg1dT.getHiValue : Int := 2147483647

/-- `getLoValue`: `std::numeric_limits<int>::min()`, since `int` is an integer type. -/
def seg1dT.getLoValue : Int := -2147483648

/-- `empty`: set this span to contain no points (also what the default constructor does). -/
def seg1dT.empty : seg1dT := { min := seg1dT.getHiValue, max := seg1dT.getLoValue }

/-- `infinity`: set this span to contain all points. -/
def seg1dT.infinity : seg1dT := { min := seg1dT.getLoValue, max := seg1dT.getHiValue }

/-- `isEmpty`: return true if this span is empty. -/
def seg1dT.isEmpty (a : seg1dT) : Bool := decide (a.max < a.min)

/-- `getIntersection`: return the intersection of this and that seg. -/
def seg1dT.getIntersection (a b : seg1dT) : seg1dT :=
  { min := if a.min > b.min then a.min else b.min
    max := if a.max < b.max then a.max else b.max }

/-- `contains(T b)`: return true if this seg contains this point in its interior or boundary
(closed interval). -/
def seg1dT.contains (a : seg1dT) (b : Int) : Bool := decide (a.min ≤ b) && decide (b ≤ a.max)

/-- `contains(const seg1d &b)`: return true if this seg contains the segment `b`. -/
def seg1dT.contains_seg (a b : seg1dT) : Bool :=
  decide (a.min ≤ b.min) && decide (b.max ≤ a.max)

/-- `intersects`: return true if this seg and that share any points. -/
def seg1dT.intersects (a b : seg1dT) : Bool := a.contains b.min || b.contains a.min

/-! ## Random numbers (`random.h`, `random.cpp`) -/

/-- The abstract superclass `Random`, as far as `nextInt` needs it: the pure virtual
`next(bits)` of a generator whose state has type `γ`. -/
structure Random (γ : Type) where
  next : Int → γ → Int × γ

/-- Conversion of any integer to a 64-bit two's-complement `int64`. -/
def to_int64 (v : Int) : Int :=
  (v + 9223372036854775808) % 18446744073709551616 - 9223372036854775808

/-- The operator `&` on two `int`s, through their 32-bit patterns. -/
def int_and (a b : Int) : Int := to_int (Nat.land (to_unsigned a) (to_unsigned b))

/-- The `do ... while` loop of `Random::nextInt`, run for at most `fuel` rounds: `none` when
the loop has not left after `fuel` draws. `%` on `int` truncates toward zero and the sum in
the loop test wraps. -/
def Random.nextInt_loop {γ : Type} (r : Random γ) (n : Int) : Nat → γ → Option (Int × γ)
  | 0, _ => none
  | fuel + 1, g =>
    let bits := (r.next 31 g).1
    let val := Int.tmod bits n
    if to_int (to_int (bits - val) + to_int (n - 1)) < 0 then
      Random.nextInt_loop r n fuel (r.next 31 g).2
    else some (val, (r.next 31 g).2)

/-- `Random::nextInt`: return the next integer in the sequence between zero and `n-1`.
The value and the generator after the call. -/
def Random.nextInt {γ : Type} (r : Random γ) (fuel : Nat) (n : Int) (g : γ) :
    Option (Int × γ) :=
  if int_and n (to_int (-n)) = n then
    some (to_int (to_int64 (n * (r.next 31 g).1) / 2147483648), (r.next 31 g).2)
  else Random.nextInt_loop r n fuel g

/-- The members `seed`, `mul`, `add` of `Random32`. -/
structure Random32_state where
  seed : Int
  mul : Int
  add : Int
deriving DecidableEq, Repr

/-- `Random32::setSeed`: mul and add from the VAX random number generator. -/
def Random32.setSeed (nSeed : Int) : Random32_state :=
  { seed := to_int (Nat.xor (to_unsigned nSeed) 2144233168), mul := 69069, add := 1 }

/-- `Random32`: a simple 32-bit linear congruential generator; `next` swaps the two halves
of the new seed and keeps the top `bits` bits. -/
def Random32 : Random Random32_state where
  next := fun bits s =>
    let seed := to_int (s.seed * s.mul + s.add)
    let ret := to_unsigned seed
    let ret := Nat.lor (ret * 65536 % 4294967296) (ret / 65536)
    (to_int (ret / 2 ^ (32 - bits).toNat), { s with seed := seed })

/-! ## The request parser (the constructor of `http_served_client`, `webserver.cpp`) -/

/-- `std::string::npos`, the largest `size_t`. -/
def npos : Nat := 18446744073709551615

/-- Conversion of an `int` to the 64-bit `size_t`. -/
def to_size_t (v : Int) : Nat := (v % 18446744073709551616).toNat

/-- `s.find(pat)`: the index of the first occurrence of `pat` in `s`, `none` for `npos`. -/
def find_str (pat : Str) : Str → Option Nat
  | [] => if pat.isPrefixOf [] then some 0 else none
  | c :: cs => if pat.isPrefixOf (c :: cs) then some 0 else (find_str pat cs).map (· + 1)

/-- `s.find_first_of(ch)` for a one-character set: the index of the first `ch`, `none` for
`npos`. -/
def find_first_of (ch : Char) : Str → Option Nat
  | [] => none
  | c :: cs => if c = ch then some 0 else (find_first_of ch cs).map (· + 1)

/-- The `int` that receives the `size_t` result of a `find`. -/
def find_result_int (r : Option Nat) : Int :=
  match r with
  | some i => to_int i
  | none => to_int npos

/-- `s.substr(pos,len)`: `std::out_of_range` is thrown (`none`) when `pos > s.size()`. -/
def substr (s : Str) (pos len : Nat) : Option Str :=
  if s.length < pos then none else some ((s.drop pos).take len)

/-- `header[keyword]=value` on the `std::map`: the entry of this keyword is overwritten or
a new one is made. The map is a list of entries with distinct keywords; the sorted order
the map keeps is not modelled. -/
def map_assign : List (Str × Str) → Str → Str → List (Str × Str)
  | [], keyword, value => [(keyword, value)]
  | e :: m, keyword, value =>
    if e.1 = keyword then (keyword, value) :: m else e :: map_assign m keyword value

/-- `header.find(keyword)`: the value stored under this keyword, if any. -/
def map_find : List (Str × Str) → Str → Option Str
  | [], _ => none
  | e :: m, keyword => if e.1 = keyword then some e.2 else map_find m keyword

/-- The body of the header loop for one non-empty line `l`: the keyword and the value it
stores, `none` when `substr` throws. -/
def header_line (l : Str) : Option (Str × Str) :=
  let firstColon : Int := find_result_int (find_first_of ':' l)
  match substr l 0 (to_size_t firstColon),
      substr l (to_size_t (to_int (firstColon + 2))) npos with
  | some keyword, some value => some (keyword, value)
  | _, _ => none

/-- The header loop: lines are stored until a zero-length line. `lines` are the lines
`skt_recv_line` returns, one per call; a list that ends without an empty line is read as
followed by one. `none` when an exception leaves the loop. -/
def read_headers : List Str → List (Str × Str) → Option (List (Str × Str))
  | [], header => some header
  | l :: lines, header =>
    if l.length = 0 then some header
    else
      match header_line l with
      | some (keyword, value) => read_headers lines (map_assign header keyword value)
      | none => none

/-- The constructor `http_served_client(socket,ip,port)`, on the lines `skt_recv_line`
returns from the socket (first the request line, then the header lines): the client it
builds, `none` when an exception leaves the constructor. -/
def http_served_client.new (lines : List Str) : Option http_served_client :=
  let req := lines.headD []
  if req.take 4 ≠ "GET ".data then
    some { path := [], header := [], wire := []
           error := some "Malformed HTTP header (only GET supported for now)".data }
  else
    let path_ver := req.drop 4
    let ver_start : Int := find_result_int (find_str " HTTP/".data path_ver)
    let path := path_ver.take (to_size_t ver_start)
    (read_headers lines.tail []).map
      (fun header => { path := path, header := header, error := none, wire := [] })

/-- `get_error`: the human-readable connection error code, or 0 (`none`) if none. -/
def http_served_client.get_error (c : http_served_client) : Option Str := c.error

/-- `get_path`: the path the client has requested. -/
def http_served_client.get_path (c : http_served_client) : Str := c.path

/-- `get_header`: `header[keyword]`, the value of the header line with this keyword, or the
empty string if none (an entry with the empty string is then made). -/
def http_served_client.get_header (c : http_served_client) (keyword : Str) :
    Str × http_served_client :=
  match map_find c.header keyword with
  | some value => (value, c)
  | none => ([], { c with header := map_assign c.header keyword [] })

/-- `send_error`: a complete error page with this status. -/
def http_served_client.send_error (c : http_served_client) (mime_type : Str) (str : Str)
    (error_type : Int) : http_served_client :=
  (c.send_header mime_type (to_int str.length) error_type).send_raw str (to_int str.length)

/-- The default `error_type` of `send_error`. -/
def send_error_default_type : Int := 404

/-- The value of the last header with this name among the (name, value) pairs of the header
lines, in the order of the lines; the empty string when no header has the name. -/
def last_header_value (name : Str) (parsed : List (Str × Str)) : Str :=
  match (parsed.filter (fun e => decide (e.1 = name))).getLast? with
  | some e => e.2
  | none => []

/-! ## Sequences of visits -/

/-- One call of a visitor method, with its arguments. -/
inductive Visit where
  | comment (c : Str)
  | pfloat (shortname : Str) (value : Nat)
  | pint (shortname : Str) (value : Int)
  | pstring (shortname : Str) (value : Str)
  | penum (shortname : Str) (value : Nat) (namevalues : List name_value_record)
  | objectbegin (shortname : Str)
  | objectend (shortname : Str)
deriving DecidableEq, Repr

/-- The visitor after one call of the method the visit names. -/
def visit {σ : Type} (p : pup_er_virtual σ) : Visit → σ → σ
  | .comment c, s => p.comment c s
  | .pfloat n v, s => (p.pup_float n v s).2
  | .pint n v, s => (p.pup_int n v s).2
  | .pstring n v, s => (p.pup_string n v s).2
  | .penum n v nv, s => (p.pup_enum n v nv s).2
  | .objectbegin n, s => p.pup_objectbegin n s
  | .objectend n, s => p.pup_objectend n s

/-- The visitor after a sequence of visits. -/
def run_visits {σ : Type} (p : pup_er_virtual σ) : List Visit → σ → σ
  | [], s => s
  | v :: vs, s => run_visits p vs (visit p v s)

/-- The number of objects open after the visits when `depth` were open before; `none` when a
`pup_objectend` comes with no object open. -/
def bracket_depth (depth : Nat) : List Visit → Option Nat
  | [] => some depth
  | .objectbegin _ :: vs => bracket_depth (depth + 1) vs
  | .objectend _ :: vs => if depth = 0 then none else bracket_depth (depth - 1) vs
  | .comment _ :: vs => bracket_depth depth vs
  | .pfloat _ _ :: vs => bracket_depth depth vs
  | .pint _ _ :: vs => bracket_depth depth vs
  | .pstring _ _ :: vs => bracket_depth depth vs
  | .penum _ _ _ :: vs => bracket_depth depth vs

/-- A well-bracketed sequence of visits: every `pup_objectbegin` is matched by a later
`pup_objectend` and every `pup_objectend` by an earlier `pup_objectbegin`, whatever the
names. -/
def well_bracketed (vs : List Visit) : Bool := bracket_depth 0 vs = some 0

/-- The four entities `escape_HTML` writes, without their leading `&`. -/
def entity_tails : List Str := ["quot;".data, "lt;".data, "gt;".data, "amp;".data]

/-! ## Numerical optimisation (`optimize.h`, `optimize.cpp`) -/

/-- The arithmetic of `double` as far as `secantRoot1D` uses it: the four operations,
`fabs`, the comparison `>` and the constants `0.0` and `0.5`. Exact arithmetic
(`rat_arith`) is one instance, IEEE arithmetic would be another. -/
structure double_arith (D : Type) where
  add : D → D → D
  sub : D → D → D
  mul : D → D → D
  div : D → D → D
  fabs : D → D
  gt : D → D → Bool
  zero : D
  half : D

/-- Exact arithmetic on the rationals (division by zero gives 0). -/
def rat_arith : double_arith ℚ where
  add := fun a b => a + b
  sub := fun a b => a - b
  mul := fun a b => a * b
  div := fun a b => a / b
  fabs := fun a => |a|
  gt := fun a b => decide (a > b)
  zero := 0
  half := 1 / 2

/-- The variables `g1`, `g2`, `v1`, `v2` of `secantRoot1D`. -/
structure secant_state (D : Type) where
  g1 : D
  g2 : D
  v1 : D
  v2 : D
deriving DecidableEq, Repr

/-- The new guess `gN` of one iteration of `secantRoot1D`. -/
def secant_guess {D : Type} (A : double_arith D) (s : secant_state D) : D :=
  let slope := A.div (A.sub s.g2 s.g1) (A.sub s.v2 s.v1)
  let offset := A.sub s.v2 (A.mul s.g2 slope)
  A.div (A.sub A.zero offset) slope

/-- The state after the swap that gives `g1` the lower error. -/
def secant_swap {D : Type} (A : double_arith D) (s : secant_state D) : secant_state D :=
  if A.gt (A.fabs s.v1) (A.fabs s.v2) then { g1 := s.g2, g2 := s.g1, v1 := s.v2, v2 := s.v1 }
  else s

/-- The body of the `while` loop of `secantRoot1D`: one iteration, on the 1D objective
`obj`. The assignment `g2=0.5*(g1+g2)` of the bisection branch is followed by `g2=gN`. -/
def secant_step {D : Type} (A : double_arith D) (obj : D → D) (s : secant_state D) :
    secant_state D :=
  let gN := secant_guess A s
  let vN := obj gN
  let s1 := secant_swap A s
  let s2 : secant_state D :=
    if A.gt (A.fabs vN) (A.fabs s1.v1) then { s1 with g2 := A.mul A.half (A.add s1.g1 s1.g2) }
    else s1
  { s2 with g2 := gN, v2 := vN }

/-- The loop of `secantRoot1D`, for at most `fuel` iterations. -/
def secant_loop {D : Type} (A : double_arith D) (obj : D → D) (tol : D) :
    Nat → secant_state D → Option D
  | 0, _ => none
  | fuel + 1, s =>
    if A.gt (A.fabs (A.sub s.g1 s.g2)) tol then secant_loop A obj tol fuel (secant_step A obj s)
    else some (A.mul A.half (A.add s.g1 s.g2))

/-- `secantRoot1D`: find the zero of a 1D function using the secant method. -/
def secantRoot1D {D : Type} (A : double_arith D) (obj : D → D) (g1 g2 tol : D) (fuel : Nat) :
    Option D :=
  secant_loop A obj tol fuel { g1 := g1, g2 := g2, v1 := obj g1, v2 := obj g2 }

/-- The abstract class `Objective`: the number of unknowns and the value of the objective
function at given values of the unknowns (an array of `double`, here exact). -/
structure Objective where
  getUnknowns : Int
  getObjective : (Nat → ℚ) → ℚ

/-- The arrays `test` and `best` and the variable `vBest` of `greedyDiscreteMin`. -/
structure greedy_state where
  test : Nat → ℚ
  best : Nat → ℚ
  vBest : ℚ

/-- The inner `while (1)` loop of `greedyDiscreteMin` for the unknown `u`, from the values
`nBetter` and `dir`, for at most `fuel` rounds. -/
def greedy_axis (obj : Objective) (step : Nat → ℚ) (u : Nat) :
    Nat → Int → ℚ → greedy_state → Option greedy_state
  | 0, _, _, _ => none
  | fuel + 1, nBetter, dir, s =>
    let test := Function.update s.test u (s.test u + dir * step u)
    let vTest := obj.getObjective test
    if vTest < s.vBest then
      greedy_axis obj step u fuel (to_int (nBetter + 1)) dir
        { test := test, best := Function.update s.best u (test u), vBest := vTest }
    else
      let s2 : greedy_state := { s with test := Function.update test u (s.best u) }
      if dir > 0 then
        if nBetter = 0 then greedy_axis obj step u fuel nBetter (-1) s2
        else some s2
      else some s2

/-- The `for` loop over the unknowns, each inner loop with at most `fuel` rounds. -/
def greedy_sweep (obj : Objective) (step : Nat → ℚ) (fuel : Nat) :
    List Nat → greedy_state → Option greedy_state
  | [], s => some s
  | u :: us, s => (greedy_axis obj step u fuel 0 1 s).bind (greedy_sweep obj step fuel us)

/-- The outer loop `while (vBest<lastBest)`, for at most `rounds` sweeps. -/
def greedy_outer (obj : Objective) (step : Nat → ℚ) (fuel : Nat) :
    Nat → ℚ → greedy_state → Option greedy_state
  | 0, _, _ => none
  | rounds + 1, lastBest, s =>
    if s.vBest < lastBest then
      (greedy_sweep obj step fuel (List.range obj.getUnknowns.toNat) s).bind
        (greedy_outer obj step fuel rounds s.vBest)
    else some s

/-- `greedyDiscreteMin`: the array `best` when the function returns; `none` when a loop has
not ended within `fuel` rounds, or `new double[n]` throws for a negative `n`. -/
def greedyDiscreteMin (obj : Objective) (best step : Nat → ℚ) (fuel : Nat) :
    Option (Nat → ℚ) :=
  if obj.getUnknowns < 0 then none
  else
    (greedy_outer obj step fuel fuel (obj.getObjective best + 1)
      { test := best, best := best, vBest := obj.getObjective best }).map (fun s => s.best)

/-- An objective with two unknowns:
`(x0 - 3)^2 + (x1 + 5/2)^2 + x0 * x1 / 4`. -/
def bowl : Objective where
  getUnknowns := 2
  getObjective := fun x => (x 0 - 3) * (x 0 - 3) + (x 1 + 5 / 2) * (x 1 + 5 / 2) + x 0 * x 1 / 4

/-! ## Matrices (`matrixT.h`) -/

/-- The member `data[rows][cols]` of a `MatrixT<real,rows,cols>` over exact arithmetic:
the entry at row `r` and column `c`. The template parameters `rows` and `cols` are
arguments of the operations; entries outside them are never read or written. -/
abbrev MatrixT := Nat → Nat → ℚ

/-- The assignment `data[r][c]=x`. -/
def MatrixT.set (m : MatrixT) (r c : Nat) (x : ℚ) : MatrixT :=
  Function.update m r (Function.update (m r) c x)

/-- The loop `for (i=lo;i<hi;i++) body`, on the variables `a` the body changes. -/
def for_loop {α : Type} (lo hi : Nat) (body : Nat → α → α) (a : α) : α :=
  (List.range' lo (hi - lo)).foldl (fun a i => body i a) a

/-- `swapRow`: swap these two rows. -/
def MatrixT.swapRow (cols : Nat) (m : MatrixT) (r1 r2 : Nat) : MatrixT :=
  for_loop 0 cols (fun c m => (m.set r1 c (m r2 c)).set r2 c (m r1 c)) m

/-- `scaleRow`: `data[row][*]*=scale`. -/
def MatrixT.scaleRow (cols : Nat) (m : MatrixT) (r : Nat) (scaleBy : ℚ) : MatrixT :=
  for_loop 0 cols (fun c m => m.set r c (m r c * scaleBy)) m

/-- The search for a row to pivot on in `solve`: `pivotVal` and `pivotRow` after the loop
over the rows from `pivotCol` on (`pivotRow` is -1 when only zeros were found). -/
def MatrixT.find_pivot (rows : Nat) (m : MatrixT) (pivotCol : Nat) : ℚ × Int :=
  for_loop pivotCol rows
    (fun r (p : ℚ × Int) => if p.1 < |m r pivotCol| then (|m r pivotCol|, (r : Int)) else p)
    (0, -1)

/-- The loop of `solve` that scales away the rest of the matrix below and above the
pivot row. -/
def MatrixT.eliminate (rows cols : Nat) (m : MatrixT) (pivotRow pivotCol : Nat) : MatrixT :=
  for_loop 0 rows
    (fun r m =>
      if r ≠ pivotRow then
        for_loop (pivotCol + 1) cols
          (fun c m2 => m2.set r c (m2 r c - m2 pivotRow c * m r pivotCol))
          (m.set r pivotCol 0)
      else m) m

/-- The body of the loop of `solve` for one pivot column, and the rest of the loop over
the pivot columns that follow; `false` as soon as a pivot column holds only zeros. -/
def MatrixT.solve_from (rows cols : Nat) : List Nat → MatrixT → Bool × MatrixT
  | [], m => (true, m)
  | pivotCol :: rest, m =>
    let pivotRow := (MatrixT.find_pivot rows m pivotCol).2
    if pivotRow = -1 then (false, m)
    else
      let m1 := if pivotRow ≠ pivotCol then m.swapRow cols pivotRow.toNat pivotCol else m
      let m2 := m1.scaleRow cols pivotCol (1 / m1 pivotCol pivotCol)
      MatrixT.solve_from rows cols rest (m2.eliminate rows cols pivotCol pivotCol)

/-- `solve`: solve this matrix using gaussian elimination with pivoting; returns true if
the solution was successful (non-singular). The result and the matrix after the call. -/
def MatrixT.solve (rows cols : Nat) (m : MatrixT) : Bool × MatrixT :=
  MatrixT.solve_from rows cols (List.range rows) m

/-- The augmented matrix `aug` that `invert` fills: this matrix on the left, the identity
on the right. (`aug` is uninitialized at first; every entry of it is assigned.) -/
def MatrixT.augment (rows cols : Nat) (m : MatrixT) : MatrixT :=
  for_loop 0 rows
    (fun r aug =>
      for_loop 0 cols (fun c aug => aug.set r (cols + c) (if c = r then 1 else 0))
        (for_loop 0 cols (fun c aug => aug.set r c (m r c)) aug))
    (fun _ _ => 0)

/-- `invert`: invert this (square) matrix using gaussian elimination; returns true if the
solution was successful. The result and the matrix `inverse` after the call. -/
def MatrixT.invert (rows cols : Nat) (m inv : MatrixT) : Bool × MatrixT :=
  let aug := MatrixT.solve rows (cols * 2) (MatrixT.augment rows cols m)
  if !aug.1 then (false, inv)
  else
    (true,
      for_loop 0 rows
        (fun r inv => for_loop 0 cols (fun c inv => inv.set r c (aug.2 r (cols + c))) inv) inv)

/-- `product`: set `dest = this * by` (`this` has `rows` rows and `cols` columns). -/
def MatrixT.product (rows cols : Nat) (m b dest : MatrixT) : MatrixT :=
  for_loop 0 rows
    (fun r dest =>
      for_loop 0 rows
        (fun c dest => dest.set r c (for_loop 0 cols (fun inner sum => sum + m r inner * b inner c) 0))
        dest) dest

/-- The square matrix of the first `n` rows and columns, as a matrix of the library. -/
def MatrixT.to_matrix (n : Nat) (m : MatrixT) : Matrix (Fin n) (Fin n) ℚ :=
  Matrix.of (fun r c => m r.val c.val)

/-- The `MatrixT` with the entries given row by row (zero elsewhere). -/
def MatrixT.of_rows (rows : List (List ℚ)) : MatrixT :=
  fun r c => (rows.getD r []).getD c 0

/-- What holds of `aug` in `solve`, as `invert` calls it on the `n` by `n` matrix `a`,
once the pivot columns before `k` are done: each row of the right half, times `a`, is
the row of the left half; the columns before `k` of the left half are those of the
identity; the determinant of the left half is a nonzero multiple of that of `a`. -/
structure solve_invariant (n : Nat) (a m : MatrixT) (k : Nat) : Prop where
  rows_related : ∀ i, i < n → ∀ j, j < n →
    ∑ l in Finset.range n, m i (n + l) * a l j = m i j
  unit_columns : ∀ i, i < n → ∀ j, j < k → m i j = if i = j then 1 else 0
  det_related : ∃ d : ℚ, d ≠ 0 ∧
    (MatrixT.to_matrix n m).det = d * (MatrixT.to_matrix n a).det

/-! # Lemmas -/

/-! ## Bytes and streams -/

theorem toNat_ofNat_byte (k : Nat) (h : k < 256) : (Char.ofNat k).toNat = k := by
  have hv : k.isValidChar := Or.inl (by omega)
  simp [Char.ofNat, hv, Char.ofNatAux, Char.toNat, UInt32.toNat]

theorem bits_of_bytes4 (b : Nat) (h : b < 4294967296) : bits_of_bytes (bytes4 b) = b := by
  simp only [bytes4, bits_of_bytes]
  rw [toNat_ofNat_byte _ (Nat.mod_lt _ (by norm_num)),
    toNat_ofNat_byte _ (Nat.mod_lt _ (by norm_num)),
    toNat_ofNat_byte _ (Nat.mod_lt _ (by norm_num)),
    toNat_ofNat_byte _ (Nat.mod_lt _ (by norm_num))]
  omega

theorem to_unsigned_lt (v : Int) : to_unsigned v < 4294967296 := by
  unfold to_unsigned; omega

theorem to_int_to_unsigned (v : Int) (h1 : -2147483648 ≤ v) (h2 : v < 2147483648) :
    to_int (to_unsigned v) = v := by
  simp only [to_int, to_unsigned]; omega

theorem to_unsigned_to_int (v : Nat) (h : v < 4294967296) : to_unsigned (to_int v) = v := by
  simp only [to_int, to_unsigned]; omega

theorem to_int_range (v : Int) : -2147483648 ≤ to_int v ∧ to_int v < 2147483648 := by
  simp only [to_int, to_unsigned]; omega

theorem to_int_of_small (v : Int) (h1 : -2147483648 ≤ v) (h2 : v < 2147483648) :
    to_int v = v := by
  simp only [to_int, to_unsigned]; omega

theorem bytes4_length (b : Nat) : (bytes4 b).length = 4 := rfl

theorem int_bytes_length (v : Int) : (int_bytes v).length = 4 := rfl

theorem float_bytes_length (v : Nat) : (float_bytes v).length = 4 := rfl

theorem bytes_int_int_bytes (v : Int) (h1 : -2147483648 ≤ v) (h2 : v < 2147483648) :
    bytes_int (int_bytes v) = v := by
  unfold bytes_int int_bytes
  rw [List.take_of_length_le (by simp [bytes4_length]), bits_of_bytes4 _ (to_unsigned_lt v)]
  exact to_int_to_unsigned v h1 h2

theorem bytes_float_float_bytes (v : Nat) (h : v < 4294967296) :
    bytes_float (float_bytes v) = v := by
  unfold bytes_float float_bytes
  rw [List.take_of_length_le (by simp [bytes4_length]), bits_of_bytes4 _ (Nat.mod_lt _ (by norm_num))]
  exact Nat.mod_eq_of_lt h

theorem resize_length (value : Str) (len : Nat) : (resize value len).length = len := by
  simp [resize]; omega

/-- A read of exactly the `n` characters at the front of a good stream. -/
theorem istream_read_exact (bs rest old : Str) (n : Nat) (th : Bool)
    (hb : bs.length = n) (ho : old.length = n) :
    istream.read { data := bs ++ rest, good := true, thrown := th } old n
      = (bs, { data := rest, good := true, thrown := th }) := by
  subst hb
  simp [istream.read, List.take_append_of_le_length, ho]

/-! ## The methods of the two binary visitors -/

theorem writer_comment (c out : Str) : pup_to_binary_file.comment c out = out := rfl

theorem writer_float (n : Str) (v : Nat) (out : Str) :
    pup_to_binary_file.pup_float n v out = (v, out ++ float_bytes v) := rfl

theorem writer_int (n : Str) (v : Int) (out : Str) :
    pup_to_binary_file.pup_int n v out = (v, out ++ int_bytes v) := rfl

theorem writer_string (n v out : Str) :
    pup_to_binary_file.pup_string n v out
      = (v, out ++ (int_bytes (to_int v.length) ++ v.take (to_int v.length).toNat)) := by
  show (v, out ++ int_bytes (to_int v.length) ++ v.take (to_int v.length).toNat) = _
  rw [List.append_assoc]

theorem writer_enum_default (n : Str) (v : Nat) (nv : List name_value_record) (out : Str) :
    pup_to_binary_file.pup_enum n v nv out
      = pup_enum_default pup_to_binary_file.pup_int n v nv out := rfl

theorem writer_enum (n : Str) (v : Nat) (nv : List name_value_record) (out : Str) :
    pup_to_binary_file.pup_enum n v nv out
      = (to_unsigned (to_int v), out ++ int_bytes (to_int v)) := by
  rw [writer_enum_default, pup_enum_default, writer_int]

theorem writer_objectbegin (n out : Str) : pup_to_binary_file.pup_objectbegin n out = out := rfl

theorem writer_objectend (n out : Str) : pup_to_binary_file.pup_objectend n out = out := rfl

theorem reader_comment (c : Str) (s : istream) : pup_from_binary_file.comment c s = s := rfl

theorem reader_float (n : Str) (v : Nat) (s : istream) :
    pup_from_binary_file.pup_float n v s
      = if s.thrown then (v, s)
        else (bytes_float (s.read (float_bytes v) 4).1, (s.read (float_bytes v) 4).2) := rfl

theorem reader_int (n : Str) (v : Int) (s : istream) :
    pup_from_binary_file.pup_int n v s
      = if s.thrown then (v, s)
        else (bytes_int (s.read (int_bytes v) 4).1, (s.read (int_bytes v) 4).2) := rfl

theorem reader_string (n v : Str) (s : istream) :
    pup_from_binary_file.pup_string n v s
      = if s.thrown then (v, s) else pup_from_binary_file_string v s := rfl

theorem reader_enum_default (n : Str) (v : Nat) (nv : List name_value_record) (s : istream) :
    pup_from_binary_file.pup_enum n v nv s
      = if s.thrown then (v, s)
        else pup_enum_default pup_from_binary_file.pup_int n v nv s := rfl

theorem reader_enum (n : Str) (v : Nat) (nv : List name_value_record) (s : istream) :
    pup_from_binary_file.pup_enum n v nv s
      = if s.thrown then (v, s)
        else (to_unsigned (pup_from_binary_file.pup_int n (to_int v) s).1,
              (pup_from_binary_file.pup_int n (to_int v) s).2) := by
  rw [reader_enum_default, pup_enum_default]

theorem reader_objectbegin (n : Str) (s : istream) :
    pup_from_binary_file.pup_objectbegin n s = s := rfl

theorem reader_objectend (n : Str) (s : istream) :
    pup_from_binary_file.pup_objectend n s = s := rfl

/-! ## The Binary Writer appends -/

mutual
theorem pup_to_binary_file_append : ∀ (i : Item) (out : Str),
    (pup pup_to_binary_file i out).2 = out ++ (pup pup_to_binary_file i []).2
  | .comment s, out => by simp only [pup, writer_comment, List.append_nil]
  | .pfloat n v, out => by simp only [pup, writer_float, List.nil_append]
  | .pint n v, out => by simp only [pup, writer_int, List.nil_append]
  | .pstring n v, out => by simp only [pup, writer_string, List.nil_append]
  | .penum n v nv, out => by simp only [pup, writer_enum, List.nil_append]
  | .object n fs, out => by
    simp only [pup, writer_objectbegin, writer_objectend]
    exact pup_fields_to_binary_file_append fs out

theorem pup_fields_to_binary_file_append : ∀ (is : List Item) (out : Str),
    (pup_fields pup_to_binary_file is out).2
      = out ++ (pup_fields pup_to_binary_file is []).2
  | [], out => by simp only [pup_fields, List.append_nil]
  | i :: is, out => by
    simp only [pup_fields]
    rw [pup_fields_to_binary_file_append is (pup pup_to_binary_file i out).2,
      pup_fields_to_binary_file_append is (pup pup_to_binary_file i []).2,
      pup_to_binary_file_append i out, List.append_assoc]
end

/-! ## Reading back what the Binary Writer wrote -/

mutual
theorem pup_from_binary_file_inverse : ∀ (i t : Item) (rest : Str),
    i.storable = true → t.shape = i.shape →
    pup pup_from_binary_file t
        { data := (pup pup_to_binary_file i []).2 ++ rest, good := true, thrown := false }
      = (i, { data := rest, good := true, thrown := false })
  | .comment s, t, rest, _, hs => by
    cases t <;> simp only [Item.shape, Item.comment.injEq, reduceCtorEq] at hs
    subst hs
    simp only [pup, writer_comment, reader_comment, List.nil_append]
  | .pfloat n v, t, rest, hv, hs => by
    cases t <;> simp only [Item.shape, Item.pfloat.injEq, reduceCtorEq] at hs
    obtain ⟨hn, -⟩ := hs
    subst hn
    simp only [Item.storable, decide_eq_true_eq] at hv
    simp only [pup, writer_float, reader_float, List.nil_append, Bool.false_eq_true, if_false]
    rw [istream_read_exact _ _ _ 4 _ (float_bytes_length v) (float_bytes_length _),
      bytes_float_float_bytes v hv]
  | .pint n v, t, rest, hv, hs => by
    cases t <;> simp only [Item.shape, Item.pint.injEq, reduceCtorEq] at hs
    obtain ⟨hn, -⟩ := hs
    subst hn
    simp only [Item.storable, decide_eq_true_eq] at hv
    have hr := to_int_range v
    rw [hv] at hr
    simp only [pup, writer_int, reader_int, List.nil_append, Bool.false_eq_true, if_false]
    rw [istream_read_exact _ _ _ 4 _ (int_bytes_length v) (int_bytes_length _),
      bytes_int_int_bytes v hr.1 hr.2]
  | .pstring n v, t, rest, hv, hs => by
    cases t <;> simp only [Item.shape, Item.pstring.injEq, reduceCtorEq] at hs
    obtain ⟨hn, -⟩ := hs
    subst hn
    simp only [Item.storable, decide_eq_true_eq] at hv
    have hlen : to_int (v.length : Int) = (v.length : Int) :=
      to_int_of_small _ (by omega) (by omega)
    simp only [pup, writer_string, reader_string, List.nil_append, Bool.false_eq_true, if_false,
      pup_from_binary_file_string, hlen, Int.toNat_ofNat, List.take_length, List.append_assoc]
    rw [istream_read_exact _ _ _ 4 _ (int_bytes_length _) (int_bytes_length _),
      bytes_int_int_bytes _ (by omega) (by omega)]
    simp only [Int.toNat_ofNat, if_neg (show ¬ ((v.length : Int) < 0) by omega)]
    rw [istream_read_exact _ _ _ v.length _ rfl (resize_length _ _)]
  | .penum n v nv, t, rest, hv, hs => by
    cases t <;> simp only [Item.shape, Item.penum.injEq, reduceCtorEq] at hs
    obtain ⟨hn, -, hnv⟩ := hs
    subst hn hnv
    simp only [Item.storable, decide_eq_true_eq] at hv
    simp only [pup, writer_enum, reader_enum, reader_int, List.nil_append, Bool.false_eq_true,
      if_false]
    rw [istream_read_exact _ _ _ 4 _ (int_bytes_length _) (int_bytes_length _),
      bytes_int_int_bytes _ (to_int_range _).1 (to_int_range _).2, to_unsigned_to_int v hv]
  | .object n fs, t, rest, hv, hs => by
    cases t <;> simp only [Item.shape, Item.object.injEq, reduceCtorEq] at hs
    obtain ⟨hn, hfs⟩ := hs
    subst hn
    simp only [Item.storable] at hv
    simp only [pup, writer_objectbegin, writer_objectend, reader_objectbegin, reader_objectend]
    rw [pup_fields_from_binary_file_inverse fs _ rest hv hfs]

theorem pup_fields_from_binary_file_inverse : ∀ (is ts : List Item) (rest : Str),
    storable_all is = true → shape_of ts = shape_of is →
    pup_fields pup_from_binary_file ts
        { data := (pup_fields pup_to_binary_file is []).2 ++ rest, good := true, thrown := false }
      = (is, { data := rest, good := true, thrown := false })
  | [], ts, rest, _, hs => by
    cases ts <;> simp only [shape_of, reduceCtorEq] at hs
    simp only [pup_fields, List.nil_append]
  | i :: is, ts, rest, hv, hs => by
    cases ts with
    | nil => simp only [shape_of, reduceCtorEq] at hs
    | cons t ts =>
      simp only [shape_of, List.cons.injEq] at hs
      simp only [storable_all, Bool.and_eq_true] at hv
      simp only [pup_fields]
      rw [pup_fields_to_binary_file_append is (pup pup_to_binary_file i []).2, List.append_assoc,
        pup_from_binary_file_inverse i t _ hv.1 hs.1,
        pup_fields_from_binary_file_inverse is ts rest hv.2 hs.2]
end

/-! ## The methods of the Name/Value Applier -/

theorem applier_comment (P V c : Str) (s : name_value_state) :
    (pup_from_name_value P V).comment c s = s := rfl

theorem applier_float (P V n : Str) (v : Nat) (s : name_value_state) :
    (pup_from_name_value P V).pup_float n v s
      = if s.address ++ n = P then (atof (c_str V), { s with found := true }) else (v, s) := by
  show (if (pup_from_name_value_inner P n s).1 = true then _ else _) = _
  unfold pup_from_name_value_inner
  split <;> rfl

theorem applier_int (P V n : Str) (v : Int) (s : name_value_state) :
    (pup_from_name_value P V).pup_int n v s
      = if s.address ++ n = P then (atoi (c_str V), { s with found := true }) else (v, s) := by
  show (if (pup_from_name_value_inner P n s).1 = true then _ else _) = _
  unfold pup_from_name_value_inner
  split <;> rfl

theorem applier_string (P V n v : Str) (s : name_value_state) :
    (pup_from_name_value P V).pup_string n v s
      = if s.address ++ n = P then (unescape_URL V, { s with found := true }) else (v, s) := by
  show (if (pup_from_name_value_inner P n s).1 = true then _ else _) = _
  unfold pup_from_name_value_inner
  split <;> rfl

theorem applier_enum (P V n : Str) (v : Nat) (nv : List name_value_record)
    (s : name_value_state) :
    (pup_from_name_value P V).pup_enum n v nv s
      = if s.address ++ n = P then (to_unsigned (atoi (c_str V)), { s with found := true })
        else (v, s) := by
  show (if (pup_from_name_value_inner P n s).1 = true then _ else _) = _
  unfold pup_from_name_value_inner
  split <;> rfl

theorem applier_objectbegin (P V n : Str) (s : name_value_state) :
    (pup_from_name_value P V).pup_objectbegin n s
      = { found := s.found, address := s.address ++ n ++ ['.'],
          old_addresses := s.address :: s.old_addresses } := rfl

theorem applier_objectend (P V n : Str) (s : name_value_state) :
    (pup_from_name_value P V).pup_objectend n s
      = { found := s.found, address := s.old_addresses.headD [],
          old_addresses := s.old_addresses.tail } := rfl

/-! ## The Name/Value Applier over a tree -/

theorem name_value_state_eta (s : name_value_state) :
    ({ found := s.found, address := s.address, old_addresses := s.old_addresses }
      : name_value_state) = s := by
  cases s; rfl

mutual
theorem applier_absent (P V : Str) : ∀ (i : Item) (s : name_value_state),
    (∀ f ∈ i.fields s.address, f.1 ≠ P) → pup (pup_from_name_value P V) i s = (i, s)
  | .comment c, s, _ => by simp only [pup, applier_comment]
  | .pfloat n v, s, h => by
    have hn : ¬ s.address ++ n = P := h (s.address ++ n, .vfloat v) (by simp [Item.fields])
    simp only [pup, applier_float, if_neg hn]
  | .pint n v, s, h => by
    have hn : ¬ s.address ++ n = P := h (s.address ++ n, .vint v) (by simp [Item.fields])
    simp only [pup, applier_int, if_neg hn]
  | .pstring n v, s, h => by
    have hn : ¬ s.address ++ n = P := h (s.address ++ n, .vstring v) (by simp [Item.fields])
    simp only [pup, applier_string, if_neg hn]
  | .penum n v nv, s, h => by
    have hn : ¬ s.address ++ n = P := h (s.address ++ n, .venum v) (by simp [Item.fields])
    simp only [pup, applier_enum, if_neg hn]
  | .object n fs, s, h => by
    simp only [pup, applier_objectbegin]
    rw [applier_fields_absent P V fs _ (by simpa only [Item.fields] using h)]
    simp only [applier_objectend, List.headD_cons, List.tail_cons, name_value_state_eta]

theorem applier_fields_absent (P V : Str) : ∀ (is : List Item) (s : name_value_state),
    (∀ f ∈ fields_of s.address is, f.1 ≠ P) → pup_fields (pup_from_name_value P V) is s = (is, s)
  | [], s, _ => by simp only [pup_fields]
  | i :: is, s, h => by
    simp only [fields_of, List.mem_append] at h
    simp only [pup_fields]
    rw [applier_absent P V i s (fun f hf => h f (Or.inl hf)),
      applier_fields_absent P V is s (fun f hf => h f (Or.inr hf))]
end

mutual
theorem applier_effect (P V : Str) : ∀ (i : Item) (s : name_value_state),
    (pup (pup_from_name_value P V) i s).2
        = { found := s.found || (i.fields s.address).any (fun f => decide (f.1 = P)),
            address := s.address, old_addresses := s.old_addresses }
      ∧ (pup (pup_from_name_value P V) i s).1.shape = i.shape
      ∧ (pup (pup_from_name_value P V) i s).1.fields s.address
          = (i.fields s.address).map (update_field P V)
  | .comment c, s => by
    simp only [pup, applier_comment, Item.fields, Item.shape, List.any_nil, Bool.or_false,
      name_value_state_eta, List.map_nil, and_self]
  | .pfloat n v, s => by
    simp only [pup, applier_float, Item.fields, Item.shape, List.any_cons, List.any_nil,
      Bool.or_false, List.map_cons, List.map_nil, update_field, assigned]
    by_cases hn : s.address ++ n = P
    · simp [hn]
    · simp [hn, name_value_state_eta]
  | .pint n v, s => by
    simp only [pup, applier_int, Item.fields, Item.shape, List.any_cons, List.any_nil,
      Bool.or_false, List.map_cons, List.map_nil, update_field, assigned]
    by_cases hn : s.address ++ n = P
    · simp [hn]
    · simp [hn, name_value_state_eta]
  | .pstring n v, s => by
    simp only [pup, applier_string, Item.fields, Item.shape, List.any_cons, List.any_nil,
      Bool.or_false, List.map_cons, List.map_nil, update_field, assigned]
    by_cases hn : s.address ++ n = P
    · simp [hn]
    · simp [hn, name_value_state_eta]
  | .penum n v nv, s => by
    simp only [pup, applier_enum, Item.fields, Item.shape, List.any_cons, List.any_nil,
      Bool.or_false, List.map_cons, List.map_nil, update_field, assigned]
    by_cases hn : s.address ++ n = P
    · simp [hn]
    · simp [hn, name_value_state_eta]
  | .object n fs, s => by
    obtain ⟨h1, h2, h3⟩ := applier_fields_effect P V fs
      { found := s.found, address := s.address ++ n ++ ['.'],
        old_addresses := s.address :: s.old_addresses }
    simp only [pup, applier_objectbegin, applier_objectend, Item.fields, Item.shape, h1, h2, h3,
      List.headD_cons, List.tail_cons, and_self]

theorem applier_fields_effect (P V : Str) : ∀ (is : List Item) (s : name_value_state),
    (pup_fields (pup_from_name_value P V) is s).2
        = { found := s.found || (fields_of s.address is).any (fun f => decide (f.1 = P)),
            address := s.address, old_addresses := s.old_addresses }
      ∧ shape_of (pup_fields (pup_from_name_value P V) is s).1 = shape_of is
      ∧ fields_of s.address (pup_fields (pup_from_name_value P V) is s).1
          = (fields_of s.address is).map (update_field P V)
  | [], s => by
    simp only [pup_fields, fields_of, shape_of, List.any_nil, Bool.or_false,
      name_value_state_eta, List.map_nil, and_self]
  | i :: is, s => by
    obtain ⟨h1, h2, h3⟩ := applier_effect P V i s
    obtain ⟨k1, k2, k3⟩ := applier_fields_effect P V is (pup (pup_from_name_value P V) i s).2
    rw [h1] at k1 k2 k3
    simp only at k1 k2 k3
    simp only [pup_fields, fields_of, shape_of, h1, h2, h3, k1, k2, k3, List.any_append,
      List.map_append, Bool.or_assoc, and_self]
end

theorem nodup_filter_eq_length : ∀ {l : List Str} {P : Str}, l.Nodup → P ∈ l →
    (l.filter (fun q => decide (q = P))).length = 1
  | [], _, _, h => by cases h
  | a :: l, P, hd, h => by
    rw [List.nodup_cons] at hd
    by_cases ha : a = P
    · subst ha
      have hnone : l.filter (fun q => decide (q = a)) = [] := by
        rw [List.filter_eq_nil_iff]
        intro q hq hqa
        simp only [decide_eq_true_eq] at hqa
        exact hd.1 (hqa ▸ hq)
      simp [List.filter_cons, hnone]
    · have hm : P ∈ l := by
        rcases List.mem_cons.mp h with h | h
        · exact absurd h.symm ha
        · exact h
      simp [List.filter_cons, ha, nodup_filter_eq_length hd.2 hm]

/-! ## The HTML Form Renderer and the Binary Writer leave the registry as it is -/

theorem renderer_string_fst (fn n v : Str) (s : html_form_state) :
    ((pup_to_HTML_form fn).pup_string n v s).1 = v := by
  show (if count_newlines v = 0 then _ else _ : Str × html_form_state).1 = v
  split <;> rfl

mutual
theorem pup_to_HTML_form_fst (fn : Str) : ∀ (i : Item) (s : html_form_state),
    (pup (pup_to_HTML_form fn) i s).1 = i
  | .comment c, s => by simp only [pup]
  | .pfloat n v, s => by simp only [pup]; rfl
  | .pint n v, s => by simp only [pup]; rfl
  | .pstring n v, s => by simp only [pup, renderer_string_fst]
  | .penum n v nv, s => by simp only [pup]; rfl
  | .object n fs, s => by simp only [pup, pup_fields_to_HTML_form_fst fn fs]

theorem pup_fields_to_HTML_form_fst (fn : Str) : ∀ (is : List Item) (s : html_form_state),
    (pup_fields (pup_to_HTML_form fn) is s).1 = is
  | [], s => by simp only [pup_fields]
  | i :: is, s => by
    simp only [pup_fields, pup_to_HTML_form_fst fn i, pup_fields_to_HTML_form_fst fn is]
end

mutual
theorem pup_to_binary_file_fst : ∀ (i : Item) (out : Str), i.typed = true →
    (pup pup_to_binary_file i out).1 = i
  | .comment c, out, _ => by simp only [pup]
  | .pfloat n v, out, _ => by simp only [pup, writer_float]
  | .pint n v, out, _ => by simp only [pup, writer_int]
  | .pstring n v, out, _ => by simp only [pup, writer_string]
  | .penum n v nv, out, h => by
    simp only [Item.typed, decide_eq_true_eq] at h
    simp only [pup, writer_enum, to_unsigned_to_int v h]
  | .object n fs, out, h => by
    simp only [Item.typed] at h
    simp only [pup, pup_fields_to_binary_file_fst fs _ h]

theorem pup_fields_to_binary_file_fst : ∀ (is : List Item) (out : Str),
    typed_all is = true → (pup_fields pup_to_binary_file is out).1 = is
  | [], out, _ => by simp only [pup_fields]
  | i :: is, out, h => by
    simp only [typed_all, Bool.and_eq_true] at h
    simp only [pup_fields, pup_to_binary_file_fst i _ h.1, pup_fields_to_binary_file_fst is _ h.2]
end

mutual
theorem storable_typed : ∀ (i : Item), i.storable = true → i.typed = true
  | .comment _, _ => rfl
  | .pfloat _ _, h => h
  | .pint _ _, h => h
  | .pstring _ _, _ => rfl
  | .penum _ _ _, h => h
  | .object _ fs, h => by
    simp only [Item.storable] at h
    simp only [Item.typed, storable_all_typed fs h]

theorem storable_all_typed : ∀ (is : List Item), storable_all is = true → typed_all is = true
  | [], _ => rfl
  | i :: is, h => by
    simp only [storable_all, Bool.and_eq_true] at h
    simp only [typed_all, storable_typed i h.1, storable_all_typed is h.2, Bool.and_self]
end

/-- `webconfig_save` keeps a typed registry and writes its encoding. -/
theorem webconfig_save_eq (w : World) (h : typed_all w.registry = true) :
    webconfig_save w
      = { registry := w.registry
          config_file := some (webconfig_pup_all pup_to_binary_file w.registry []).2 } := by
  unfold webconfig_save
  rw [show (webconfig_pup_all pup_to_binary_file w.registry []).1 = w.registry
    from pup_fields_to_binary_file_fst _ _ h]

/-! ## Request paths and the query split -/

theorem find_first_of_eq_split : ∀ (P V : Str), '=' ∉ P →
    find_first_of_eq (P ++ '=' :: V) = some P.length
  | [], V, _ => by simp [find_first_of_eq]
  | c :: P, V, h => by
    have hc : c ≠ '=' := fun hc => h (hc ▸ List.mem_cons_self _ _)
    have hP : '=' ∉ P := fun hm => h (List.mem_cons_of_mem _ hm)
    simp [find_first_of_eq, hc, find_first_of_eq_split P V hP]

theorem find_first_of_eq_none : ∀ (q : Str), '=' ∉ q → find_first_of_eq q = none
  | [], _ => rfl
  | c :: q, h => by
    have hc : c ≠ '=' := fun hc => h (hc ▸ List.mem_cons_self _ _)
    have hq : '=' ∉ q := fun hm => h (List.mem_cons_of_mem _ hm)
    simp [find_first_of_eq, hc, find_first_of_eq_none q hq]

/-- The editor on a query `P=V` of two characters or more, `P` free of `=`. -/
theorem apply_parameters_eq (e : webconfig_editor) (html P V : Str) (w : World)
    (hP : '=' ∉ P) (hlen : 2 ≤ (P ++ '=' :: V).length) :
    e.apply_parameters html (P ++ '=' :: V) w
      = if (webconfig_pup_all (pup_from_name_value P V) w.registry .init).2.found
        then (true, html, webconfig_save { w with
          registry := (webconfig_pup_all (pup_from_name_value P V) w.registry .init).1 })
        else (false, html ++ ("<P>ERROR! Missing field \x27".data ++ P ++ "\x27!\n".data),
          webconfig_save { w with
            registry := (webconfig_pup_all (pup_from_name_value P V) w.registry .init).1 }) := by
  unfold webconfig_editor.apply_parameters
  rw [if_neg (by omega), find_first_of_eq_split P V hP]
  simp only [List.take_left', List.drop_left', List.drop_append_of_le_length (le_refl _)]
  have hd : List.drop (P.length + 1) (P ++ '=' :: V) = V := by
    rw [List.drop_append_eq_append_drop]
    simp
  simp only [hd]

/-- The editor's two path tests on a path that carries a query. -/
theorem respond_coming_back (e : webconfig_editor) (client : http_served_client) (w : World)
    (q : Str) (hpath : client.path = '/' :: e.form_name ++ '?' :: q) :
    e.respond client w
      = (true,
         client.send "text/html".data
           (if (e.apply_parameters e.page_start q w).1
            then (webconfig_pup_all (pup_to_HTML_form e.form_name)
                    (e.apply_parameters e.page_start q w).2.2.registry
                    (.init (e.apply_parameters e.page_start q w).2.1)).2.html ++ e.page_end
            else (e.apply_parameters e.page_start q w).2.1),
         if (e.apply_parameters e.page_start q w).1
         then { (e.apply_parameters e.page_start q w).2.2 with
                registry := (webconfig_pup_all (pup_to_HTML_form e.form_name)
                    (e.apply_parameters e.page_start q w).2.2.registry
                    (.init (e.apply_parameters e.page_start q w).2.1)).1 }
         else (e.apply_parameters e.page_start q w).2.2) := by
  have h1 : ¬ (client.path = ['/'] ∨ client.path = '/' :: e.form_name) := by
    rw [hpath]
    rintro (h | h)
    · simp at h
    · have := congrArg List.length h
      simp at this
  have h2 : client.path.take (2 + e.form_name.length) = '/' :: e.form_name ++ ['?'] := by
    rw [hpath, show 2 + e.form_name.length = (e.form_name.length + 1) + 1 by omega]
    simp [List.take_append_eq_append_take]
  have h3 : client.path.drop (2 + e.form_name.length) = q := by
    rw [hpath, show 2 + e.form_name.length = (e.form_name.length + 1) + 1 by omega]
    simp [List.drop_append_eq_append_drop]
  unfold webconfig_editor.respond
  simp only [h1, h2, h3, decide_True, decide_False, Bool.false_or, if_true]

/-- The process state after the editor served the update `P=V`. -/
theorem respond_update_world (e : webconfig_editor) (client : http_served_client) (w : World)
    (P V : Str) (hpath : client.path = '/' :: e.form_name ++ '?' :: (P ++ '=' :: V))
    (hP : '=' ∉ P) (hlen : 2 ≤ (P ++ '=' :: V).length)
    (hs : typed_all (webconfig_pup_all (pup_from_name_value P V) w.registry .init).1 = true) :
    (e.respond client w).2.2
      = { registry := (webconfig_pup_all (pup_from_name_value P V) w.registry .init).1
          config_file := some (webconfig_pup_all pup_to_binary_file
            (webconfig_pup_all (pup_from_name_value P V) w.registry .init).1 []).2 } := by
  rw [respond_coming_back e client w _ hpath, apply_parameters_eq e _ P V w hP hlen]
  have hsave := webconfig_save_eq { w with
      registry := (webconfig_pup_all (pup_from_name_value P V) w.registry .init).1 } hs
  rw [hsave]
  cases (webconfig_pup_all (pup_from_name_value P V) w.registry .init).2.found
  · simp only [Bool.false_eq_true, if_false]
  · simp only [if_true, webconfig_pup_all, pup_fields_to_HTML_form_fst]

/-- The editor on an update `P=V` of two characters or more whose path matches no field:
one response, the page start followed by the banner; the registry is saved. -/
theorem respond_missing_field (e : webconfig_editor) (client : http_served_client) (w : World)
    (P V : Str) (hpath : client.path = '/' :: e.form_name ++ '?' :: (P ++ '=' :: V))
    (hP : '=' ∉ P) (hlen : 2 ≤ (P ++ '=' :: V).length)
    (habsent : ∀ f ∈ fields_of [] w.registry, f.1 ≠ P) :
    e.respond client w
      = (true,
         client.send "text/html".data
           (e.page_start ++ ("<P>ERROR! Missing field \x27".data ++ P ++ "\x27!\n".data)),
         webconfig_save w) := by
  have ha : webconfig_pup_all (pup_from_name_value P V) w.registry .init
      = (w.registry, { found := false, address := [], old_addresses := [] }) :=
    applier_fields_absent P V w.registry .init habsent
  rw [respond_coming_back e client w _ hpath, apply_parameters_eq e _ P V w hP hlen, ha]
  simp only [Bool.false_eq_true, if_false]

/-! ## The HTML Form Renderer appends to `html` -/

theorem html_options_append (value : Nat) : ∀ (nvs : List name_value_record) (html : Str),
    html_options value nvs html = html ++ html_options value nvs []
  | [], html => by simp only [html_options, List.append_nil]
  | nv :: nvs, html => by
    simp only [html_options]
    rw [html_options_append value nvs
        ((html ++ "<option value=\"".data ++ itos (to_int nv.value) ++ "\" ".data
          ++ (if value = nv.value then "selected=\"selected\"".data else []))
          ++ ">".data ++ nv.name ++ "</option>\n".data),
      html_options_append value nvs
        (([] ++ "<option value=\"".data ++ itos (to_int nv.value) ++ "\" ".data
          ++ (if value = nv.value then "selected=\"selected\"".data else []))
          ++ ">".data ++ nv.name ++ "</option>\n".data)]
    simp only [List.nil_append, List.append_assoc]

theorem prepend_prepend (h k : Str) (s : html_form_state) :
    (s.prepend k).prepend h = s.prepend (h ++ k) := by
  simp only [html_form_state.prepend, List.append_assoc]

theorem prepend_init (h : Str) : (html_form_state.init []).prepend h = .init h := by
  simp only [html_form_state.prepend, html_form_state.init, List.append_nil]

theorem itemdiv_prepend (h : Str) (s : html_form_state) :
    itemdiv (s.prepend h) = ((itemdiv s).1, (itemdiv s).2.prepend h) := rfl

theorem startform_prepend (fn h : Str) (s : html_form_state) :
    startform fn (s.prepend h) = ((startform fn s).1, (startform fn s).2.prepend h) := rfl

theorem renderer_inner_prepend (fn n cur h : Str) (s : html_form_state) :
    pup_to_HTML_form_inner fn n cur (s.prepend h)
      = (pup_to_HTML_form_inner fn n cur s).prepend h := by
  simp only [pup_to_HTML_form_inner, startform_prepend]
  simp only [html_form_state.prepend, List.append_assoc]

theorem renderer_comment_prepend (fn c h : Str) (s : html_form_state) :
    (pup_to_HTML_form fn).comment c (s.prepend h)
      = ((pup_to_HTML_form fn).comment c s).prepend h := by
  show ({ s.prepend h with html := (s.prepend h).html ++ c } : html_form_state)
    = ({ s with html := s.html ++ c } : html_form_state).prepend h
  simp only [html_form_state.prepend, List.append_assoc]

theorem renderer_float_eq (fn n : Str) (v : Nat) (s : html_form_state) :
    (pup_to_HTML_form fn).pup_float n v s
      = (v, pup_to_HTML_form_inner fn n (format_f v) s) := rfl

theorem renderer_int_eq (fn n : Str) (v : Int) (s : html_form_state) :
    (pup_to_HTML_form fn).pup_int n v s = (v, pup_to_HTML_form_inner fn n (itos v) s) := rfl

theorem renderer_string_eq (fn n v : Str) (s : html_form_state) :
    (pup_to_HTML_form fn).pup_string n v s
      = if count_newlines v = 0 then
          (v, pup_to_HTML_form_inner fn n (c_str (escape_HTML v)) s)
        else
          (v, { (startform fn s).2 with
            html := s.html ++ ((startform fn s).1
              ++ n ++ ":<br>\n<textarea name=\"".data ++ (s.address ++ n)
              ++ "\" cols=\"85\" rows=\"".data ++ itos (to_int (count_newlines v + 2))
              ++ "\">".data ++ escape_HTML v ++ "</textarea><br>".data ++ endform) }) := rfl

theorem renderer_string_prepend (fn n v h : Str) (s : html_form_state) :
    (pup_to_HTML_form fn).pup_string n v (s.prepend h)
      = (((pup_to_HTML_form fn).pup_string n v s).1,
         ((pup_to_HTML_form fn).pup_string n v s).2.prepend h) := by
  rw [renderer_string_eq, renderer_string_eq]
  by_cases hc : count_newlines v = 0
  · simp only [if_pos hc, renderer_inner_prepend]
  · simp only [if_neg hc, startform_prepend]
    simp only [html_form_state.prepend, List.append_assoc]

theorem renderer_enum_eq (fn n : Str) (v : Nat) (nv : List name_value_record)
    (s : html_form_state) :
    (pup_to_HTML_form fn).pup_enum n v nv s
      = (v, { (startform fn s).2 with
          html := html_options v nv
              (s.html ++ ((startform fn s).1
                ++ n ++ ": <SELECT name=\"".data ++ (s.address ++ n) ++ "\" >\n".data))
            ++ ("</SELECT>".data ++ endform) }) := rfl

theorem renderer_enum_prepend (fn n : Str) (v : Nat) (nv : List name_value_record)
    (h : Str) (s : html_form_state) :
    (pup_to_HTML_form fn).pup_enum n v nv (s.prepend h)
      = (((pup_to_HTML_form fn).pup_enum n v nv s).1,
         ((pup_to_HTML_form fn).pup_enum n v nv s).2.prepend h) := by
  rw [renderer_enum_eq, renderer_enum_eq]
  simp only [startform_prepend]
  simp only [html_form_state.prepend]
  rw [html_options_append v nv ((h ++ s.html) ++ _), html_options_append v nv (s.html ++ _)]
  simp only [List.append_assoc]

theorem renderer_objectbegin_eq (fn n : Str) (s : html_form_state) :
    (pup_to_HTML_form fn).pup_objectbegin n s
      = { (itemdiv s).2 with
          old_addresses := s.address :: s.old_addresses
          html := s.html ++ (itemdiv s).1
            ++ (s.address ++ "<B>".data ++ n ++ "</B> \x7b".data)
            ++ "<DIV STYLE=\"margin-left:1em; padding-left:1em;\">\n".data
          address := s.address ++ n ++ ['.']
          indent := s.indent + 1 } := rfl

theorem renderer_objectbegin_prepend (fn n h : Str) (s : html_form_state) :
    (pup_to_HTML_form fn).pup_objectbegin n (s.prepend h)
      = ((pup_to_HTML_form fn).pup_objectbegin n s).prepend h := by
  rw [renderer_objectbegin_eq, renderer_objectbegin_eq]
  simp only [itemdiv_prepend]
  simp only [html_form_state.prepend, List.append_assoc]

theorem renderer_objectend_eq (fn n : Str) (s : html_form_state) :
    (pup_to_HTML_form fn).pup_objectend n s
      = { s with
          html := s.html ++ "</DIV>\x7d<br>\n\n".data ++ "</DIV><br>".data
          indent := s.indent - 1
          address := s.old_addresses.headD []
          old_addresses := s.old_addresses.tail } := rfl

theorem renderer_objectend_prepend (fn n h : Str) (s : html_form_state) :
    (pup_to_HTML_form fn).pup_objectend n (s.prepend h)
      = ((pup_to_HTML_form fn).pup_objectend n s).prepend h := by
  rw [renderer_objectend_eq, renderer_objectend_eq]
  simp only [html_form_state.prepend, List.append_assoc]

mutual
theorem pup_to_HTML_form_prepend (fn h : Str) : ∀ (i : Item) (s : html_form_state),
    pup (pup_to_HTML_form fn) i (s.prepend h)
      = ((pup (pup_to_HTML_form fn) i s).1, (pup (pup_to_HTML_form fn) i s).2.prepend h)
  | .comment c, s => by simp only [pup, renderer_comment_prepend]
  | .pfloat n v, s => by simp only [pup, renderer_float_eq, renderer_inner_prepend]
  | .pint n v, s => by simp only [pup, renderer_int_eq, renderer_inner_prepend]
  | .pstring n v, s => by simp only [pup, renderer_string_prepend]
  | .penum n v nv, s => by simp only [pup, renderer_enum_prepend]
  | .object n fs, s => by
    simp only [pup, renderer_objectbegin_prepend, pup_fields_to_HTML_form_prepend fn h fs,
      renderer_objectend_prepend]

theorem pup_fields_to_HTML_form_prepend (fn h : Str) : ∀ (is : List Item) (s : html_form_state),
    pup_fields (pup_to_HTML_form fn) is (s.prepend h)
      = ((pup_fields (pup_to_HTML_form fn) is s).1,
         (pup_fields (pup_to_HTML_form fn) is s).2.prepend h)
  | [], s => by simp only [pup_fields]
  | i :: is, s => by
    simp only [pup_fields, pup_to_HTML_form_prepend fn h i,
      pup_fields_to_HTML_form_prepend fn h is]
end

/-- Rendering onto a page that already holds `h` gives `h` followed by the rendered form. -/
theorem rendered_form_append (fn h : Str) (reg : Registry) :
    (webconfig_pup_all (pup_to_HTML_form fn) reg (.init h)).2.html
      = h ++ (webconfig_pup_all (pup_to_HTML_form fn) reg (.init [])).2.html := by
  unfold webconfig_pup_all
  rw [← prepend_init h, pup_fields_to_HTML_form_prepend]
  rfl

theorem world_eta (w : World) :
    ({ registry := w.registry, config_file := w.config_file } : World) = w := by
  cases w; rfl

theorem take_eq_iff_prefix (p l : Str) (n : Nat) (hn : p.length = n) :
    l.take n = p ↔ p <+: l := by
  subst hn
  rw [List.prefix_iff_eq_take]
  exact eq_comm

/-- The editor on the two exact paths: the whole page. -/
theorem respond_initial (e : webconfig_editor) (client : http_served_client) (w : World)
    (hpath : client.path = ['/'] ∨ client.path = '/' :: e.form_name) :
    e.respond client w
      = (true,
         client.send "text/html".data
           (e.page_start
             ++ (webconfig_pup_all (pup_to_HTML_form e.form_name) w.registry (.init [])).2.html
             ++ e.page_end),
         w) := by
  have h2 : ¬ client.path.take (2 + e.form_name.length) = '/' :: e.form_name ++ ['?'] := by
    intro h
    have hl := congrArg List.length h
    rcases hpath with hp | hp <;> rw [hp] at hl <;> simp at hl <;> omega
  unfold webconfig_editor.respond
  simp only [hpath, h2, decide_True, decide_False, Bool.or_false, if_true, if_false,
    Bool.false_eq_true]
  rw [rendered_form_append]
  simp only [webconfig_pup_all, pup_fields_to_HTML_form_fst, world_eta]

/-- The editor on a path that is not its own: nothing happens. -/
theorem respond_other (e : webconfig_editor) (client : http_served_client) (w : World)
    (h1 : ¬ (client.path = ['/'] ∨ client.path = '/' :: e.form_name))
    (h2 : ¬ client.path.take (2 + e.form_name.length) = '/' :: e.form_name ++ ['?']) :
    e.respond client w = (false, client, w) := by
  unfold webconfig_editor.respond
  simp only [h1, h2, decide_False, Bool.or_false, if_false, Bool.false_eq_true]

theorem respond_fst (e : webconfig_editor) (client : http_served_client) (w : World) :
    (e.respond client w).1
      = (decide (client.path = ['/'] ∨ client.path = '/' :: e.form_name)
          || decide (client.path.take (2 + e.form_name.length) = '/' :: e.form_name ++ ['?'])) :=
  rfl

theorem split_at_first_eq : ∀ (q : Str), '=' ∈ q →
    q = q.takeWhile (fun c => c ≠ '=') ++ '=' :: (q.dropWhile (fun c => c ≠ '=')).tail
      ∧ '=' ∉ q.takeWhile (fun c => c ≠ '=')
  | [], h => by cases h
  | c :: q, h => by
    by_cases hc : c = '='
    · subst hc
      simp
    · have hq : '=' ∈ q := by
        rcases List.mem_cons.mp h with h | h
        · exact absurd h.symm hc
        · exact h
      obtain ⟨h1, h2⟩ := split_at_first_eq q hq
      have hne : ('=' : Char) ≠ c := fun h => hc h.symm
      refine ⟨?_, ?_⟩
      · simp only [List.takeWhile_cons, List.dropWhile_cons, hc, ne_eq, not_false_eq_true,
          decide_True, if_true, List.cons_append]
        exact congrArg (List.cons c) h1
      · simp only [List.takeWhile_cons, hc, ne_eq, not_false_eq_true, decide_True, if_true,
          List.mem_cons, not_or]
        exact ⟨hne, h2⟩

/-! ## The Applier stores values of the right type -/

theorem float_of_fraction_lt (n d : Nat) : float_of_fraction n d < 2147483648 := by
  unfold float_of_fraction
  simp only
  split
  · norm_num
  · split
    · norm_num
    · rename_i h
      split <;> omega

theorem atof_lt (s : Str) : atof s < 4294967296 := by
  unfold atof
  simp only
  have hsign : ∀ c : Option Char, (if c = some '-' then 2147483648 else 0 : Nat) ≤ 2147483648 := by
    intro c; split <;> omega
  cases hm : strtod_magnitude _ with
  | finite n d =>
    have h1 := float_of_fraction_lt n d
    have h2 := hsign (s.dropWhile isspace).head?
    simp only [hm]
    omega
  | infinite =>
    have h2 := hsign (s.dropWhile isspace).head?
    simp only [hm]
    omega
  | not_a_number =>
    have h2 := hsign (s.dropWhile isspace).head?
    simp only [hm]
    omega

theorem to_int_idem (v : Int) : to_int (to_int v) = to_int v :=
  to_int_of_small _ (to_int_range v).1 (to_int_range v).2

theorem atoi_typed (s : Str) : to_int (atoi s) = atoi s := by
  unfold atoi
  exact to_int_idem _

mutual
theorem applier_typed (P V : Str) : ∀ (i : Item) (s : name_value_state),
    i.typed = true → (pup (pup_from_name_value P V) i s).1.typed = true
  | .comment c, s, _ => rfl
  | .pfloat n v, s, h => by
    simp only [pup, applier_float]
    by_cases hn : s.address ++ n = P
    · simp only [if_pos hn, Item.typed, decide_eq_true_eq]
      exact atof_lt _
    · simp only [if_neg hn]
      exact h
  | .pint n v, s, h => by
    simp only [pup, applier_int]
    by_cases hn : s.address ++ n = P
    · simp only [if_pos hn, Item.typed, decide_eq_true_eq]
      exact atoi_typed _
    · simp only [if_neg hn]
      exact h
  | .pstring n v, s, _ => rfl
  | .penum n v nv, s, h => by
    simp only [pup, applier_enum]
    by_cases hn : s.address ++ n = P
    · simp only [if_pos hn, Item.typed, decide_eq_true_eq]
      exact to_unsigned_lt _
    · simp only [if_neg hn]
      exact h
  | .object n fs, s, h => by
    simp only [Item.typed] at h
    simp only [pup, Item.typed]
    exact applier_fields_typed P V fs _ h

theorem applier_fields_typed (P V : Str) : ∀ (is : List Item) (s : name_value_state),
    typed_all is = true → typed_all (pup_fields (pup_from_name_value P V) is s).1 = true
  | [], s, _ => rfl
  | i :: is, s, h => by
    simp only [typed_all, Bool.and_eq_true] at h
    simp only [pup_fields, typed_all, Bool.and_eq_true]
    exact ⟨applier_typed P V i s h.1, applier_fields_typed P V is _ h.2⟩
end

theorem count_newlines_eq_zero (s : Str) (h : '\n' ∉ s) : count_newlines s = 0 := by
  unfold count_newlines
  have : s.filter (fun c => decide (c = '\n')) = [] := by
    rw [List.filter_eq_nil_iff]
    intro c hc hcn
    simp only [decide_eq_true_eq] at hcn
    exact h (hcn ▸ hc)
  rw [this]
  rfl

theorem c_str_eq_self (t : Str) (h : Char.ofNat 0 ∉ t) : c_str t = t := by
  unfold c_str
  rw [List.takeWhile_eq_self_iff]
  intro c hc
  simp only [ne_eq, decide_not, Bool.not_eq_true', decide_eq_false_iff_not]
  intro hcn
  exact h (hcn ▸ hc)

theorem escape_HTML_no_nul : ∀ (s : Str), Char.ofNat 0 ∉ s → Char.ofNat 0 ∉ escape_HTML s
  | [], _ => by simp [escape_HTML]
  | c :: s, h => by
    have hc : Char.ofNat 0 ≠ c := fun hc => h (hc ▸ List.mem_cons_self _ _)
    have hs := escape_HTML_no_nul s (fun hm => h (List.mem_cons_of_mem _ hm))
    unfold escape_HTML
    split
    · rw [List.mem_append, not_or]; exact ⟨by decide, hs⟩
    · split
      · rw [List.mem_append, not_or]; exact ⟨by decide, hs⟩
      · split
        · rw [List.mem_append, not_or]; exact ⟨by decide, hs⟩
        · split
          · rw [List.mem_append, not_or]; exact ⟨by decide, hs⟩
          · rw [List.mem_cons, not_or]; exact ⟨hc, hs⟩

/-- The form rendered for one object `o` with an int field `f = n` and a string field
`g = s`, the string free of newlines and of NUL characters: one text input per field, named
by the path, holding the decimal rendering of `n` and the HTML-escaped `s`. -/
theorem rendered_int_string_object (fn o f g s : Str) (n : Int)
    (hnl : '\n' ∉ s) (hnul : Char.ofNat 0 ∉ s) :
    (webconfig_pup_all (pup_to_HTML_form fn) [.object o [.pint f n, .pstring g s]]
        (.init [])).2.html
      = "<DIV STYLE=\"background-color:#f0f0f9\">\n\t<B>".data ++ o ++ "</B> \x7b".data
        ++ "<DIV STYLE=\"margin-left:1em; padding-left:1em;\">\n".data
        ++ "<DIV STYLE=\"background-color:#d9d0d0\">\n\t<FORM ACTION=\"/".data ++ fn
        ++ "\">".data ++ f ++ ": <INPUT type=\"text\" name=\"".data ++ (o ++ ['.'] ++ f)
        ++ "\" value=\"".data ++ itos n ++ "\" />".data ++ endform
        ++ "<DIV STYLE=\"background-color:#d0d0d9\">\n\t<FORM ACTION=\"/".data ++ fn
        ++ "\">".data ++ g ++ ": <INPUT type=\"text\" name=\"".data ++ (o ++ ['.'] ++ g)
        ++ "\" value=\"".data ++ escape_HTML s ++ "\" />".data ++ endform
        ++ "</DIV>\x7d<br>\n\n</DIV><br>".data := by
  simp only [webconfig_pup_all, pup_fields, pup, renderer_objectbegin_eq, renderer_int_eq,
    renderer_string_eq, renderer_objectend_eq, count_newlines_eq_zero s hnl, if_true,
    c_str_eq_self _ (escape_HTML_no_nul s hnul), pup_to_HTML_form_inner, startform, itemdiv,
    html_form_state.init, getobjectcolor, List.append_assoc, List.nil_append]
  rfl

theorem unescape_URL_length_le : ∀ (n : Nat) (s : Str), s.length ≤ n →
    (unescape_URL s).length ≤ s.length
  | _, [], _ => by simp [unescape_URL]
  | _, [c], _ => by
    unfold unescape_URL
    split <;> simp [unescape_URL]
  | _, [c, a], _ => by
    have h1 := unescape_URL_length_le 1 [a] (le_refl _)
    unfold unescape_URL
    split <;> simp only [List.length_cons] at h1 ⊢ <;> omega
  | 0, _ :: _ :: _ :: _, h => by simp at h
  | n + 1, c :: a :: b :: s, h => by
    have h1 := unescape_URL_length_le n (a :: b :: s) (by simp at h ⊢; omega)
    have h2 := unescape_URL_length_le n s (by simp at h ⊢; omega)
    unfold unescape_URL
    split
    · simp only [List.length_cons] at h1 ⊢; omega
    · split
      · simp only [List.length_cons] at h2 ⊢; omega
      · simp only [List.length_cons] at h1 ⊢; omega

mutual
theorem applier_storable (P V : Str) (hV : V.length < 2147483648) :
    ∀ (i : Item) (s : name_value_state),
    i.storable = true → (pup (pup_from_name_value P V) i s).1.storable = true
  | .comment c, s, _ => rfl
  | .pfloat n v, s, h => by
    simp only [pup, applier_float]
    by_cases hn : s.address ++ n = P
    · simp only [if_pos hn, Item.storable, decide_eq_true_eq]
      exact atof_lt _
    · simp only [if_neg hn]
      exact h
  | .pint n v, s, h => by
    simp only [pup, applier_int]
    by_cases hn : s.address ++ n = P
    · simp only [if_pos hn, Item.storable, decide_eq_true_eq]
      exact atoi_typed _
    · simp only [if_neg hn]
      exact h
  | .pstring n v, s, h => by
    simp only [pup, applier_string]
    by_cases hn : s.address ++ n = P
    · simp only [if_pos hn, Item.storable, decide_eq_true_eq]
      have := unescape_URL_length_le V.length V (le_refl _)
      omega
    · simp only [if_neg hn]
      exact h
  | .penum n v nv, s, h => by
    simp only [pup, applier_enum]
    by_cases hn : s.address ++ n = P
    · simp only [if_pos hn, Item.storable, decide_eq_true_eq]
      exact to_unsigned_lt _
    · simp only [if_neg hn]
      exact h
  | .object n fs, s, h => by
    simp only [Item.storable] at h
    simp only [pup, Item.storable]
    exact applier_fields_storable P V hV fs _ h

theorem applier_fields_storable (P V : Str) (hV : V.length < 2147483648) :
    ∀ (is : List Item) (s : name_value_state),
    storable_all is = true → storable_all (pup_fields (pup_from_name_value P V) is s).1 = true
  | [], s, _ => rfl
  | i :: is, s, h => by
    simp only [storable_all, Bool.and_eq_true] at h
    simp only [pup_fields, storable_all, Bool.and_eq_true]
    exact ⟨applier_storable P V hV i s h.1, applier_fields_storable P V hV is _ h.2⟩
end

/-! ## The URL decoder -/

theorem unescape_URL_cons_plain (c : Char) (s : Str) (h : c ≠ '%') :
    unescape_URL (c :: s) = (if c = '+' then ' ' else c) :: unescape_URL s := by
  rcases s with _ | ⟨a, _ | ⟨b, s⟩⟩ <;> (conv_lhs => unfold unescape_URL) <;>
    (try simp only [h, if_false]) <;> split <;> rfl

theorem unescape_URL_cons_percent (a b : Char) (s : Str) :
    unescape_URL ('%' :: a :: b :: s) = Char.ofNat (sscanf_hex2 a b) :: unescape_URL s := by
  rw [unescape_URL]
  simp

theorem reference_url_decode_cons_plain (c : Char) (s : Str) (h : c ≠ '%') :
    reference_url_decode (c :: s) = (if c = '+' then ' ' else c) :: reference_url_decode s := by
  rcases s with _ | ⟨a, _ | ⟨b, s⟩⟩ <;> (conv_lhs => unfold reference_url_decode) <;>
    (try simp only [h, if_false]) <;> split <;> rfl

theorem reference_url_decode_cons_percent (a b : Char) (s : Str) :
    reference_url_decode ('%' :: a :: b :: s)
      = Char.ofNat (16 * hexval a + hexval b) :: reference_url_decode s := by
  rw [reference_url_decode]
  simp

theorem sscanf_hex2_digits (a b : Char) (ha : isxdigit a = true) (hb : isxdigit b = true) :
    sscanf_hex2 a b = 16 * hexval a + hexval b := by
  simp [sscanf_hex2, ha, hb]

theorem percent_well_formed_tail (c : Char) (s : Str) (h : percent_well_formed (c :: s)) :
    percent_well_formed s := by
  intro i hi hp
  have := h (i + 1) (by simp; omega) (by simpa using hp)
  simpa using this

theorem percent_well_formed_head (s : Str) (h : percent_well_formed ('%' :: s)) :
    ∃ a b r, s = a :: b :: r ∧ isxdigit a = true ∧ isxdigit b = true := by
  have h0 := h 0 (by simp) rfl
  rcases s with _ | ⟨a, _ | ⟨b, r⟩⟩
  · simp at h0
  · simp at h0
  · exact ⟨a, b, r, rfl, by simpa using h0.1, by simpa using h0.2⟩

theorem unescape_URL_eq_reference : ∀ (n : Nat) (s : Str), s.length ≤ n →
    percent_well_formed s → unescape_URL s = reference_url_decode s
  | _, [], _, _ => by simp [unescape_URL, reference_url_decode]
  | 0, _ :: _, h, _ => by simp at h
  | n + 1, c :: s, h, hw => by
    by_cases hc : c = '%'
    · subst hc
      obtain ⟨a, b, r, rfl, ha, hb⟩ := percent_well_formed_head s hw
      have hr : percent_well_formed r :=
        percent_well_formed_tail _ _ (percent_well_formed_tail _ _
          (percent_well_formed_tail _ _ hw))
      rw [unescape_URL_cons_percent, reference_url_decode_cons_percent,
        sscanf_hex2_digits a b ha hb,
        unescape_URL_eq_reference n r (by simp at h ⊢; omega) hr]
    · rw [unescape_URL_cons_plain c s hc, reference_url_decode_cons_plain c s hc,
        unescape_URL_eq_reference n s (by simp at h ⊢; omega)
          (percent_well_formed_tail c s hw)]

theorem hex_digit_spec : ∀ d < 16, isxdigit (hex_digit d) = true ∧ hexval (hex_digit d) = d := by
  decide

theorem unescape_URL_percent_encode : ∀ (b : Str), (∀ c ∈ b, c.toNat < 256) →
    unescape_URL (percent_encode b) = b
  | [], _ => by simp [percent_encode, unescape_URL]
  | c :: b, h => by
    have hc : c.toNat < 256 := h c (List.mem_cons_self _ _)
    have h1 := hex_digit_spec (c.toNat / 16) (by omega)
    have h2 := hex_digit_spec (c.toNat % 16) (by omega)
    rw [percent_encode, unescape_URL_cons_percent, sscanf_hex2_digits _ _ h1.1 h2.1, h1.2, h2.2,
      unescape_URL_percent_encode b (fun x hx => h x (List.mem_cons_of_mem _ hx)),
      show 16 * (c.toNat / 16) + c.toNat % 16 = c.toNat by omega, Char.ofNat_toNat]

theorem unescape_URL_plain : ∀ (s : Str), '%' ∉ s → '+' ∉ s → unescape_URL s = s
  | [], _, _ => by simp [unescape_URL]
  | c :: s, h1, h2 => by
    have hc1 : c ≠ '%' := fun hc => h1 (hc ▸ List.mem_cons_self _ _)
    have hc2 : c ≠ '+' := fun hc => h2 (hc ▸ List.mem_cons_self _ _)
    rw [unescape_URL_cons_plain c s hc1, if_neg hc2,
      unescape_URL_plain s (fun hm => h1 (List.mem_cons_of_mem _ hm))
        (fun hm => h2 (List.mem_cons_of_mem _ hm))]

/-! ## The Binary Writer output as a function of the field values -/

theorem encode_values_append : ∀ (a b : List Value),
    encode_values (a ++ b) = encode_values a ++ encode_values b
  | [], b => rfl
  | v :: a, b => by
    show encode_value v ++ encode_values (a ++ b) = (encode_value v ++ encode_values a) ++ _
    rw [encode_values_append a b, List.append_assoc]

theorem to_unsigned_to_int_nat (v : Nat) : to_unsigned (to_int v) = v % 4294967296 := by
  simp only [to_int, to_unsigned]; omega

mutual
theorem pup_to_binary_file_values : ∀ (i : Item) (A : Str),
    (∀ f ∈ i.fields A, f.2.length_fits = true) →
    (pup pup_to_binary_file i []).2 = encode_values ((i.fields A).map Prod.snd)
  | .comment c, A, _ => by simp only [pup, writer_comment, Item.fields, List.map_nil, encode_values]
  | .pfloat n v, A, _ => by
    simp only [pup, writer_float, Item.fields, List.map_cons, List.map_nil, encode_values,
      encode_value, List.nil_append, List.append_nil, float_bytes]
  | .pint n v, A, _ => by
    simp only [pup, writer_int, Item.fields, List.map_cons, List.map_nil, encode_values,
      encode_value, List.nil_append, List.append_nil]
  | .pstring n v, A, h => by
    have hv : v.length < 2147483648 := by
      simpa [Value.length_fits] using h (A ++ n, .vstring v) (by simp [Item.fields])
    have hlen : to_int (v.length : Int) = (v.length : Int) :=
      to_int_of_small _ (by omega) (by omega)
    simp only [pup, writer_string, Item.fields, List.map_cons, List.map_nil, encode_values,
      encode_value, List.nil_append, List.append_nil, hlen, Int.toNat_ofNat, List.take_length]
  | .penum n v nv, A, _ => by
    simp only [pup, writer_enum, Item.fields, List.map_cons, List.map_nil, encode_values,
      encode_value, List.nil_append, List.append_nil, int_bytes, to_unsigned_to_int_nat]
  | .object n fs, A, h => by
    simp only [pup, writer_objectbegin, writer_objectend, Item.fields]
    exact pup_fields_to_binary_file_values fs _ (by simpa only [Item.fields] using h)
theorem pup_fields_to_binary_file_values : ∀ (is : List Item) (A : Str),
    (∀ f ∈ fields_of A is, f.2.length_fits = true) →
    (pup_fields pup_to_binary_file is []).2 = encode_values ((fields_of A is).map Prod.snd)
  | [], A, _ => by simp only [pup_fields, fields_of, List.map_nil, encode_values]
  | i :: is, A, h => by
    simp only [fields_of, List.mem_append] at h
    simp only [pup_fields, fields_of, List.map_append, encode_values_append]
    rw [pup_fields_to_binary_file_append is (pup pup_to_binary_file i []).2,
      pup_to_binary_file_values i A (fun f hf => h f (Or.inl hf)),
      pup_fields_to_binary_file_values is A (fun f hf => h f (Or.inr hf))]
end

theorem encode_value_length (v : Value) :
    (encode_value v).length = 4 * (if v.is_numeric then 1 else 0) + v.string_share := by
  cases v <;> simp [encode_value, Value.is_numeric, Value.string_share, bytes4_length,
    int_bytes_length]

theorem encode_values_length : ∀ (vs : List Value),
    (encode_values vs).length
      = 4 * (vs.filter Value.is_numeric).length + (vs.map Value.string_share).sum
  | [] => rfl
  | v :: vs => by
    simp only [encode_values, List.length_append, encode_value_length, encode_values_length vs,
      List.filter_cons, List.map_cons, List.sum_cons]
    cases hv : v.is_numeric <;> simp <;> omega

/-! ## The Binary Reader on an exhausted stream -/

theorem istream_read_exhausted (s : istream) (old : Str) (n : Nat) (hd : s.data = []) :
    (s.read old n).1 = old ∧ (s.read old n).2.data = []
      ∧ (s.read old n).2.thrown = s.thrown := by
  unfold istream.read
  cases hg : s.good
  · simp [hd]
  · simp [hd]

theorem resize_self (value : Str) : resize value value.length = value := by
  simp [resize]

mutual
theorem reader_exhausted : ∀ (t : Item) (s : istream),
    s.data = [] → s.thrown = false → t.storable = true →
    (pup pup_from_binary_file t s).1 = t ∧ (pup pup_from_binary_file t s).2.data = []
      ∧ (pup pup_from_binary_file t s).2.thrown = false
  | .comment c, s, hd, ht, _ => by
    simp only [pup, reader_comment]
    exact ⟨trivial, hd, ht⟩
  | .pfloat n v, s, hd, ht, hv => by
    simp only [Item.storable, decide_eq_true_eq] at hv
    obtain ⟨h1, h2, h3⟩ := istream_read_exhausted s (float_bytes v) 4 hd
    simp only [pup, reader_float, ht, Bool.false_eq_true, if_false, h1, h2, h3,
      bytes_float_float_bytes v hv, and_self]
  | .pint n v, s, hd, ht, hv => by
    simp only [Item.storable, decide_eq_true_eq] at hv
    have hr := to_int_range v
    rw [hv] at hr
    obtain ⟨h1, h2, h3⟩ := istream_read_exhausted s (int_bytes v) 4 hd
    simp only [pup, reader_int, ht, Bool.false_eq_true, if_false, h1, h2, h3,
      bytes_int_int_bytes v hr.1 hr.2, and_self]
  | .pstring n v, s, hd, ht, hv => by
    simp only [Item.storable, decide_eq_true_eq] at hv
    have hlen : to_int (v.length : Int) = (v.length : Int) :=
      to_int_of_small _ (by omega) (by omega)
    obtain ⟨h1, h2, h3⟩ := istream_read_exhausted s (int_bytes (v.length : Int)) 4 hd
    obtain ⟨k1, k2, k3⟩ := istream_read_exhausted (s.read (int_bytes (v.length : Int)) 4).2
      v v.length h2
    simp only [pup, reader_string, ht, Bool.false_eq_true, if_false,
      pup_from_binary_file_string, hlen, h1, bytes_int_int_bytes _ (by omega : (-2147483648 : Int) ≤ v.length) (by omega),
      if_neg (show ¬ ((v.length : Int) < 0) by omega), Int.toNat_ofNat, k1, k2, k3, h3,
      resize_self, and_self]
  | .penum n v nv, s, hd, ht, hv => by
    simp only [Item.storable, decide_eq_true_eq] at hv
    obtain ⟨h1, h2, h3⟩ := istream_read_exhausted s (int_bytes (to_int v)) 4 hd
    simp only [pup, reader_enum, reader_int, ht, Bool.false_eq_true, if_false, h1, h2, h3,
      bytes_int_int_bytes _ (to_int_range _).1 (to_int_range _).2, to_unsigned_to_int v hv,
      and_self]
  | .object n fs, s, hd, ht, hv => by
    simp only [Item.storable] at hv
    obtain ⟨h1, h2, h3⟩ := reader_fields_exhausted fs s hd ht hv
    simp only [pup, reader_objectbegin, reader_objectend, h1, h2, h3, and_self]
theorem reader_fields_exhausted : ∀ (ts : List Item) (s : istream),
    s.data = [] → s.thrown = false → storable_all ts = true →
    (pup_fields pup_from_binary_file ts s).1 = ts
      ∧ (pup_fields pup_from_binary_file ts s).2.data = []
      ∧ (pup_fields pup_from_binary_file ts s).2.thrown = false
  | [], s, hd, ht, _ => by
    simp only [pup_fields]
    exact ⟨trivial, hd, ht⟩
  | t :: ts, s, hd, ht, hv => by
    simp only [storable_all, Bool.and_eq_true] at hv
    obtain ⟨h1, h2, h3⟩ := reader_exhausted t s hd ht hv.1
    obtain ⟨k1, k2, k3⟩ := reader_fields_exhausted ts _ h2 h3 hv.2
    simp only [pup_fields, h1, k1, k2, k3, and_self]
end

/-! ## Shapes and field lists -/

mutual
theorem pup_shape {σ : Type} (p : pup_er_virtual σ) : ∀ (i : Item) (st : σ),
    (pup p i st).1.shape = i.shape
  | .comment c, st => by simp only [pup, Item.shape]
  | .pfloat n v, st => by simp only [pup, Item.shape]
  | .pint n v, st => by simp only [pup, Item.shape]
  | .pstring n v, st => by simp only [pup, Item.shape]
  | .penum n v nv, st => by simp only [pup, Item.shape]
  | .object n fs, st => by simp only [pup, Item.shape, pup_fields_shape p fs]
theorem pup_fields_shape {σ : Type} (p : pup_er_virtual σ) : ∀ (is : List Item) (st : σ),
    shape_of (pup_fields p is st).1 = shape_of is
  | [], st => by simp only [pup_fields, shape_of]
  | i :: is, st => by simp only [pup_fields, shape_of, pup_shape p i, pup_fields_shape p is]
end

mutual
theorem shape_paths : ∀ (i t : Item) (A : Str), t.shape = i.shape →
    (t.fields A).map Prod.fst = (i.fields A).map Prod.fst
  | .comment c, t, A, h => by
    cases t <;> simp only [Item.shape, Item.comment.injEq, reduceCtorEq] at h
    simp only [Item.fields]
  | .pfloat n v, t, A, h => by
    cases t <;> simp only [Item.shape, Item.pfloat.injEq, reduceCtorEq] at h
    simp only [Item.fields, List.map_cons, List.map_nil, h.1]
  | .pint n v, t, A, h => by
    cases t <;> simp only [Item.shape, Item.pint.injEq, reduceCtorEq] at h
    simp only [Item.fields, List.map_cons, List.map_nil, h.1]
  | .pstring n v, t, A, h => by
    cases t <;> simp only [Item.shape, Item.pstring.injEq, reduceCtorEq] at h
    simp only [Item.fields, List.map_cons, List.map_nil, h.1]
  | .penum n v nv, t, A, h => by
    cases t <;> simp only [Item.shape, Item.penum.injEq, reduceCtorEq] at h
    simp only [Item.fields, List.map_cons, List.map_nil, h.1]
  | .object n fs, t, A, h => by
    cases t <;> simp only [Item.shape, Item.object.injEq, reduceCtorEq] at h
    simp only [Item.fields, h.1]
    exact shape_of_paths fs _ _ h.2
theorem shape_of_paths : ∀ (is ts : List Item) (A : Str), shape_of ts = shape_of is →
    (fields_of A ts).map Prod.fst = (fields_of A is).map Prod.fst
  | [], ts, A, h => by
    cases ts <;> simp only [shape_of, reduceCtorEq] at h
    rfl
  | i :: is, ts, A, h => by
    cases ts with
    | nil => simp only [shape_of, reduceCtorEq] at h
    | cons t ts =>
      simp only [shape_of, List.cons.injEq] at h
      simp only [fields_of, List.map_append, shape_paths i t A h.1, shape_of_paths is ts A h.2]
end

theorem shape_fields_length (i t : Item) (A : Str) (h : t.shape = i.shape) :
    (t.fields A).length = (i.fields A).length := by
  have := congrArg List.length (shape_paths i t A h)
  simpa using this

mutual
theorem storable_length_fits : ∀ (i : Item) (A : Str), i.storable = true →
    ∀ f ∈ i.fields A, f.2.length_fits = true
  | .comment c, A, _ => by simp [Item.fields]
  | .pfloat n v, A, _ => by simp [Item.fields, Value.length_fits]
  | .pint n v, A, _ => by simp [Item.fields, Value.length_fits]
  | .pstring n v, A, h => by
    simp only [Item.storable] at h
    simp [Item.fields, Value.length_fits, h]
  | .penum n v nv, A, _ => by simp [Item.fields, Value.length_fits]
  | .object n fs, A, h => by
    simp only [Item.storable] at h
    simp only [Item.fields]
    exact storable_all_length_fits fs _ h
theorem storable_all_length_fits : ∀ (is : List Item) (A : Str), storable_all is = true →
    ∀ f ∈ fields_of A is, f.2.length_fits = true
  | [], A, _ => by simp [fields_of]
  | i :: is, A, h => by
    simp only [storable_all, Bool.and_eq_true] at h
    intro f hf
    simp only [fields_of, List.mem_append] at hf
    rcases hf with hf | hf
    · exact storable_length_fits i A h.1 f hf
    · exact storable_all_length_fits is A h.2 f hf
end

/-! ## The Binary Reader on a file that ends at a field boundary -/

theorem take_fields_append (F G : List (Str × Value)) (k : Nat) (h : F.length ≤ k) :
    (F ++ G).take k = F ++ G.take (k - F.length) := by
  rw [List.take_append_eq_append_take, List.take_of_length_le h]

theorem take_fields_short (F G : List (Str × Value)) (k : Nat) (h : k ≤ F.length) :
    (F ++ G).take k = F.take k := by
  rw [List.take_append_eq_append_take, show k - F.length = 0 by omega, List.take_zero,
    List.append_nil]

theorem drop_fields_append (F G : List (Str × Value)) (k : Nat) (h : F.length ≤ k) :
    (F ++ G).drop k = G.drop (k - F.length) := by
  rw [List.drop_append_eq_append_drop, List.drop_of_length_le h, List.nil_append]

theorem drop_fields_short (F G : List (Str × Value)) (k : Nat) (h : k ≤ F.length) :
    (F ++ G).drop k = F.drop k ++ G := by
  rw [List.drop_append_eq_append_drop, show k - F.length = 0 by omega, List.drop_zero]

/-- An item whose whole encoding is in the file is read back. -/
theorem reader_whole_item (i t : Item) (A rest : Str) (hi : i.storable = true)
    (hsh : t.shape = i.shape) :
    pup pup_from_binary_file t
        { data := encode_values ((i.fields A).map Prod.snd) ++ rest, good := true,
          thrown := false }
      = (i, { data := rest, good := true, thrown := false }) := by
  rw [← pup_to_binary_file_values i A (storable_length_fits i A hi)]
  exact pup_from_binary_file_inverse i t rest hi hsh

mutual
theorem reader_truncated : ∀ (i t : Item) (A : Str) (k : Nat) (g : Bool),
    i.storable = true → t.storable = true → t.shape = i.shape → (g = true ∨ k = 0) →
    (pup pup_from_binary_file t
        { data := encode_values (((i.fields A).take k).map Prod.snd), good := g,
          thrown := false }).2.data = []
      ∧ (pup pup_from_binary_file t
          { data := encode_values (((i.fields A).take k).map Prod.snd), good := g,
            thrown := false }).2.thrown = false
      ∧ (pup pup_from_binary_file t
          { data := encode_values (((i.fields A).take k).map Prod.snd), good := g,
            thrown := false }).1.fields A
        = (i.fields A).take k ++ (t.fields A).drop k
  | i, t, A, k, g, hi, ht, hsh, hg => by
    by_cases hk : k = 0
    · subst hk
      obtain ⟨h1, h2, h3⟩ := reader_exhausted t { data := [], good := g, thrown := false }
        rfl rfl ht
      simp only [List.take_zero, List.map_nil, encode_values, List.drop_zero, List.nil_append,
        h1, h2, h3, and_self]
    · have hgt : g = true := hg.resolve_right hk
      subst hgt
      by_cases hm : (i.fields A).length ≤ k
      · have hw := reader_whole_item i t A [] hi hsh
        rw [List.append_nil] at hw
        rw [List.take_of_length_le hm, hw,
          List.drop_of_length_le (by rw [shape_fields_length i t A hsh]; exact hm),
          List.append_nil]
        exact ⟨rfl, rfl, rfl⟩
      · match i, t, hi, ht, hsh, hm with
        | .comment c, t, _, _, _, hm => exact absurd (Nat.zero_le k) hm
        | .pfloat n v, t, _, _, _, hm =>
          exact absurd (by simp only [Item.fields, List.length_singleton]; omega) hm
        | .pint n v, t, _, _, _, hm =>
          exact absurd (by simp only [Item.fields, List.length_singleton]; omega) hm
        | .pstring n v, t, _, _, _, hm =>
          exact absurd (by simp only [Item.fields, List.length_singleton]; omega) hm
        | .penum n v nv, t, _, _, _, hm =>
          exact absurd (by simp only [Item.fields, List.length_singleton]; omega) hm
        | .object n fs, t, hi, ht, hsh, _ =>
          cases t <;> simp only [Item.shape, Item.object.injEq, reduceCtorEq] at hsh
          rename_i n2 ts
          obtain ⟨hn, hfs⟩ := hsh
          subst hn
          simp only [Item.storable] at hi ht
          have h := reader_fields_truncated fs ts (A ++ n2 ++ ['.']) k true hi ht hfs
            (Or.inl rfl)
          simpa only [pup, reader_objectbegin, reader_objectend, Item.fields] using h
theorem reader_fields_truncated : ∀ (is ts : List Item) (A : Str) (k : Nat) (g : Bool),
    storable_all is = true → storable_all ts = true → shape_of ts = shape_of is →
    (g = true ∨ k = 0) →
    (pup_fields pup_from_binary_file ts
        { data := encode_values (((fields_of A is).take k).map Prod.snd), good := g,
          thrown := false }).2.data = []
      ∧ (pup_fields pup_from_binary_file ts
          { data := encode_values (((fields_of A is).take k).map Prod.snd), good := g,
            thrown := false }).2.thrown = false
      ∧ fields_of A (pup_fields pup_from_binary_file ts
          { data := encode_values (((fields_of A is).take k).map Prod.snd), good := g,
            thrown := false }).1
        = (fields_of A is).take k ++ (fields_of A ts).drop k
  | [], ts, A, k, g, _, _, hsh, _ => by
    cases ts <;> simp only [shape_of, reduceCtorEq] at hsh
    simp only [pup_fields, fields_of, List.take_nil, List.map_nil, encode_values, List.drop_nil,
      List.append_nil, and_self]
  | i :: is, ts, A, k, g, hi, ht, hsh, hg => by
    cases ts with
    | nil => simp only [shape_of, reduceCtorEq] at hsh
    | cons t ts =>
      simp only [shape_of, List.cons.injEq] at hsh
      simp only [storable_all, Bool.and_eq_true] at hi ht
      by_cases hm : (i.fields A).length ≤ k ∧ g = true
      · obtain ⟨hm, hgt⟩ := hm
        subst hgt
        have hw := reader_whole_item i t A
          (encode_values (((fields_of A is).take (k - (i.fields A).length)).map Prod.snd))
          hi.1 hsh.1
        obtain ⟨h1, h2, h3⟩ := reader_fields_truncated is ts A (k - (i.fields A).length) true
          hi.2 ht.2 hsh.2 (Or.inl rfl)
        simp only [fields_of, pup_fields, take_fields_append _ _ k hm, List.map_append,
          encode_values_append, hw, h1, h2, h3,
          drop_fields_append _ _ k (by rw [shape_fields_length i t A hsh.1]; exact hm),
          shape_fields_length i t A hsh.1, List.append_assoc, and_self]
      · have hlt : k ≤ (i.fields A).length := by
          by_cases hgt : g = true
          · have : ¬ (i.fields A).length ≤ k := fun h => hm ⟨h, hgt⟩
            omega
          · have : k = 0 := hg.resolve_left hgt
            omega
        obtain ⟨h1, h2, h3⟩ := reader_truncated i t A k g hi.1 ht.1 hsh.1 hg
        obtain ⟨k1, k2, k3⟩ := reader_fields_exhausted ts _ h1 h2 ht.2
        simp only [fields_of, pup_fields, take_fields_short _ _ k hlt, h3, k1, k2, k3,
          drop_fields_short _ _ k (by rw [shape_fields_length i t A hsh.1]; exact hlt),
          List.append_assoc, and_self]
end

theorem encode_values_take_prefix (vs : List Value) (k : Nat) :
    encode_values (vs.take k) <+: encode_values vs := by
  refine ⟨encode_values (vs.drop k), ?_⟩
  rw [← encode_values_append, List.take_append_drop]

/-! ## The order of the calls of a traversal -/

theorem pup_fields_append {σ : Type} (p : pup_er_virtual σ) : ∀ (a b : List Item) (st : σ),
    pup_fields p (a ++ b) st
      = ((pup_fields p a st).1 ++ (pup_fields p b (pup_fields p a st).2).1,
         (pup_fields p b (pup_fields p a st).2).2)
  | [], b, st => by simp only [List.nil_append, pup_fields]
  | i :: a, b, st => by
    show pup_fields p (i :: (a ++ b)) st = _
    simp only [pup_fields]
    rw [pup_fields_append p a b]
    rfl

theorem recorder_comment (c : Str) (s : List Call) :
    call_recorder.comment c s = s ++ [.comment c] := rfl

theorem recorder_float (n : Str) (v : Nat) (s : List Call) :
    call_recorder.pup_float n v s = (v, s ++ [.scalar n]) := rfl

theorem recorder_int (n : Str) (v : Int) (s : List Call) :
    call_recorder.pup_int n v s = (v, s ++ [.scalar n]) := rfl

theorem recorder_string (n v : Str) (s : List Call) :
    call_recorder.pup_string n v s = (v, s ++ [.scalar n]) := rfl

theorem recorder_enum (n : Str) (v : Nat) (nv : List name_value_record) (s : List Call) :
    call_recorder.pup_enum n v nv s = (v, s ++ [.enumerated n]) := rfl

theorem recorder_objectbegin (n : Str) (s : List Call) :
    call_recorder.pup_objectbegin n s = s ++ [.objectbegin n] := rfl

theorem recorder_objectend (n : Str) (s : List Call) :
    call_recorder.pup_objectend n s = s ++ [.objectend n] := rfl

mutual
theorem call_recorder_append : ∀ (i : Item) (s : List Call),
    (pup call_recorder i s).2 = s ++ (pup call_recorder i []).2
  | .comment c, s => by simp only [pup, recorder_comment, List.nil_append]
  | .pfloat n v, s => by simp only [pup, recorder_float, List.nil_append]
  | .pint n v, s => by simp only [pup, recorder_int, List.nil_append]
  | .pstring n v, s => by simp only [pup, recorder_string, List.nil_append]
  | .penum n v nv, s => by simp only [pup, recorder_enum, List.nil_append]
  | .object n fs, s => by
    simp only [pup, recorder_objectbegin, recorder_objectend, List.nil_append]
    rw [call_recorder_fields_append fs (s ++ [Call.objectbegin n]),
      call_recorder_fields_append fs [Call.objectbegin n]]
    simp only [List.append_assoc]
theorem call_recorder_fields_append : ∀ (is : List Item) (s : List Call),
    (pup_fields call_recorder is s).2 = s ++ (pup_fields call_recorder is []).2
  | [], s => by simp only [pup_fields, List.append_nil]
  | i :: is, s => by
    simp only [pup_fields]
    rw [call_recorder_fields_append is (pup call_recorder i s).2,
      call_recorder_fields_append is (pup call_recorder i []).2, call_recorder_append i s,
      List.append_assoc]
end

mutual
theorem fields_start_with_address : ∀ (i : Item) (A : Str), ∀ f ∈ i.fields A, A <+: f.1
  | .comment c, A => by simp [Item.fields]
  | .pfloat n v, A => by simp [Item.fields]
  | .pint n v, A => by simp [Item.fields]
  | .pstring n v, A => by simp [Item.fields]
  | .penum n v nv, A => by simp [Item.fields]
  | .object n fs, A => by
    intro f hf
    simp only [Item.fields] at hf
    have h := fields_of_start_with_address fs (A ++ n ++ ['.']) f hf
    exact (List.prefix_append A (n ++ ['.'])).trans (by simpa only [List.append_assoc] using h)
theorem fields_of_start_with_address : ∀ (is : List Item) (A : Str),
    ∀ f ∈ fields_of A is, A <+: f.1
  | [], A => by simp [fields_of]
  | i :: is, A => by
    intro f hf
    simp only [fields_of, List.mem_append] at hf
    rcases hf with hf | hf
    · exact fields_start_with_address i A f hf
    · exact fields_of_start_with_address is A f hf
end

/-! ## How a string field is rendered -/

theorem count_newlines_ne_zero (s : Str) (h : '\n' ∈ s) : count_newlines s ≠ 0 := by
  unfold count_newlines
  have hm : '\n' ∈ s.filter (fun c => decide (c = '\n')) := by
    rw [List.mem_filter]
    exact ⟨h, by simp⟩
  have : 0 < (s.filter (fun c => decide (c = '\n'))).length := List.length_pos_of_mem hm
  omega

/-- A string value free of newlines and of NUL characters is rendered as a single-line text
input named by the path and holding `escape_HTML` of the value; a string value with a newline
is rendered as a text area named by the path, with `rows` the number of newlines plus 2,
holding `escape_HTML` of the value. -/
theorem rendered_string_field (fn n v : Str) (s : html_form_state) :
    ('\n' ∉ v → Char.ofNat 0 ∉ v →
        ((pup_to_HTML_form fn).pup_string n v s).2.html
          = s.html ++ ((startform fn s).1 ++ n ++ ": <INPUT type=\"text\" name=\"".data
              ++ (s.address ++ n) ++ "\" value=\"".data ++ escape_HTML v ++ "\" />".data
              ++ endform))
      ∧ ('\n' ∈ v →
        ((pup_to_HTML_form fn).pup_string n v s).2.html
          = s.html ++ ((startform fn s).1 ++ n ++ ":<br>\n<textarea name=\"".data
              ++ (s.address ++ n) ++ "\" cols=\"85\" rows=\"".data
              ++ itos (to_int (count_newlines v + 2)) ++ "\">".data ++ escape_HTML v
              ++ "</textarea><br>".data ++ endform)) := by
  refine ⟨fun hnl hnul => ?_, fun hnl => ?_⟩
  · rw [renderer_string_eq, if_pos (count_newlines_eq_zero v hnl),
      c_str_eq_self _ (escape_HTML_no_nul v hnul)]
    rfl
  · rw [renderer_string_eq, if_neg (count_newlines_ne_zero v hnl)]

/-! ## The path-stack discipline -/

theorem address_of_append (stack : List Str) (n : Str) :
    address_of (stack ++ [n]) = address_of stack ++ n ++ ['.'] := by
  induction stack with
  | nil => simp [address_of]
  | cons a rest ih => simp [address_of, ih]

theorem dotted_append (stack : List Str) (n : Str) :
    dotted (stack ++ [n]) = address_of stack ++ n := by
  induction stack with
  | nil => simp [dotted, address_of]
  | cons a rest ih =>
    cases rest with
    | nil => simp [dotted, address_of]
    | cons b rest =>
      simp only [List.cons_append] at ih ⊢
      simp only [dotted, address_of, ih, List.append_assoc, List.cons_append]

mutual
theorem pup_keeps_address {σ : Type} {p : pup_er_virtual σ} {address : σ → Str}
    {old_addresses : σ → List Str} (h : tracks_address p address old_addresses) :
    ∀ (i : Item) (s : σ), address (pup p i s).2 = address s
      ∧ old_addresses (pup p i s).2 = old_addresses s
  | .comment c, s => by simp only [pup]; exact h.comment c s
  | .pfloat n v, s => by simp only [pup]; exact h.pup_float n v s
  | .pint n v, s => by simp only [pup]; exact h.pup_int n v s
  | .pstring n v, s => by simp only [pup]; exact h.pup_string n v s
  | .penum n v nv, s => by simp only [pup]; exact h.pup_enum n v nv s
  | .object n fs, s => by
    obtain ⟨h1, h2⟩ := pup_fields_keeps_address h fs (p.pup_objectbegin n s)
    obtain ⟨b1, b2⟩ := h.pup_objectbegin n s
    obtain ⟨e1, e2⟩ := h.pup_objectend n (pup_fields p fs (p.pup_objectbegin n s)).2
    simp only [pup]
    rw [e1, e2, h2, b2]
    exact ⟨rfl, rfl⟩
theorem pup_fields_keeps_address {σ : Type} {p : pup_er_virtual σ} {address : σ → Str}
    {old_addresses : σ → List Str} (h : tracks_address p address old_addresses) :
    ∀ (is : List Item) (s : σ), address (pup_fields p is s).2 = address s
      ∧ old_addresses (pup_fields p is s).2 = old_addresses s
  | [], s => by simp only [pup_fields, and_self]
  | i :: is, s => by
    obtain ⟨h1, h2⟩ := pup_keeps_address h i s
    obtain ⟨k1, k2⟩ := pup_fields_keeps_address h is (pup p i s).2
    simp only [pup_fields]
    exact ⟨k1.trans h1, k2.trans h2⟩
end

mutual
theorem field_visits_paths {σ : Type} {p : pup_er_virtual σ} {address : σ → Str}
    {old_addresses : σ → List Str} (h : tracks_address p address old_addresses) :
    ∀ (i : Item) (s : σ) (stack : List Str), address s = address_of stack →
      (field_visits p i s).map (fun c => address c.2 ++ c.1.shortname) = i.dotted_paths stack
  | .comment c, s, stack, _ => by simp only [field_visits, Item.dotted_paths, List.map_nil]
  | .pfloat n v, s, stack, ha => by
    simp only [field_visits, Item.dotted_paths, List.map_cons, List.map_nil, Item.shortname, ha,
      dotted_append]
  | .pint n v, s, stack, ha => by
    simp only [field_visits, Item.dotted_paths, List.map_cons, List.map_nil, Item.shortname, ha,
      dotted_append]
  | .pstring n v, s, stack, ha => by
    simp only [field_visits, Item.dotted_paths, List.map_cons, List.map_nil, Item.shortname, ha,
      dotted_append]
  | .penum n v nv, s, stack, ha => by
    simp only [field_visits, Item.dotted_paths, List.map_cons, List.map_nil, Item.shortname, ha,
      dotted_append]
  | .object n fs, s, stack, ha => by
    simp only [field_visits, Item.dotted_paths]
    exact field_visits_of_paths h fs _ (stack ++ [n])
      (by rw [(h.pup_objectbegin n s).1, ha, address_of_append])
theorem field_visits_of_paths {σ : Type} {p : pup_er_virtual σ} {address : σ → Str}
    {old_addresses : σ → List Str} (h : tracks_address p address old_addresses) :
    ∀ (is : List Item) (s : σ) (stack : List Str), address s = address_of stack →
      (field_visits_of p is s).map (fun c => address c.2 ++ c.1.shortname)
        = dotted_paths_of stack is
  | [], s, stack, _ => by simp only [field_visits_of, dotted_paths_of, List.map_nil]
  | i :: is, s, stack, ha => by
    simp only [field_visits_of, dotted_paths_of, List.map_append]
    rw [field_visits_paths h i s stack ha,
      field_visits_of_paths h is (pup p i s).2 stack ((pup_keeps_address h i s).1.trans ha)]
end

mutual
theorem field_visits_are_fields {σ : Type} (p : pup_er_virtual σ) :
    ∀ (i : Item) (s : σ), ∀ c ∈ field_visits p i s, c.1.is_field = true
  | .comment c, s => by simp [field_visits]
  | .pfloat n v, s => by simp [field_visits, Item.is_field]
  | .pint n v, s => by simp [field_visits, Item.is_field]
  | .pstring n v, s => by simp [field_visits, Item.is_field]
  | .penum n v nv, s => by simp [field_visits, Item.is_field]
  | .object n fs, s => by
    simp only [field_visits]
    exact field_visits_of_are_fields p fs _
theorem field_visits_of_are_fields {σ : Type} (p : pup_er_virtual σ) :
    ∀ (is : List Item) (s : σ), ∀ c ∈ field_visits_of p is s, c.1.is_field = true
  | [], s => by simp [field_visits_of]
  | i :: is, s => by
    intro c hc
    simp only [field_visits_of, List.mem_append] at hc
    rcases hc with hc | hc
    · exact field_visits_are_fields p i s c hc
    · exact field_visits_of_are_fields p is _ c hc
end

mutual
theorem fields_dotted_paths : ∀ (i : Item) (stack : List Str),
    (i.fields (address_of stack)).map Prod.fst = i.dotted_paths stack
  | .comment c, stack => by simp only [Item.fields, Item.dotted_paths, List.map_nil]
  | .pfloat n v, stack => by
    simp only [Item.fields, Item.dotted_paths, List.map_cons, List.map_nil, dotted_append]
  | .pint n v, stack => by
    simp only [Item.fields, Item.dotted_paths, List.map_cons, List.map_nil, dotted_append]
  | .pstring n v, stack => by
    simp only [Item.fields, Item.dotted_paths, List.map_cons, List.map_nil, dotted_append]
  | .penum n v nv, stack => by
    simp only [Item.fields, Item.dotted_paths, List.map_cons, List.map_nil, dotted_append]
  | .object n fs, stack => by
    simp only [Item.fields, Item.dotted_paths, ← address_of_append]
    exact fields_of_dotted_paths fs (stack ++ [n])
theorem fields_of_dotted_paths : ∀ (is : List Item) (stack : List Str),
    (fields_of (address_of stack) is).map Prod.fst = dotted_paths_of stack is
  | [], stack => by simp only [fields_of, dotted_paths_of, List.map_nil]
  | i :: is, stack => by
    simp only [fields_of, dotted_paths_of, List.map_append, fields_dotted_paths i stack,
      fields_of_dotted_paths is stack]
end

theorem dotted_cons_append (a : Str) (stack : List Str) (n : Str) :
    dotted ((a :: stack) ++ [n]) = dotted (a :: stack) ++ '.' :: n := by
  induction stack generalizing a with
  | nil => simp [dotted]
  | cons b rest ih =>
    have hb := ih b
    simp only [List.cons_append] at hb ⊢
    simp only [dotted, hb, List.append_assoc, List.cons_append]

theorem renderer_tracks_address (fn : Str) :
    tracks_address (pup_to_HTML_form fn) html_form_state.address
      html_form_state.old_addresses where
  comment := fun _ _ => ⟨rfl, rfl⟩
  pup_float := fun _ _ _ => ⟨rfl, rfl⟩
  pup_int := fun _ _ _ => ⟨rfl, rfl⟩
  pup_string := fun n v s => by
    rw [renderer_string_eq]
    split
    · exact ⟨rfl, rfl⟩
    · exact ⟨rfl, rfl⟩
  pup_enum := fun _ _ _ _ => ⟨rfl, rfl⟩
  pup_objectbegin := fun _ _ => ⟨rfl, rfl⟩
  pup_objectend := fun _ _ => ⟨rfl, rfl⟩

theorem applier_tracks_address (P V : Str) :
    tracks_address (pup_from_name_value P V) name_value_state.address
      name_value_state.old_addresses where
  comment := fun _ _ => ⟨rfl, rfl⟩
  pup_float := fun n v s => by
    rw [applier_float]
    split
    · exact ⟨rfl, rfl⟩
    · exact ⟨rfl, rfl⟩
  pup_int := fun n v s => by
    rw [applier_int]
    split
    · exact ⟨rfl, rfl⟩
    · exact ⟨rfl, rfl⟩
  pup_string := fun n v s => by
    rw [applier_string]
    split
    · exact ⟨rfl, rfl⟩
    · exact ⟨rfl, rfl⟩
  pup_enum := fun n v nv s => by
    rw [applier_enum]
    split
    · exact ⟨rfl, rfl⟩
    · exact ⟨rfl, rfl⟩
  pup_objectbegin := fun _ _ => ⟨rfl, rfl⟩
  pup_objectend := fun _ _ => ⟨rfl, rfl⟩

mutual
theorem field_visits_items {σ τ : Type} (p : pup_er_virtual σ) (q : pup_er_virtual τ) :
    ∀ (i : Item) (s : σ) (t : τ),
      (field_visits p i s).map Prod.fst = (field_visits q i t).map Prod.fst
  | .comment c, s, t => by simp only [field_visits, List.map_nil]
  | .pfloat n v, s, t => by simp only [field_visits, List.map_cons, List.map_nil]
  | .pint n v, s, t => by simp only [field_visits, List.map_cons, List.map_nil]
  | .pstring n v, s, t => by simp only [field_visits, List.map_cons, List.map_nil]
  | .penum n v nv, s, t => by simp only [field_visits, List.map_cons, List.map_nil]
  | .object n fs, s, t => by
    simp only [field_visits]
    exact field_visits_of_items p q fs _ _
theorem field_visits_of_items {σ τ : Type} (p : pup_er_virtual σ) (q : pup_er_virtual τ) :
    ∀ (is : List Item) (s : σ) (t : τ),
      (field_visits_of p is s).map Prod.fst = (field_visits_of q is t).map Prod.fst
  | [], s, t => by simp only [field_visits_of, List.map_nil]
  | i :: is, s, t => by
    simp only [field_visits_of, List.map_append]
    rw [field_visits_items p q i s t, field_visits_of_items p q is _ (pup q i t).2]
end

/-- The form of a field carries `name="address + shortname"`: the method appends to the
page a text in which this attribute occurs. -/
theorem renderer_field_emits_name (fn : Str) : ∀ (i : Item) (s : html_form_state),
    i.is_field = true →
    ∃ before after, (pup (pup_to_HTML_form fn) i s).2.html
      = s.html ++ (before ++ ("name=\"".data ++ (s.address ++ i.shortname) ++ "\"".data)
          ++ after)
  | .comment c, s, h => by simp [Item.is_field] at h
  | .object n fs, s, h => by simp [Item.is_field] at h
  | .pfloat n v, s, _ => by
    refine ⟨(startform fn s).1 ++ n ++ ": <INPUT type=\"text\" ".data,
      " value=\"".data ++ format_f v ++ "\" />".data ++ endform, ?_⟩
    simp only [pup, renderer_float_eq, pup_to_HTML_form_inner, Item.shortname,
      List.append_assoc]
    rfl
  | .pint n v, s, _ => by
    refine ⟨(startform fn s).1 ++ n ++ ": <INPUT type=\"text\" ".data,
      " value=\"".data ++ itos v ++ "\" />".data ++ endform, ?_⟩
    simp only [pup, renderer_int_eq, pup_to_HTML_form_inner, Item.shortname,
      List.append_assoc]
    rfl
  | .pstring n v, s, _ => by
    by_cases hc : count_newlines v = 0
    · refine ⟨(startform fn s).1 ++ n ++ ": <INPUT type=\"text\" ".data,
        " value=\"".data ++ c_str (escape_HTML v) ++ "\" />".data ++ endform, ?_⟩
      simp only [pup, renderer_string_eq, if_pos hc, pup_to_HTML_form_inner, Item.shortname,
        List.append_assoc]
      rfl
    · refine ⟨(startform fn s).1 ++ n ++ ":<br>\n<textarea ".data,
        " cols=\"85\" rows=\"".data ++ itos (to_int (count_newlines v + 2))
          ++ "\">".data ++ escape_HTML v ++ "</textarea><br>".data ++ endform, ?_⟩
      simp only [pup, renderer_string_eq, if_neg hc, Item.shortname, List.append_assoc]
      rfl
  | .penum n v nv, s, _ => by
    refine ⟨(startform fn s).1 ++ n ++ ": <SELECT ".data,
      " >\n".data ++ html_options v nv [] ++ ("</SELECT>".data ++ endform), ?_⟩
    simp only [pup, renderer_enum_eq, Item.shortname]
    rw [html_options_append]
    simp only [List.append_assoc]
    rfl

/-- The Applier's method for a field compares `address + shortname` with the target. -/
theorem applier_field_compares (P V : Str) : ∀ (i : Item) (s : name_value_state),
    i.is_field = true →
    (pup (pup_from_name_value P V) i s).2.found
      = (s.found || decide (s.address ++ i.shortname = P))
  | .comment c, s, h => by simp [Item.is_field] at h
  | .object n fs, s, h => by simp [Item.is_field] at h
  | .pfloat n v, s, _ => by
    simp only [pup, applier_float, Item.shortname]
    by_cases hn : s.address ++ n = P <;> simp [hn]
  | .pint n v, s, _ => by
    simp only [pup, applier_int, Item.shortname]
    by_cases hn : s.address ++ n = P <;> simp [hn]
  | .pstring n v, s, _ => by
    simp only [pup, applier_string, Item.shortname]
    by_cases hn : s.address ++ n = P <;> simp [hn]
  | .penum n v nv, s, _ => by
    simp only [pup, applier_enum, Item.shortname]
    by_cases hn : s.address ++ n = P <;> simp [hn]

/-! ## Paths of well-named registries -/

theorem registered_append (entries : List Item) : ∀ (reg : Registry),
    entries.foldl webconfig_add_pup reg = reg ++ entries := by
  induction entries with
  | nil => intro reg; simp
  | cons e rest ih =>
    intro reg
    simp only [List.foldl_cons, ih, webconfig_add_pup, List.append_assoc, List.singleton_append]

theorem registered_eq (entries : List Item) : registered entries = entries := by
  simp only [registered, registered_append, List.nil_append]

theorem takeWhile_dot_free : ∀ (n r : Str), dot_free n = true →
    (r = [] ∨ ∃ t, r = '.' :: t) → (n ++ r).takeWhile (fun c => c != '.') = n
  | [], r, _, hr => by
    rcases hr with hr | ⟨t, hr⟩
    · subst hr; rfl
    · subst hr; simp [List.takeWhile]
  | c :: n, r, hn, hr => by
    simp only [dot_free, List.all_cons, Bool.and_eq_true] at hn
    have ih := takeWhile_dot_free n r (by simpa only [dot_free] using hn.2) hr
    simp only [List.cons_append, List.takeWhile_cons, hn.1, if_true, ih]

theorem well_named_dot_free : ∀ (i : Item), i.well_named = true → dot_free i.shortname = true
  | .comment c, _ => rfl
  | .pfloat n v, h => by simpa only [Item.well_named, Item.shortname] using h
  | .pint n v, h => by simpa only [Item.well_named, Item.shortname] using h
  | .pstring n v, h => by simpa only [Item.well_named, Item.shortname] using h
  | .penum n v nv, h => by simpa only [Item.well_named, Item.shortname] using h
  | .object n fs, h => by
    simp only [Item.well_named, Bool.and_eq_true] at h
    exact h.1

theorem well_named_all_mem : ∀ (is : List Item), well_named_all is = true →
    ∀ j ∈ is, j.well_named = true
  | [], _, j, hj => by cases hj
  | i :: is, h, j, hj => by
    simp only [well_named_all, Bool.and_eq_true] at h
    rcases List.mem_cons.mp hj with hj | hj
    · subst hj; exact h.1
    · exact well_named_all_mem is h.2 j hj

theorem fields_path_shape : ∀ (i : Item) (A : Str), ∀ f ∈ i.fields A,
    ∃ r, f.1 = A ++ (i.shortname ++ r) ∧ (r = [] ∨ ∃ t, r = '.' :: t)
  | .comment c, A, f, hf => by simp [Item.fields] at hf
  | .pfloat n v, A, f, hf => by
    simp only [Item.fields, List.mem_singleton] at hf
    exact ⟨[], by simp [hf, Item.shortname], Or.inl rfl⟩
  | .pint n v, A, f, hf => by
    simp only [Item.fields, List.mem_singleton] at hf
    exact ⟨[], by simp [hf, Item.shortname], Or.inl rfl⟩
  | .pstring n v, A, f, hf => by
    simp only [Item.fields, List.mem_singleton] at hf
    exact ⟨[], by simp [hf, Item.shortname], Or.inl rfl⟩
  | .penum n v nv, A, f, hf => by
    simp only [Item.fields, List.mem_singleton] at hf
    exact ⟨[], by simp [hf, Item.shortname], Or.inl rfl⟩
  | .object n fs, A, f, hf => by
    simp only [Item.fields] at hf
    obtain ⟨t, ht⟩ := fields_of_start_with_address fs (A ++ n ++ ['.']) f hf
    exact ⟨'.' :: t, by simp [← ht, Item.shortname], Or.inr ⟨t, rfl⟩⟩

theorem fields_of_mem : ∀ (is : List Item) (A : Str), ∀ f ∈ fields_of A is,
    ∃ j ∈ is, j.is_comment = false ∧ f ∈ j.fields A
  | [], A, f, hf => by simp [fields_of] at hf
  | i :: is, A, f, hf => by
    simp only [fields_of, List.mem_append] at hf
    rcases hf with hf | hf
    · refine ⟨i, List.mem_cons_self _ _, ?_, hf⟩
      cases i with
      | comment c => simp [Item.fields] at hf
      | pfloat n v => rfl
      | pint n v => rfl
      | pstring n v => rfl
      | penum n v nv => rfl
      | object n fs => rfl
    · obtain ⟨j, hj, hc, hjf⟩ := fields_of_mem is A f hf
      exact ⟨j, List.mem_cons_of_mem _ hj, hc, hjf⟩

theorem fields_paths_differ (i j : Item) (A : Str) (hi : i.well_named = true)
    (hj : j.well_named = true) (hne : i.shortname ≠ j.shortname) (f g : Str × Value)
    (hf : f ∈ i.fields A) (hg : g ∈ j.fields A) : f.1 ≠ g.1 := by
  obtain ⟨r, hfr, hr⟩ := fields_path_shape i A f hf
  obtain ⟨u, hgu, hu⟩ := fields_path_shape j A g hg
  intro h
  rw [hfr, hgu] at h
  have h2 := List.append_cancel_left h
  have h3 := congrArg (List.takeWhile (fun c => c != '.')) h2
  rw [takeWhile_dot_free _ r (well_named_dot_free i hi) hr,
    takeWhile_dot_free _ u (well_named_dot_free j hj) hu] at h3
  exact hne h3

mutual
theorem nodup_fields : ∀ (i : Item) (A : Str), i.well_named = true →
    ((i.fields A).map Prod.fst).Nodup
  | .comment c, A, _ => by simp [Item.fields]
  | .pfloat n v, A, _ => by simp [Item.fields]
  | .pint n v, A, _ => by simp [Item.fields]
  | .pstring n v, A, _ => by simp [Item.fields]
  | .penum n v nv, A, _ => by simp [Item.fields]
  | .object n fs, A, h => by
    simp only [Item.well_named, Bool.and_eq_true, decide_eq_true_eq] at h
    simp only [Item.fields]
    exact nodup_fields_of fs _ h.2.1 h.2.2
theorem nodup_fields_of : ∀ (is : List Item) (A : Str), well_named_all is = true →
    (names_of is).Nodup → ((fields_of A is).map Prod.fst).Nodup
  | [], A, _, _ => by simp [fields_of]
  | i :: is, A, h, hn => by
    have hall := well_named_all_mem (i :: is) h
    simp only [well_named_all, Bool.and_eq_true] at h
    have hn2 : (names_of is).Nodup ∧ (i.is_comment = false → i.shortname ∉ names_of is) := by
      unfold names_of at hn ⊢
      by_cases hc : i.is_comment = true
      · simp only [List.filter_cons, hc, Bool.not_true, Bool.false_eq_true, if_false] at hn
        exact ⟨hn, fun h0 => by simp [hc] at h0⟩
      · simp only [Bool.not_eq_true] at hc
        simp only [List.filter_cons, hc, Bool.not_false, if_true, List.map_cons,
          List.nodup_cons] at hn
        exact ⟨hn.2, fun _ => hn.1⟩
    simp only [fields_of, List.map_append]
    rw [List.nodup_append]
    refine ⟨nodup_fields i A h.1, nodup_fields_of is A h.2 hn2.1, ?_⟩
    intro p hp hq
    obtain ⟨f, hf, hfp⟩ := List.mem_map.mp hp
    obtain ⟨g, hg, hgp⟩ := List.mem_map.mp hq
    obtain ⟨j, hj, hjc, hgj⟩ := fields_of_mem is A g hg
    have hic : i.is_comment = false := by
      cases i with
      | comment c => simp [Item.fields] at hf
      | pfloat n v => rfl
      | pint n v => rfl
      | pstring n v => rfl
      | penum n v nv => rfl
      | object n fs => rfl
    have hjn : j.shortname ∈ names_of is := by
      unfold names_of
      exact List.mem_map.mpr ⟨j, List.mem_filter.mpr ⟨hj, by simp [hjc]⟩, rfl⟩
    have hne : i.shortname ≠ j.shortname := fun e => hn2.2 hic (e ▸ hjn)
    exact fields_paths_differ i j A h.1 (hall j (List.mem_cons_of_mem _ hj)) hne f g hf hgj
      (hfp.trans hgp.symm)
end

/-! ## Intervals -/

theorem seg_contains_iff (a : seg1dT) (x : Int) :
    a.contains x = true ↔ a.min ≤ x ∧ x ≤ a.max := by
  simp only [seg1dT.contains, Bool.and_eq_true, decide_eq_true_eq]

/-- For two segments that are not empty, `intersects` is true exactly when they share a
point. -/
theorem intersects_of_nonempty (a b : seg1dT) (ha : a.isEmpty = false)
    (hb : b.isEmpty = false) :
    a.intersects b = true ↔ ∃ x, a.contains x = true ∧ b.contains x = true := by
  simp only [seg1dT.isEmpty, decide_eq_false_iff_not, not_lt] at ha hb
  simp only [seg1dT.intersects, Bool.or_eq_true, seg_contains_iff]
  constructor
  · rintro (h | h)
    · exact ⟨b.min, h, le_refl _, hb⟩
    · exact ⟨a.min, ⟨le_refl _, ha⟩, h⟩
  · rintro ⟨x, ⟨h1, h2⟩, h3, h4⟩
    by_cases h : a.min ≤ b.min
    · exact Or.inl ⟨h, by omega⟩
    · exact Or.inr ⟨by omega, by omega⟩

/-! ## `Random::nextInt` -/

theorem to_int64_of_small (v : Int) (h1 : -9223372036854775808 ≤ v)
    (h2 : v < 9223372036854775808) : to_int64 v = v := by
  unfold to_int64; omega

theorem nextInt_loop_range {γ : Type} (r : Random γ)
    (hnext : ∀ g, 0 ≤ (r.next 31 g).1 ∧ (r.next 31 g).1 < 2147483648) (n : Int) (hn : 0 < n) :
    ∀ (fuel : Nat) (g : γ) (v : Int) (g2 : γ),
      r.nextInt_loop n fuel g = some (v, g2) → 0 ≤ v ∧ v ≤ n - 1
  | 0, g, v, g2, h => by simp [Random.nextInt_loop] at h
  | fuel + 1, g, v, g2, h => by
    simp only [Random.nextInt_loop] at h
    split at h
    · exact nextInt_loop_range r hnext n hn fuel _ v g2 h
    · simp only [Option.some.injEq, Prod.mk.injEq] at h
      have h1 := Int.tmod_nonneg n (hnext g).1
      have h2 := Int.tmod_lt_of_pos (r.next 31 g).1 hn
      rw [h.1] at h1 h2
      omega

theorem nextInt_power_of_two_range (n bits : Int) (hn : 0 < n) (hint : n < 2147483648)
    (h0 : 0 ≤ bits) (h1 : bits < 2147483648) :
    0 ≤ to_int (to_int64 (n * bits) / 2147483648)
      ∧ to_int (to_int64 (n * bits) / 2147483648) ≤ n - 1 := by
  have hp0 : 0 ≤ n * bits := Int.mul_nonneg (le_of_lt hn) h0
  have hp1 : n * bits < n * 2147483648 := Int.mul_lt_mul_of_pos_left h1 hn
  rw [to_int64_of_small _ (by omega) (by omega), to_int_of_small _ (by omega) (by omega)]
  omega

/-- `Random32::next(31)` returns a value in `[0, 2^31)`. -/
theorem Random32_next_range (s : Random32_state) :
    0 ≤ (Random32.next 31 s).1 ∧ (Random32.next 31 s).1 < 2147483648 := by
  have hx := to_unsigned_lt (to_int (s.seed * s.mul + s.add))
  have hor : Nat.lor (to_unsigned (to_int (s.seed * s.mul + s.add)) * 65536 % 4294967296)
      (to_unsigned (to_int (s.seed * s.mul + s.add)) / 65536) < 2 ^ 32 :=
    Nat.or_lt_two_pow (by omega) (by omega)
  show 0 ≤ to_int ((Nat.lor _ _ / 2 ^ (32 - 31 : Int).toNat : Nat) : Int)
    ∧ to_int ((Nat.lor _ _ / 2 ^ (32 - 31 : Int).toNat : Nat) : Int) < 2147483648
  have he : (32 - 31 : Int).toNat = 1 := rfl
  rw [he, to_int_of_small _ (by omega) (by omega)]
  omega

/-! ## The request line -/

theorem prefix_of_prefix_append (a : Char) (pt s v : Str) (ha : a ∉ pt) (hs : s ≠ [])
    (h : (a :: pt) <+: s ++ (a :: pt ++ v)) : (a :: pt) <+: s := by
  rcases List.prefix_or_prefix_of_prefix h (List.prefix_append s (a :: pt ++ v)) with h1 | h1
  · exact h1
  · obtain ⟨t, ht⟩ := h1
    obtain ⟨u, hu⟩ := h
    cases t with
    | nil =>
      rw [List.append_nil] at ht
      rw [ht]
    | cons x t =>
      exfalso
      cases s with
      | nil => exact hs rfl
      | cons c s =>
        simp only [List.cons_append, List.cons.injEq] at ht
        rw [← ht.2, ← List.cons_append, ← ht.1] at hu
        simp only [List.cons_append, List.append_assoc, List.cons.injEq, true_and] at hu
        have h2 := List.append_cancel_left hu
        simp only [List.cons_append, List.cons.injEq] at h2
        apply ha
        rw [← ht.2]
        exact List.mem_append_right _ (by rw [h2.1, ht.1]; exact List.mem_cons_self _ _)

theorem find_str_none (pat : Str) : ∀ (s : Str), ¬ (pat <:+: s) → find_str pat s = none
  | [], h => by
    have hp : pat.isPrefixOf [] = false := by
      rw [Bool.eq_false_iff]
      intro hp
      exact h (List.isPrefixOf_iff_prefix.mp hp).isInfix
    simp only [find_str, hp, Bool.false_eq_true, if_false]
  | c :: s, h => by
    have hp : pat.isPrefixOf (c :: s) = false := by
      rw [Bool.eq_false_iff]
      intro hp
      exact h (List.isPrefixOf_iff_prefix.mp hp).isInfix
    simp only [find_str, hp, Bool.false_eq_true, if_false,
      find_str_none pat s (fun hi => h (List.infix_cons hi)), Option.map_none']

theorem find_str_of_prefix (pat s : Str) (h : pat <+: s) : find_str pat s = some 0 := by
  have hp : pat.isPrefixOf s = true := List.isPrefixOf_iff_prefix.mpr h
  cases s with
  | nil => simp only [find_str, hp, if_true]
  | cons c s => simp only [find_str, hp, if_true]

theorem find_str_cons_of_not_prefix (pat : Str) (c : Char) (s : Str)
    (h : ¬ (pat <+: c :: s)) :
    find_str pat (c :: s) = (find_str pat s).map (· + 1) := by
  have hp : pat.isPrefixOf (c :: s) = false := by
    rw [Bool.eq_false_iff]
    exact fun hp => h (List.isPrefixOf_iff_prefix.mp hp)
  simp only [find_str, hp, Bool.false_eq_true, if_false]

/-- A pattern whose first character occurs nowhere else in it is found right after a text
it does not occur in. -/
theorem find_str_after (a : Char) (pt v : Str) (ha : a ∉ pt) :
    ∀ (s : Str), ¬ ((a :: pt) <:+: s) →
      find_str (a :: pt) (s ++ (a :: pt ++ v)) = some s.length
  | [], _ => find_str_of_prefix _ _ (List.prefix_append (a :: pt) v)
  | c :: s, h => by
    have hp : ¬ ((a :: pt) <+: c :: (s ++ (a :: pt ++ v))) := fun hp =>
      h (prefix_of_prefix_append a pt (c :: s) v ha (List.cons_ne_nil c s) hp).isInfix
    rw [List.cons_append, find_str_cons_of_not_prefix _ c _ hp,
      find_str_after a pt v ha s (fun hi => h (List.infix_cons hi))]
    rfl

theorem to_size_t_to_int (i : Nat) (h : i < 2147483648) : to_size_t (to_int i) = i := by
  rw [to_int_of_small _ (by omega) (by omega)]
  unfold to_size_t
  omega

theorem find_result_int_none : to_size_t (find_result_int none) = npos := by decide

theorem take_npos (s : Str) (h : s.length < npos) : s.take npos = s :=
  List.take_of_length_le (le_of_lt h)

theorem new_of_get (req : Str) (rest : List Str) (h : "GET ".data <+: req) :
    http_served_client.new (req :: rest)
      = (read_headers rest []).map (fun header =>
          { path := (req.drop 4).take
              (to_size_t (find_result_int (find_str " HTTP/".data (req.drop 4))))
            header := header, error := none, wire := [] }) := by
  have h4 : req.take 4 = "GET ".data := ( take_eq_iff_prefix "GET ".data req 4 rfl).mpr h
  simp only [http_served_client.new, List.headD_cons, h4, ne_eq, not_true_eq_false, if_false,
    List.tail_cons]

theorem new_of_other (req : Str) (rest : List Str) (h : ¬ ("GET ".data <+: req)) :
    http_served_client.new (req :: rest)
      = some { path := [], header := [], wire := []
               error := some "Malformed HTTP header (only GET supported for now)".data } := by
  have h4 : req.take 4 ≠ "GET ".data := fun e =>
    h (( take_eq_iff_prefix "GET ".data req 4 rfl).mp e)
  simp only [http_served_client.new, List.headD_cons, ne_eq, h4, not_false_eq_true, if_true]

theorem find_result_int_some (i : Nat) (h : i < 2147483648) :
    to_size_t (find_result_int (some i)) = i :=
  to_size_t_to_int i h

/-! ## The header lines -/

theorem find_first_of_append (ch : Char) (v : Str) : ∀ (n : Str), ch ∉ n →
    find_first_of ch (n ++ ch :: v) = some n.length
  | [], _ => by simp only [List.nil_append, find_first_of, if_true, List.length_nil]
  | c :: n, h => by
    have hc : c ≠ ch := fun e => h (e ▸ List.mem_cons_self _ _)
    have hn : ch ∉ n := fun e => h (List.mem_cons_of_mem _ e)
    show find_first_of ch (c :: (n ++ ch :: v)) = _
    rw [find_first_of, if_neg hc, find_first_of_append ch v n hn]
    rfl

theorem find_first_of_none (ch : Char) : ∀ (l : Str), ch ∉ l → find_first_of ch l = none
  | [], _ => rfl
  | c :: l, h => by
    have hc : c ≠ ch := fun e => h (e ▸ List.mem_cons_self _ _)
    have hn : ch ∉ l := fun e => h (List.mem_cons_of_mem _ e)
    simp only [find_first_of, hc, if_false, find_first_of_none ch l hn, Option.map_none']

theorem substr_of_le (s : Str) (pos : Nat) (h : pos ≤ s.length) (hs : s.length < npos) :
    substr s pos npos = some (s.drop pos) := by
  unfold substr
  rw [if_neg (by omega), List.take_of_length_le]
  rw [List.length_drop]
  omega

theorem substr_of_gt (s : Str) (pos len : Nat) (h : s.length < pos) :
    substr s pos len = none := by
  unfold substr
  rw [if_pos h]

/-- A header line with a colon and at least one character after it: the keyword is the
text before the first colon, the value what follows the character after the colon,
whatever that character is. -/
theorem header_line_split (n v : Str) (c : Char) (hn : ':' ∉ n)
    (hlen : (n ++ ':' :: c :: v).length < 2147483648) :
    header_line (n ++ ':' :: c :: v) = some (n, v) := by
  simp only [List.length_append, List.length_cons] at hlen
  have hnp : (n ++ ':' :: c :: v).length < npos := by
    simp only [List.length_append, List.length_cons, npos]
    omega
  have h1 : to_size_t (find_result_int (some n.length)) = n.length :=
    find_result_int_some _ (by omega)
  have h2 : to_size_t (to_int (find_result_int (some n.length) + 2)) = n.length + 2 := by
    show to_size_t (to_int (to_int (n.length : Int) + 2)) = _
    rw [to_int_of_small (n.length : Int) (by omega) (by omega)]
    exact to_size_t_to_int (n.length + 2) (by omega)
  have h3 : substr (n ++ ':' :: c :: v) 0 n.length = some n := by
    unfold substr
    rw [if_neg (by omega), List.drop_zero, List.take_left]
  have h4 : substr (n ++ ':' :: c :: v) (n.length + 2) npos = some v := by
    rw [substr_of_le _ _ (by simp only [List.length_append, List.length_cons]; omega) hnp]
    have e : n ++ ':' :: c :: v = (n ++ [':', c]) ++ v := by simp
    rw [e, List.drop_left' (by simp)]
  unfold header_line
  simp only [find_first_of_append ':' (c :: v) n hn, h1, h2, h3, h4]

/-- A header line that ends with its first colon: `substr` throws. -/
theorem header_line_no_value (n : Str) (hn : ':' ∉ n)
    (hlen : (n ++ [':']).length < 2147483647) : header_line (n ++ [':']) = none := by
  simp only [List.length_append, List.length_cons, List.length_nil] at hlen
  have h2 : to_size_t (to_int (find_result_int (some n.length) + 2)) = n.length + 2 := by
    show to_size_t (to_int (to_int (n.length : Int) + 2)) = _
    rw [to_int_of_small (n.length : Int) (by omega) (by omega)]
    exact to_size_t_to_int (n.length + 2) (by omega)
  have h4 : substr (n ++ [':']) (n.length + 2) npos = none :=
    substr_of_gt _ _ _ (by simp only [List.length_append, List.length_cons, List.length_nil]; omega)
  unfold header_line
  simp only [find_first_of_append ':' [] n hn, h2, h4]
  split <;> simp_all

theorem map_find_assign : ∀ (m : List (Str × Str)) (k v k2 : Str),
    map_find (map_assign m k v) k2 = if k = k2 then some v else map_find m k2
  | [], k, v, k2 => by simp only [map_assign, map_find]
  | e :: m, k, v, k2 => by
    by_cases h : e.1 = k
    · simp only [map_assign, h, if_true, map_find]
      by_cases h2 : k = k2
      · simp only [h2, if_true]
      · simp only [h2, if_false]
    · simp only [map_assign, h, if_false, map_find, map_find_assign m k v k2]
      by_cases h2 : k = k2
      · have h3 : e.1 ≠ k2 := h2 ▸ h
        simp only [h2, if_true, h3, if_false]
      · simp only [h2, if_false]

theorem map_find_foldl (k : Str) : ∀ (parsed : List (Str × Str)) (m : List (Str × Str)),
    map_find (parsed.foldl (fun m e => map_assign m e.1 e.2) m) k
      = match (parsed.filter (fun e => decide (e.1 = k))).getLast? with
        | some e => some e.2
        | none => map_find m k := by
  intro parsed
  induction parsed using List.reverseRecOn with
  | nil => intro m; rfl
  | append_singleton l e ih =>
    intro m
    rw [List.foldl_append, List.foldl_cons, List.foldl_nil, map_find_assign, List.filter_append]
    by_cases h : e.1 = k
    · simp [List.filter_cons, h]
    · simp only [List.filter_cons, h, decide_False, Bool.false_eq_true, if_false,
        List.filter_nil, List.append_nil]
      exact ih m

theorem read_headers_lines (more : List Str) : ∀ (hs : List Str) (m : List (Str × Str)),
    (∀ l ∈ hs, l ≠ [] ∧ (header_line l).isSome = true) →
    read_headers (hs ++ [] :: more) m
      = some ((hs.filterMap header_line).foldl (fun m e => map_assign m e.1 e.2) m)
  | [], m, _ => by simp [read_headers]
  | l :: hs, m, h => by
    obtain ⟨hl, hp⟩ := h l (List.mem_cons_self _ _)
    obtain ⟨e, he⟩ := Option.isSome_iff_exists.mp hp
    have hlen : l.length ≠ 0 := fun e0 => hl (List.length_eq_zero.mp e0)
    simp only [List.cons_append, read_headers, hlen, if_false, he, List.filterMap_cons,
      List.foldl_cons]
    exact read_headers_lines more hs _ (fun l2 hl2 => h l2 (List.mem_cons_of_mem _ hl2))

theorem get_header_eq (c : http_served_client) (keyword : Str) :
    (c.get_header keyword).1 = (map_find c.header keyword).getD [] := by
  unfold http_served_client.get_header
  cases map_find c.header keyword <;> rfl

/-! ## The response framing -/

theorem decimal_length_le (n : Nat) (h : n < 10000000000) : (decimal n).length ≤ 10 :=
  Nat.toDigitsCore_length 10 (by decide) (n + 1) n 10 (by omega) (by decide)

theorem itos_length_le (i : Int) (h1 : -2147483648 ≤ i) (h2 : i < 2147483648) :
    (itos i).length ≤ 11 := by
  unfold itos
  split
  · have := decimal_length_le (-i).toNat (by omega)
    simp only [List.length_cons]
    omega
  · have := decimal_length_le i.toNat (by omega)
    omega

theorem itos_of_length (n : Nat) (h : n < 2147483648) : itos (to_int n) = decimal n := by
  rw [to_int_of_small _ (by omega) (by omega)]
  unfold itos
  rw [if_neg (by omega), Int.toNat_ofNat]

/-- `send_header` with a mime type shorter than 800 characters: the status line and the
three header lines go to the socket, nothing else changes. -/
theorem send_header_eq (c : http_served_client) (mime_type : Str) (total_data_length : Int)
    (status : Int) (hmime : mime_type.length < 800)
    (hl : -2147483648 ≤ total_data_length ∧ total_data_length < 2147483648)
    (hs : -2147483648 ≤ status ∧ status < 2147483648) :
    c.send_header mime_type total_data_length status
      = { c with wire := c.wire ++ ("HTTP/1.1 ".data ++ itos status ++ " ".data
            ++ (if status = 200 then "OK".data else "error".data) ++ "\r\n".data
            ++ "Content-Length: ".data ++ itos total_data_length ++ "\r\n".data
            ++ "Connection: close\r\n".data
            ++ "Content-Type: ".data ++ c_str mime_type ++ "\r\n".data
            ++ "\r\n".data) } := by
  have h1 := itos_length_le status hs.1 hs.2
  have h2 := itos_length_le total_data_length hl.1 hl.2
  have h3 : (c_str mime_type).length ≤ mime_type.length :=
    (List.takeWhile_sublist _).length_le
  unfold http_served_client.send_header http_served_client.send_raw
  rw [if_neg (by omega)]
  simp only
  rw [to_int_of_small, Int.toNat_ofNat, List.take_length]
  all_goals
    split_ifs
    all_goals
      simp only [List.length_append, List.length_cons, List.length_nil]
      omega

/-- A header line without colon: the keyword is the whole line and the value the line
without its first character. -/
theorem header_line_no_colon (l : Str) (hl : l ≠ []) (hc : ':' ∉ l) (hlen : l.length < npos) :
    header_line l = some (l, l.drop 1) := by
  have h1 : to_size_t (find_result_int none) = npos := find_result_int_none
  have h2 : to_size_t (to_int (find_result_int none + 2)) = 1 := by decide
  have hpos : 1 ≤ l.length := List.length_pos.mpr hl
  have h3 : substr l 0 npos = some l := by
    rw [substr_of_le l 0 (Nat.zero_le _) hlen, List.drop_zero]
  have h4 : substr l 1 npos = some (l.drop 1) := substr_of_le l 1 hpos hlen
  unfold header_line
  simp only [find_first_of_none ':' l hc, h1, h2, h3, h4]

/-- `apply_parameters` on a query without `=`. -/
theorem apply_parameters_no_equals (e : webconfig_editor) (html q : Str) (w : World)
    (hq : '=' ∉ q) :
    e.apply_parameters html q w
      = if q.length < 2 then (true, html, w)
        else (false, html ++ "<P>ERROR! Missing equals sign in CGI parameters!\n".data, w) := by
  unfold webconfig_editor.apply_parameters
  rw [find_first_of_eq_none q hq]

/-! ## The path stack over sequences of visits -/

theorem headD_cons_tail (l : List Str) (h : l ≠ []) : l.headD [] :: l.tail = l := by
  cases l with
  | nil => exact absurd rfl h
  | cons a l => rfl

/-- With `depth` objects open on top of the stack `base`, a sequence of visits that closes
no more than these leaves `base` below the objects still open. -/
theorem run_visits_stack {σ : Type} {p : pup_er_virtual σ} {address : σ → Str}
    {old_addresses : σ → List Str} (h : tracks_address p address old_addresses)
    (base : List Str) (hbase : base ≠ []) :
    ∀ (vs : List Visit) (d j : Nat) (s : σ) (ext : List Str),
      bracket_depth d vs = some j → ext.length = d →
      address s :: old_addresses s = ext ++ base →
      ∃ ext2 : List Str, ext2.length = j
        ∧ address (run_visits p vs s) :: old_addresses (run_visits p vs s) = ext2 ++ base
  | [], d, j, s, ext, hd, hl, hs => by
    simp only [bracket_depth, Option.some.injEq] at hd
    exact ⟨ext, hd ▸ hl, hs⟩
  | .comment c :: vs, d, j, s, ext, hd, hl, hs => by
    simp only [bracket_depth] at hd
    exact run_visits_stack h base hbase vs d j _ ext hd hl
      (by simp only [visit, (h.comment c s).1, (h.comment c s).2]; exact hs)
  | .pfloat n v :: vs, d, j, s, ext, hd, hl, hs => by
    simp only [bracket_depth] at hd
    exact run_visits_stack h base hbase vs d j _ ext hd hl
      (by simp only [visit, (h.pup_float n v s).1, (h.pup_float n v s).2]; exact hs)
  | .pint n v :: vs, d, j, s, ext, hd, hl, hs => by
    simp only [bracket_depth] at hd
    exact run_visits_stack h base hbase vs d j _ ext hd hl
      (by simp only [visit, (h.pup_int n v s).1, (h.pup_int n v s).2]; exact hs)
  | .pstring n v :: vs, d, j, s, ext, hd, hl, hs => by
    simp only [bracket_depth] at hd
    exact run_visits_stack h base hbase vs d j _ ext hd hl
      (by simp only [visit, (h.pup_string n v s).1, (h.pup_string n v s).2]; exact hs)
  | .penum n v nv :: vs, d, j, s, ext, hd, hl, hs => by
    simp only [bracket_depth] at hd
    exact run_visits_stack h base hbase vs d j _ ext hd hl
      (by simp only [visit, (h.pup_enum n v nv s).1, (h.pup_enum n v nv s).2]; exact hs)
  | .objectbegin n :: vs, d, j, s, ext, hd, hl, hs => by
    simp only [bracket_depth] at hd
    refine run_visits_stack h base hbase vs (d + 1) j _
      ((address s ++ n ++ ['.']) :: ext) hd (by simp only [List.length_cons, hl]) ?_
    simp only [visit, (h.pup_objectbegin n s).1, (h.pup_objectbegin n s).2, hs,
      List.cons_append]
  | .objectend n :: vs, d, j, s, ext, hd, hl, hs => by
    simp only [bracket_depth] at hd
    by_cases hd0 : d = 0
    · simp only [hd0, if_true] at hd
      exact absurd hd (by simp)
    · simp only [hd0, if_false] at hd
      cases ext with
      | nil => exact absurd hl.symm hd0
      | cons e ext =>
        simp only [List.cons_append, List.cons.injEq] at hs
        have hne : old_addresses s ≠ [] := by
          rw [hs.2]
          intro hnil
          exact hbase (List.append_eq_nil.mp hnil).2
        refine run_visits_stack h base hbase vs (d - 1) j _ ext hd
          (by simp only [List.length_cons] at hl; omega) ?_
        simp only [visit, (h.pup_objectend n s).1, (h.pup_objectend n s).2]
        rw [headD_cons_tail _ hne, hs.2]

/-- A well-bracketed sequence of visits leaves the address and the stack of saved
addresses as they were. -/
theorem run_visits_keeps_address {σ : Type} {p : pup_er_virtual σ} {address : σ → Str}
    {old_addresses : σ → List Str} (h : tracks_address p address old_addresses)
    (vs : List Visit) (hb : well_bracketed vs = true) (s : σ) :
    address (run_visits p vs s) = address s
      ∧ old_addresses (run_visits p vs s) = old_addresses s := by
  simp only [well_bracketed, decide_eq_true_eq] at hb
  obtain ⟨ext2, hl, he⟩ := run_visits_stack h (address s :: old_addresses s)
    (List.cons_ne_nil _ _) vs 0 0 s [] hb rfl rfl
  rw [List.length_eq_zero.mp hl, List.nil_append, List.cons.injEq] at he
  exact he

theorem renderer_visit_indent (fn : Str) (v : Visit) (s : html_form_state) :
    (visit (pup_to_HTML_form fn) v s).indent
      = match v with
        | .objectbegin _ => s.indent + 1
        | .objectend _ => s.indent - 1
        | _ => s.indent := by
  cases v with
  | pstring n v =>
    simp only [visit, renderer_string_eq]
    split <;> rfl
  | _ => rfl

theorem run_visits_indent (fn : Str) : ∀ (vs : List Visit) (d j : Nat) (s : html_form_state),
    bracket_depth d vs = some j →
    (run_visits (pup_to_HTML_form fn) vs s).indent = s.indent + j - d
  | [], d, j, s, hd => by
    simp only [bracket_depth, Option.some.injEq] at hd
    simp only [run_visits, hd]
    omega
  | .comment c :: vs, d, j, s, hd => by
    simp only [bracket_depth] at hd
    rw [run_visits, run_visits_indent fn vs d j _ hd, renderer_visit_indent]
  | .pfloat n v :: vs, d, j, s, hd => by
    simp only [bracket_depth] at hd
    rw [run_visits, run_visits_indent fn vs d j _ hd, renderer_visit_indent]
  | .pint n v :: vs, d, j, s, hd => by
    simp only [bracket_depth] at hd
    rw [run_visits, run_visits_indent fn vs d j _ hd, renderer_visit_indent]
  | .pstring n v :: vs, d, j, s, hd => by
    simp only [bracket_depth] at hd
    rw [run_visits, run_visits_indent fn vs d j _ hd, renderer_visit_indent]
  | .penum n v nv :: vs, d, j, s, hd => by
    simp only [bracket_depth] at hd
    rw [run_visits, run_visits_indent fn vs d j _ hd, renderer_visit_indent]
  | .objectbegin n :: vs, d, j, s, hd => by
    simp only [bracket_depth] at hd
    rw [run_visits, run_visits_indent fn vs (d + 1) j _ hd, renderer_visit_indent]
    simp only [Nat.cast_add, Nat.cast_one]
    omega
  | .objectend n :: vs, d, j, s, hd => by
    simp only [bracket_depth] at hd
    by_cases hd0 : d = 0
    · simp only [hd0, if_true] at hd
      exact absurd hd (by simp)
    · simp only [hd0, if_false] at hd
      rw [run_visits, run_visits_indent fn vs (d - 1) j _ hd, renderer_visit_indent]
      simp only
      omega

mutual
theorem pup_to_HTML_form_indent (fn : Str) : ∀ (i : Item) (s : html_form_state),
    (pup (pup_to_HTML_form fn) i s).2.indent = s.indent
  | .comment c, s => by simp only [pup]; rfl
  | .pfloat n v, s => by simp only [pup]; rfl
  | .pint n v, s => by simp only [pup]; rfl
  | .pstring n v, s => by
    simp only [pup, renderer_string_eq]
    split <;> rfl
  | .penum n v nv, s => by simp only [pup]; rfl
  | .object n fs, s => by
    simp only [pup, renderer_objectend_eq, pup_fields_to_HTML_form_indent fn fs,
      renderer_objectbegin_eq]
    omega
theorem pup_fields_to_HTML_form_indent (fn : Str) : ∀ (is : List Item) (s : html_form_state),
    (pup_fields (pup_to_HTML_form fn) is s).2.indent = s.indent
  | [], s => by simp only [pup_fields]
  | i :: is, s => by
    simp only [pup_fields, pup_fields_to_HTML_form_indent fn is, pup_to_HTML_form_indent fn i]
end

/-! ## `escape_HTML` -/

/-- One round of the loop of `escape_HTML`: an entity for one of the four characters, the
character itself otherwise. -/
theorem escape_HTML_cons (c : Char) (s : Str) :
    ∃ tok, escape_HTML (c :: s) = tok ++ escape_HTML s
      ∧ ((tok = [c] ∧ c ≠ '"' ∧ c ≠ '<' ∧ c ≠ '>' ∧ c ≠ '&')
        ∨ ∃ tail ∈ entity_tails, tok = '&' :: tail) := by
  by_cases h1 : c = '"'
  · exact ⟨"&quot;".data, by rw [escape_HTML, if_pos h1],
      Or.inr ⟨"quot;".data, by decide, rfl⟩⟩
  by_cases h2 : c = '<'
  · exact ⟨"&lt;".data, by rw [escape_HTML, if_neg h1, if_pos h2],
      Or.inr ⟨"lt;".data, by decide, rfl⟩⟩
  by_cases h3 : c = '>'
  · exact ⟨"&gt;".data, by rw [escape_HTML, if_neg h1, if_neg h2, if_pos h3],
      Or.inr ⟨"gt;".data, by decide, rfl⟩⟩
  by_cases h4 : c = '&'
  · exact ⟨"&amp;".data, by rw [escape_HTML, if_neg h1, if_neg h2, if_neg h3, if_pos h4],
      Or.inr ⟨"amp;".data, by decide, rfl⟩⟩
  exact ⟨[c], by rw [escape_HTML, if_neg h1, if_neg h2, if_neg h3, if_neg h4]; rfl,
    Or.inl ⟨rfl, h1, h2, h3, h4⟩⟩

theorem entity_tails_plain : ∀ tail ∈ entity_tails,
    '"' ∉ tail ∧ '<' ∉ tail ∧ '>' ∉ tail ∧ '&' ∉ tail := by
  decide

theorem escape_HTML_no_quote : ∀ (s : Str),
    '"' ∉ escape_HTML s ∧ '<' ∉ escape_HTML s ∧ '>' ∉ escape_HTML s
  | [] => by simp [escape_HTML]
  | c :: s => by
    obtain ⟨tok, he, ht⟩ := escape_HTML_cons c s
    obtain ⟨i1, i2, i3⟩ := escape_HTML_no_quote s
    rw [he]
    rcases ht with ⟨ht, h1, h2, h3, -⟩ | ⟨tail, hm, ht⟩
    · subst ht
      simp only [List.singleton_append, List.mem_cons, not_or]
      exact ⟨⟨Ne.symm h1, i1⟩, ⟨Ne.symm h2, i2⟩, ⟨Ne.symm h3, i3⟩⟩
    · obtain ⟨t1, t2, t3, -⟩ := entity_tails_plain tail hm
      subst ht
      simp only [List.cons_append, List.mem_cons, List.mem_append, not_or]
      exact ⟨⟨by decide, t1, i1⟩, ⟨by decide, t2, i2⟩, ⟨by decide, t3, i3⟩⟩

/-- Every `&` in the output of `escape_HTML` is followed by the rest of an entity. -/
theorem escape_HTML_ampersand : ∀ (s pre post : Str),
    escape_HTML s = pre ++ '&' :: post → ∃ tail ∈ entity_tails, tail <+: post
  | [], pre, post, h => by
    simp only [escape_HTML] at h
    exact absurd h.symm (by simp)
  | c :: s, pre, post, h => by
    obtain ⟨tok, he, ht⟩ := escape_HTML_cons c s
    rw [he, List.append_eq_append_iff] at h
    rcases h with ⟨a, -, ha⟩ | ⟨b, hb, hp⟩
    · exact escape_HTML_ampersand s a post ha
    · cases b with
      | nil =>
        rw [List.nil_append] at hp
        exact escape_HTML_ampersand s [] post hp.symm
      | cons x b =>
        simp only [List.cons_append, List.cons.injEq] at hp
        obtain ⟨hx, hpost⟩ := hp
        subst hx
        rcases ht with ⟨ht, -, -, -, h4⟩ | ⟨tail, hm, ht⟩
        · exfalso
          rw [ht] at hb
          cases pre with
          | nil =>
            simp only [List.nil_append, List.cons.injEq] at hb
            exact h4 hb.1
          | cons p pre =>
            have := congrArg List.length hb
            simp at this
        · rw [ht] at hb
          cases pre with
          | nil =>
            simp only [List.nil_append, List.cons.injEq, true_and] at hb
            exact ⟨tail, hm, hb ▸ hpost ▸ List.prefix_append _ _⟩
          | cons p pre =>
            exfalso
            simp only [List.cons_append, List.cons.injEq] at hb
            apply (entity_tails_plain tail hm).2.2.2
            rw [hb.2]
            simp

theorem c_str_sublist (t : Str) : (c_str t).Sublist t := List.takeWhile_sublist _

/-! ## `itos` and `atoi` -/

theorem digitChar_digit : ∀ d < 10,
    isdigit (Nat.digitChar d) = true ∧ (Nat.digitChar d).toNat - 48 = d
      ∧ isspace (Nat.digitChar d) = false ∧ Nat.digitChar d ≠ '-' ∧ Nat.digitChar d ≠ '+'
      ∧ Nat.digitChar d ≠ Char.ofNat 0 := by
  decide

theorem digits_value_nil (a : Nat) : digits_value a [] = a := rfl

theorem digits_value_cons (a : Nat) (c : Char) (s : Str) :
    digits_value a (c :: s) = digits_value (10 * a + (c.toNat - 48)) s := rfl

theorem digits_value_append : ∀ (s t : Str) (a : Nat),
    digits_value a (s ++ t) = digits_value (digits_value a s) t
  | [], _, _ => rfl
  | c :: s, t, a => digits_value_append s t (10 * a + (c.toNat - 48))

/-- The digits `printf("%d")` writes for a natural number, on top of `acc`: a non-empty run
of decimal digits whose value is the number. -/
theorem toDigitsCore_digits : ∀ (fuel n : Nat) (acc : Str), n < fuel →
    ∃ ds : Str, Nat.toDigitsCore 10 fuel n acc = ds ++ acc ∧ ds ≠ []
      ∧ (∀ c ∈ ds, isdigit c = true ∧ isspace c = false ∧ c ≠ '-' ∧ c ≠ '+'
          ∧ c ≠ Char.ofNat 0)
      ∧ (∀ a, digits_value a ds = a * 10 ^ ds.length + n)
  | 0, n, acc, h => absurd h (Nat.not_lt_zero n)
  | fuel + 1, n, acc, h => by
    obtain ⟨d1, d2, d3, d4, d5, d6⟩ := digitChar_digit (n % 10) (Nat.mod_lt n (by decide))
    by_cases h0 : n / 10 = 0
    · refine ⟨[Nat.digitChar (n % 10)], ?_, by simp, ?_, ?_⟩
      · simp only [Nat.toDigitsCore, h0, if_true, List.singleton_append]
      · intro c hc
        rw [List.mem_singleton] at hc
        subst hc
        exact ⟨d1, d3, d4, d5, d6⟩
      · intro a
        rw [digits_value_cons, digits_value_nil, d2, List.length_singleton, pow_one]
        omega
    · have hlt : n / 10 < fuel := by omega
      obtain ⟨ds, e1, -, e3, e4⟩ :=
        toDigitsCore_digits fuel (n / 10) (Nat.digitChar (n % 10) :: acc) hlt
      refine ⟨ds ++ [Nat.digitChar (n % 10)], ?_, by simp, ?_, ?_⟩
      · simp only [Nat.toDigitsCore, h0, if_false, e1, List.append_assoc,
          List.singleton_append]
      · intro c hc
        rcases List.mem_append.mp hc with hc | hc
        · exact e3 c hc
        · rw [List.mem_singleton] at hc
          subst hc
          exact ⟨d1, d3, d4, d5, d6⟩
      · intro a
        rw [digits_value_append, e4 a, digits_value_cons, digits_value_nil, d2,
          List.length_append, List.length_singleton, pow_succ]
        have hdm := Nat.div_add_mod n 10
        have hmul : 10 * (a * 10 ^ ds.length + n / 10) = a * (10 ^ ds.length * 10)
            + 10 * (n / 10) := by ring
        omega

theorem decimal_digits (n : Nat) :
    decimal n ≠ []
      ∧ (∀ c ∈ decimal n, isdigit c = true ∧ isspace c = false ∧ c ≠ '-' ∧ c ≠ '+'
          ∧ c ≠ Char.ofNat 0)
      ∧ digits_value 0 (decimal n) = n := by
  obtain ⟨ds, e1, e2, e3, e4⟩ := toDigitsCore_digits (n + 1) n [] (Nat.lt_succ_self n)
  rw [List.append_nil] at e1
  have hd : decimal n = ds := e1
  rw [hd]
  refine ⟨e2, e3, ?_⟩
  rw [e4 0]
  omega

theorem takeWhile_isdigit_decimal (n : Nat) : (decimal n).takeWhile isdigit = decimal n := by
  rw [List.takeWhile_eq_self_iff]
  exact fun c hc => ((decimal_digits n).2.1 c hc).1

theorem dropWhile_isspace_decimal (n : Nat) : (decimal n).dropWhile isspace = decimal n := by
  obtain ⟨hne, hd, -⟩ := decimal_digits n
  cases h : decimal n with
  | nil => exact absurd h hne
  | cons c s =>
    have hc := (hd c (h ▸ List.mem_cons_self _ _)).2.1
    simp only [List.dropWhile_cons, hc, Bool.false_eq_true, if_false]

theorem head_decimal (n : Nat) :
    (decimal n).head? ≠ some '-' ∧ (decimal n).head? ≠ some '+' := by
  obtain ⟨hne, hd, -⟩ := decimal_digits n
  cases h : decimal n with
  | nil => exact absurd h hne
  | cons c s =>
    have hc := hd c (h ▸ List.mem_cons_self _ _)
    simp only [List.head?_cons, ne_eq, Option.some.injEq]
    exact ⟨hc.2.2.1, hc.2.2.2.1⟩

/-- `atoi` reads back what `itos` writes for an `int`. -/
theorem atoi_itos (n : Int) (h1 : -2147483648 ≤ n) (h2 : n < 2147483648) :
    atoi (itos n) = n := by
  unfold itos
  by_cases hneg : n < 0
  · rw [if_pos hneg]
    have hsp : ('-' :: decimal (-n).toNat).dropWhile isspace = '-' :: decimal (-n).toNat := by
      simp only [List.dropWhile_cons, show isspace '-' = false by decide, Bool.false_eq_true,
        if_false]
    unfold atoi
    simp only [hsp, List.head?_cons, true_or, if_true, List.tail_cons,
      takeWhile_isdigit_decimal, (decimal_digits _).2.2]
    rw [Nat.min_eq_left (by omega), to_int_of_small _ (by omega) (by omega)]
    omega
  · rw [if_neg hneg]
    obtain ⟨hm, hp⟩ := head_decimal n.toNat
    unfold atoi
    simp only [dropWhile_isspace_decimal, hm, hp, or_self, if_false,
      takeWhile_isdigit_decimal, (decimal_digits _).2.2]
    rw [Nat.min_eq_left (by omega), to_int_of_small _ (by omega) (by omega)]
    omega

theorem itos_no_nul (n : Int) : Char.ofNat 0 ∉ itos n := by
  unfold itos
  split
  · intro hm
    rcases List.mem_cons.mp hm with hm | hm
    · exact absurd hm (by decide)
    · exact ((decimal_digits _).2.1 _ hm).2.2.2.2 rfl
  · intro hm
    exact ((decimal_digits _).2.1 _ hm).2.2.2.2 rfl

theorem eq_of_mem_of_nodup_keys : ∀ (l : List (Str × Value)) (f g : Str × Value),
    (l.map Prod.fst).Nodup → f ∈ l → g ∈ l → f.1 = g.1 → f = g
  | [], f, g, _, hf, _, _ => by cases hf
  | e :: l, f, g, hn, hf, hg, hk => by
    simp only [List.map_cons, List.nodup_cons, List.mem_map, not_exists, not_and] at hn
    rcases List.mem_cons.mp hf with hf | hf <;> rcases List.mem_cons.mp hg with hg | hg
    · rw [hf, hg]
    · exact absurd (by rw [← hf, hk]) (hn.1 g hg)
    · exact absurd (by rw [← hg, ← hk]) (hn.1 f hf)
    · exact eq_of_mem_of_nodup_keys l f g hn.2 hf hg hk

theorem update_field_itos (P : Str) (n : Int) (h1 : -2147483648 ≤ n) (h2 : n < 2147483648) :
    update_field P (itos n) (P, .vint n) = (P, .vint n) := by
  simp only [update_field, if_true, assigned, c_str_eq_self _ (itos_no_nul n),
    atoi_itos n h1 h2]

/-! ## `secantRoot1D` -/

/-- Whatever the arithmetic, the objective and the state: the guess `g2` one iteration of
`secantRoot1D` hands to the next is the secant guess `gN`, with `v2` its objective value,
and `g1`, `v1` are those of the lower-error guess. -/
theorem secant_step_eq {D : Type} (A : double_arith D) (obj : D → D) (s : secant_state D) :
    secant_step A obj s
      = { g1 := (secant_swap A s).g1, g2 := secant_guess A s, v1 := (secant_swap A s).v1
          v2 := obj (secant_guess A s) } := by
  unfold secant_step
  simp only
  split <;> rfl

/-! ## `greedyDiscreteMin` -/

theorem update_restore (b : Nat → ℚ) (u : Nat) (x : ℚ) :
    Function.update (Function.update b u x) u (b u) = b := by
  rw [Function.update_idem, Function.update_eq_self]

/-- The inner loop for one unknown, started with `test` equal to `best` and `vBest` the
objective at `best`: it ends the same way, `vBest` does not grow, and when `vBest` has not
become smaller nothing has changed and the step tried in direction `dir` (and, from the
first round, also the step in direction `-1`) is no improvement. -/
theorem greedy_axis_spec (obj : Objective) (step : Nat → ℚ) (u : Nat) :
    ∀ (fuel : Nat) (nBetter : Int) (dir : ℚ) (s r : greedy_state),
      s.test = s.best → s.vBest = obj.getObjective s.best →
      greedy_axis obj step u fuel nBetter dir s = some r →
      r.test = r.best ∧ r.vBest = obj.getObjective r.best ∧ r.vBest ≤ s.vBest
        ∧ (¬ r.vBest < s.vBest → r = s
          ∧ s.vBest ≤ obj.getObjective (Function.update s.best u (s.best u + dir * step u))
          ∧ (0 < dir → nBetter = 0 →
            s.vBest ≤ obj.getObjective
              (Function.update s.best u (s.best u + (-1) * step u))))
  | 0, _, _, _, _, _, _, h => by simp [greedy_axis] at h
  | fuel + 1, nBetter, dir, s, r, ht, hv, h => by
    obtain ⟨t, b, v⟩ := s
    simp only at ht hv
    subst ht
    simp only [greedy_axis] at h
    by_cases hb : obj.getObjective (Function.update t u (t u + dir * step u)) < v
    · rw [if_pos hb] at h
      obtain ⟨r1, r2, r3, -⟩ := greedy_axis_spec obj step u fuel _ dir _ r
        (by simp only [Function.update_same]) (by simp only [Function.update_same]) h
      simp only at r3
      exact ⟨r1, r2, le_of_lt (lt_of_le_of_lt r3 hb),
        fun hn => absurd (lt_of_le_of_lt r3 hb) hn⟩
    · rw [if_neg hb, update_restore] at h
      have hle : v ≤ obj.getObjective (Function.update t u (t u + dir * step u)) :=
        not_lt.mp hb
      by_cases hd : 0 < dir
      · rw [if_pos hd] at h
        by_cases hn : nBetter = 0
        · rw [if_pos hn] at h
          obtain ⟨r1, r2, r3, r4⟩ := greedy_axis_spec obj step u fuel nBetter (-1) _ r rfl hv h
          refine ⟨r1, r2, r3, fun hnot => ?_⟩
          obtain ⟨e1, e2, -⟩ := r4 hnot
          exact ⟨e1, hle, fun _ _ => e2⟩
        · rw [if_neg hn] at h
          simp only [Option.some.injEq] at h
          subst h
          exact ⟨rfl, hv, le_refl _, fun _ => ⟨rfl, hle, fun _ h0 => absurd h0 hn⟩⟩
      · rw [if_neg hd] at h
        simp only [Option.some.injEq] at h
        subst h
        exact ⟨rfl, hv, le_refl _, fun _ => ⟨rfl, hle, fun h0 => absurd h0 hd⟩⟩

/-- One sweep over the unknowns `us`: `vBest` does not grow, and when it has not become
smaller nothing has changed and no step along any of the unknowns is an improvement. -/
theorem greedy_sweep_spec (obj : Objective) (step : Nat → ℚ) (fuel : Nat) :
    ∀ (us : List Nat) (s r : greedy_state),
      s.test = s.best → s.vBest = obj.getObjective s.best →
      greedy_sweep obj step fuel us s = some r →
      r.test = r.best ∧ r.vBest = obj.getObjective r.best ∧ r.vBest ≤ s.vBest
        ∧ (¬ r.vBest < s.vBest → r = s ∧ ∀ u ∈ us,
          s.vBest ≤ obj.getObjective (Function.update s.best u (s.best u + 1 * step u))
          ∧ s.vBest ≤ obj.getObjective (Function.update s.best u (s.best u + (-1) * step u)))
  | [], s, r, ht, hv, h => by
    simp only [greedy_sweep, Option.some.injEq] at h
    subst h
    exact ⟨ht, hv, le_refl _, fun _ => ⟨rfl, fun u hu => absurd hu (List.not_mem_nil u)⟩⟩
  | u :: us, s, r, ht, hv, h => by
    simp only [greedy_sweep] at h
    obtain ⟨m, hm, hr⟩ := Option.bind_eq_some.mp h
    obtain ⟨m1, m2, m3, m4⟩ := greedy_axis_spec obj step u fuel 0 1 s m ht hv hm
    obtain ⟨r1, r2, r3, r4⟩ := greedy_sweep_spec obj step fuel us m r m1 m2 hr
    refine ⟨r1, r2, le_trans r3 m3, fun hnot => ?_⟩
    have hm_not : ¬ m.vBest < s.vBest := fun hlt => hnot (lt_of_le_of_lt r3 hlt)
    obtain ⟨e1, e2, e3⟩ := m4 hm_not
    subst e1
    obtain ⟨f1, f2⟩ := r4 hnot
    refine ⟨f1, fun w hw => ?_⟩
    rcases List.mem_cons.mp hw with hw | hw
    · subst hw
      exact ⟨e2, e3 (by norm_num) rfl⟩
    · exact f2 w hw

/-- The outer loop, entered with `vBest` below `lastBest` or at a point where no step
along an unknown is an improvement: it ends at such a point, with `vBest` not larger. -/
theorem greedy_outer_spec (obj : Objective) (step : Nat → ℚ) (fuel : Nat) :
    ∀ (rounds : Nat) (lastBest : ℚ) (s r : greedy_state),
      s.test = s.best → s.vBest = obj.getObjective s.best →
      (¬ s.vBest < lastBest → ∀ u ∈ List.range obj.getUnknowns.toNat,
          s.vBest ≤ obj.getObjective (Function.update s.best u (s.best u + 1 * step u))
          ∧ s.vBest ≤ obj.getObjective
              (Function.update s.best u (s.best u + (-1) * step u))) →
      greedy_outer obj step fuel rounds lastBest s = some r →
      r.vBest = obj.getObjective r.best ∧ r.vBest ≤ s.vBest
        ∧ ∀ u ∈ List.range obj.getUnknowns.toNat,
          r.vBest ≤ obj.getObjective (Function.update r.best u (r.best u + 1 * step u))
          ∧ r.vBest ≤ obj.getObjective (Function.update r.best u (r.best u + (-1) * step u))
  | 0, _, _, _, _, _, _, h => by simp [greedy_outer] at h
  | rounds + 1, lastBest, s, r, ht, hv, hlm, h => by
    simp only [greedy_outer] at h
    by_cases hlt : s.vBest < lastBest
    · rw [if_pos hlt] at h
      obtain ⟨m, hm, hr⟩ := Option.bind_eq_some.mp h
      obtain ⟨m1, m2, m3, m4⟩ := greedy_sweep_spec obj step fuel _ s m ht hv hm
      have hrec := greedy_outer_spec obj step fuel rounds s.vBest m r m1 m2
        (fun hnot => by
          obtain ⟨e1, e2⟩ := m4 hnot
          rw [e1]
          exact e2) hr
      exact ⟨hrec.1, le_trans hrec.2.1 m3, hrec.2.2⟩
    · rw [if_neg hlt] at h
      simp only [Option.some.injEq] at h
      subst h
      exact ⟨hv, le_refl _, hlm hlt⟩

/-! ## Loops over a matrix -/

theorem foldl_range'_invariant {α : Type} (P : Nat → α → Prop) (body : Nat → α → α) :
    ∀ (k lo : Nat) (a : α), P lo a →
      (∀ i x, lo ≤ i → i < lo + k → P i x → P (i + 1) (body i x)) →
      P (lo + k) ((List.range' lo k).foldl (fun a i => body i a) a)
  | 0, lo, a, h0, _ => by simpa using h0
  | k + 1, lo, a, h0, hstep => by
    have h1 := hstep lo a (le_refl _) (by omega) h0
    have := foldl_range'_invariant P body k (lo + 1) (body lo a) h1
      (fun i x hi hk hp => hstep i x (by omega) (by omega) hp)
    simp only [List.range', List.foldl_cons]
    rw [show lo + (k + 1) = lo + 1 + k by omega]
    exact this

/-- The rule for a `for` loop: a property that holds on entry and is kept by every round
holds on exit, with the loop variable at its bound. -/
theorem for_loop_invariant {α : Type} (P : Nat → α → Prop) (lo hi : Nat)
    (body : Nat → α → α) (a : α) (hle : lo ≤ hi) (h0 : P lo a)
    (hstep : ∀ i x, lo ≤ i → i < hi → P i x → P (i + 1) (body i x)) :
    P hi (for_loop lo hi body a) := by
  have := foldl_range'_invariant P body (hi - lo) lo a h0
    (fun i x h1 h2 hp => hstep i x h1 (by omega) hp)
  rw [show lo + (hi - lo) = hi by omega] at this
  exact this

theorem set_apply (m : MatrixT) (r c : Nat) (x : ℚ) (i j : Nat) :
    m.set r c x i j = if i = r ∧ j = c then x else m i j := by
  unfold MatrixT.set
  by_cases hi : i = r
  · subst hi
    by_cases hj : j = c
    · subst hj
      simp
    · simp [hj]
  · simp [hi]

/-- A loop that assigns the entries `off + c` of row `r`, for `c` below `n`, values that
do not depend on the matrix. -/
theorem fill_row_apply (r off n : Nat) (f : Nat → ℚ) (m : MatrixT) (i j : Nat) :
    for_loop 0 n (fun c m => m.set r (off + c) (f c)) m i j
      = if i = r ∧ off ≤ j ∧ j < off + n then f (j - off) else m i j := by
  have := for_loop_invariant
    (fun k (x : MatrixT) => ∀ i j, x i j
      = if i = r ∧ off ≤ j ∧ j < off + k then f (j - off) else m i j)
    0 n (fun c m => m.set r (off + c) (f c)) m (Nat.zero_le _)
    (fun i j => by rw [if_neg (by omega)])
    (fun k x _ _ hx i j => by
      beta_reduce at hx ⊢
      rw [set_apply, hx]
      by_cases h1 : i = r ∧ j = off + k
      · obtain ⟨h1, h2⟩ := h1
        subst h1 h2
        simp
      · rw [if_neg h1]
        by_cases h2 : i = r ∧ off ≤ j ∧ j < off + k
        · rw [if_pos h2, if_pos ⟨h2.1, h2.2.1, by omega⟩]
        · rw [if_neg h2, if_neg]
          rintro ⟨h3, h4, h5⟩
          rcases Nat.lt_or_ge j (off + k) with h6 | h6
          · exact h2 ⟨h3, h4, h6⟩
          · exact h1 ⟨h3, by omega⟩)
  exact this i j

/-- Two nested loops that assign the entries `off + c` of the rows below `rows`. -/
theorem fill_apply (rows off n : Nat) (f : Nat → Nat → ℚ) (m : MatrixT) (i j : Nat) :
    for_loop 0 rows (fun r m => for_loop 0 n (fun c m => m.set r (off + c) (f r c)) m) m i j
      = if i < rows ∧ off ≤ j ∧ j < off + n then f i (j - off) else m i j := by
  have := for_loop_invariant
    (fun k (x : MatrixT) => ∀ i j, x i j
      = if i < k ∧ off ≤ j ∧ j < off + n then f i (j - off) else m i j)
    0 rows (fun r m => for_loop 0 n (fun c m => m.set r (off + c) (f r c)) m) m
    (Nat.zero_le _) (fun i j => by rw [if_neg (by omega)])
    (fun k x _ _ hx i j => by
      beta_reduce at hx ⊢
      rw [fill_row_apply, hx]
      by_cases h1 : i = k ∧ off ≤ j ∧ j < off + n
      · rw [if_pos h1, if_pos ⟨by omega, h1.2⟩, h1.1]
      · rw [if_neg h1]
        by_cases h2 : i < k ∧ off ≤ j ∧ j < off + n
        · rw [if_pos h2, if_pos ⟨by omega, h2.2⟩]
        · rw [if_neg h2, if_neg]
          rintro ⟨h3, h4⟩
          rcases Nat.lt_or_ge i k with h6 | h6
          · exact h2 ⟨h6, h4⟩
          · exact h1 ⟨by omega, h4⟩)
  exact this i j

theorem swapRow_apply (cols : Nat) (m : MatrixT) (r1 r2 i j : Nat) :
    m.swapRow cols r1 r2 i j
      = if j < cols then (if i = r2 then m r1 j else if i = r1 then m r2 j else m i j)
        else m i j := by
  have := for_loop_invariant
    (fun k (x : MatrixT) => ∀ i j, x i j
      = if j < k then (if i = r2 then m r1 j else if i = r1 then m r2 j else m i j)
        else m i j)
    0 cols (fun c m => (m.set r1 c (m r2 c)).set r2 c (m r1 c)) m (Nat.zero_le _)
    (fun i j => by rw [if_neg (by omega)])
    (fun k x _ _ hx i j => by
      beta_reduce at hx ⊢
      rw [set_apply, set_apply, hx r1 k, hx r2 k, hx i j]
      simp only [lt_irrefl, if_false]
      by_cases hj : j = k
      · subst hj
        simp only [and_true, Nat.lt_succ_self, if_true, lt_irrefl, if_false]
      · have h1 : j < k + 1 ↔ j < k := by omega
        simp only [hj, and_false, if_false, h1])
  exact this i j

theorem scaleRow_apply (cols : Nat) (m : MatrixT) (r : Nat) (s : ℚ) (i j : Nat) :
    m.scaleRow cols r s i j = if i = r ∧ j < cols then m i j * s else m i j := by
  have := for_loop_invariant
    (fun k (x : MatrixT) => ∀ i j, x i j = if i = r ∧ j < k then m i j * s else m i j)
    0 cols (fun c m => m.set r c (m r c * s)) m (Nat.zero_le _)
    (fun i j => by rw [if_neg (by omega)])
    (fun k x _ _ hx i j => by
      beta_reduce at hx ⊢
      rw [set_apply, hx r k, hx i j]
      simp only [lt_irrefl, and_false, if_false]
      by_cases hj : j = k
      · subst hj
        by_cases hi : i = r
        · subst hi
          simp
        · simp [hi]
      · have h1 : j < k + 1 ↔ j < k := by omega
        simp only [hj, and_false, if_false, h1])
  exact this i j


/-- The inner loop of the elimination for a row `r` other than the pivot row. -/
theorem eliminate_row_apply (cols : Nat) (m : MatrixT) (r pr pc : Nat) (y : ℚ) (hr : r ≠ pr)
    (i j : Nat) :
    for_loop (pc + 1) cols (fun c m2 => m2.set r c (m2 r c - m2 pr c * y)) (m.set r pc 0) i j
      = if i = r then
          (if j = pc then 0 else if pc < j ∧ j < cols then m r j - m pr j * y else m r j)
        else m i j := by
  rcases Nat.lt_or_ge cols (pc + 1) with hlt | hge
  · have h0 : cols - (pc + 1) = 0 := by omega
    simp only [for_loop, h0, List.range', List.foldl_nil, set_apply]
    split_ifs <;>
      first
        | rfl
        | (exfalso; omega)
        | simp_all
  · have := for_loop_invariant
      (fun k (x : MatrixT) => ∀ i j, x i j
        = if i = r then
            (if j = pc then 0 else if pc < j ∧ j < k then m r j - m pr j * y else m r j)
          else m i j)
      (pc + 1) cols (fun c m2 => m2.set r c (m2 r c - m2 pr c * y)) (m.set r pc 0) hge
      (fun i j => by
        rw [set_apply]
        split_ifs <;>
          first
            | rfl
            | (exfalso; omega)
            | simp_all)
      (fun k x hk _ hx i j => by
        beta_reduce at hx ⊢
        rw [set_apply, hx r k, hx pr k, hx i j]
        split_ifs <;>
          first
            | rfl
            | (exfalso; omega)
            | simp_all)
    exact this i j

theorem eliminate_apply (rows cols : Nat) (m : MatrixT) (pr pc i j : Nat) :
    m.eliminate rows cols pr pc i j
      = if i < rows ∧ i ≠ pr then
          (if j = pc then 0 else if pc < j ∧ j < cols then m i j - m pr j * m i pc
            else m i j)
        else m i j := by
  have := for_loop_invariant
    (fun k (x : MatrixT) => ∀ i j, x i j
      = if i < k ∧ i ≠ pr then
          (if j = pc then 0 else if pc < j ∧ j < cols then m i j - m pr j * m i pc
            else m i j)
        else m i j)
    0 rows
    (fun r m =>
      if r ≠ pr then
        for_loop (pc + 1) cols (fun c m2 => m2.set r c (m2 r c - m2 pr c * m r pc))
          (m.set r pc 0)
      else m) m (Nat.zero_le _)
    (fun i j => by rw [if_neg (by omega)])
    (fun k x _ _ hx i j => by
      beta_reduce at hx ⊢
      by_cases hk : k = pr
      · rw [if_neg (not_not.mpr hk), hx]
        split_ifs <;>
          first
            | rfl
            | (exfalso; omega)
      · rw [if_pos hk, eliminate_row_apply cols x k pr pc _ hk, hx k, hx pr, hx k pc, hx i j]
        split_ifs <;>
          first
            | rfl
            | (exfalso; omega)
            | simp_all)
  exact this i j

/-- The search for a pivot: either it finds only zeros in the pivot column from the pivot
row down and leaves -1, or it leaves a row there whose entry is not zero. -/
theorem find_pivot_spec (rows : Nat) (m : MatrixT) (pc : Nat) (hpc : pc ≤ rows) :
    ((MatrixT.find_pivot rows m pc).2 = -1 ∧ ∀ r, pc ≤ r → r < rows → m r pc = 0)
      ∨ ∃ r0 : Nat, pc ≤ r0 ∧ r0 < rows ∧ (MatrixT.find_pivot rows m pc).2 = (r0 : Int)
          ∧ m r0 pc ≠ 0 := by
  have := for_loop_invariant
    (fun k (p : ℚ × Int) =>
      (p.1 = 0 ∧ p.2 = -1 ∧ ∀ r, pc ≤ r → r < k → m r pc = 0)
        ∨ ∃ r0 : Nat, pc ≤ r0 ∧ r0 < k ∧ p.2 = (r0 : Int) ∧ m r0 pc ≠ 0 ∧ 0 < p.1)
    pc rows
    (fun r (p : ℚ × Int) => if p.1 < |m r pc| then (|m r pc|, (r : Int)) else p)
    (0, -1) hpc
    (Or.inl ⟨rfl, rfl, fun r h1 h2 => absurd h2 (by omega)⟩)
    (fun k p hk _ hp => by
      beta_reduce at hp ⊢
      by_cases hlt : p.1 < |m k pc|
      · rw [if_pos hlt]
        refine Or.inr ⟨k, hk, by omega, rfl, ?_, ?_⟩
        · intro h0
          rw [h0, abs_zero] at hlt
          rcases hp with ⟨h1, -, -⟩ | ⟨_, _, _, _, _, h5⟩
          · rw [h1] at hlt
            exact lt_irrefl _ hlt
          · exact lt_irrefl _ (lt_trans h5 hlt)
        · rcases hp with ⟨h1, -, -⟩ | ⟨_, _, _, _, _, h5⟩
          · rw [h1] at hlt
            exact hlt
          · exact lt_trans h5 hlt
      · rw [if_neg hlt]
        rcases hp with ⟨h1, h2, h3⟩ | ⟨r0, a1, a2, a3, a4, a5⟩
        · refine Or.inl ⟨h1, h2, fun r b1 b2 => ?_⟩
          rcases Nat.lt_or_ge r k with b3 | b3
          · exact h3 r b1 b3
          · have hrk : r = k := by omega
            subst hrk
            rw [h1] at hlt
            exact abs_eq_zero.mp (le_antisymm (not_lt.mp hlt) (abs_nonneg _))
        · exact Or.inr ⟨r0, a1, by omega, a3, a4, a5⟩)
  rcases this with ⟨-, h2, h3⟩ | ⟨r0, a1, a2, a3, a4, -⟩
  · exact Or.inl ⟨h2, h3⟩
  · exact Or.inr ⟨r0, a1, a2, a3, a4⟩

theorem augment_apply (rows cols : Nat) (m : MatrixT) (i j : Nat) :
    MatrixT.augment rows cols m i j
      = if i < rows then
          (if j < cols then m i j
            else if j < cols + cols then (if j - cols = i then 1 else 0) else 0)
        else 0 := by
  have := for_loop_invariant
    (fun k (x : MatrixT) => ∀ i j, x i j
      = if i < k then
          (if j < cols then m i j
            else if j < cols + cols then (if j - cols = i then 1 else 0) else 0)
        else 0)
    0 rows
    (fun r aug =>
      for_loop 0 cols (fun c aug => aug.set r (cols + c) (if c = r then 1 else 0))
        (for_loop 0 cols (fun c aug => aug.set r c (m r c)) aug))
    (fun _ _ => 0) (Nat.zero_le _)
    (fun i j => by rw [if_neg (by omega)])
    (fun k x _ _ hx i j => by
      beta_reduce at hx ⊢
      rw [fill_row_apply k cols cols (fun c => if c = k then 1 else 0)]
      have h0 := fill_row_apply k 0 cols (fun c => m k c) x i j
      simp only [Nat.zero_add, Nat.zero_le, true_and, Nat.sub_zero] at h0
      rw [h0, hx]
      split_ifs <;>
        first
          | rfl
          | (exfalso; omega)
          | simp_all)
  exact this i j

theorem sum_loop (n : Nat) (f : Nat → ℚ) :
    for_loop 0 n (fun inner sum => sum + f inner) 0 = ∑ l in Finset.range n, f l := by
  have := for_loop_invariant (fun k (s : ℚ) => s = ∑ l in Finset.range k, f l)
    0 n (fun inner sum => sum + f inner) 0 (Nat.zero_le _) (by simp)
    (fun k s _ _ hs => by
      beta_reduce at hs ⊢
      rw [Finset.sum_range_succ, hs])
  exact this

theorem product_apply (rows cols : Nat) (m b dest : MatrixT) (i j : Nat) :
    MatrixT.product rows cols m b dest i j
      = if i < rows ∧ j < rows then ∑ l in Finset.range cols, m i l * b l j
        else dest i j := by
  unfold MatrixT.product
  have h := fill_apply rows 0 rows
    (fun r c => for_loop 0 cols (fun inner sum => sum + m r inner * b inner c) 0) dest i j
  simp only [Nat.zero_add, Nat.zero_le, true_and, Nat.sub_zero] at h
  rw [h, sum_loop]

theorem invert_eq (rows cols : Nat) (m inv : MatrixT) :
    MatrixT.invert rows cols m inv
      = if (MatrixT.solve rows (cols * 2) (MatrixT.augment rows cols m)).1 = true then
          (true, fun i j =>
            if i < rows ∧ j < cols then
              (MatrixT.solve rows (cols * 2) (MatrixT.augment rows cols m)).2 i (cols + j)
            else inv i j)
        else (false, inv) := by
  unfold MatrixT.invert
  by_cases hs : (MatrixT.solve rows (cols * 2) (MatrixT.augment rows cols m)).1 = true
  · simp only [hs, Bool.not_true, Bool.false_eq_true, if_false, if_true, Prod.mk.injEq,
      true_and]
    funext i j
    have h := fill_apply rows 0 cols
      (fun r c => (MatrixT.solve rows (cols * 2) (MatrixT.augment rows cols m)).2 r (cols + c))
      inv i j
    simp only [Nat.zero_add, Nat.zero_le, true_and, Nat.sub_zero] at h
    exact h
  · rw [if_neg hs]
    simp only [Bool.not_eq_true] at hs
    simp only [hs, Bool.not_false, if_true]

theorem row_related_congr (n : Nat) (a m m1 : MatrixT) (i i1 : Nat)
    (h : ∀ c, c < n * 2 → m1 i c = m i1 c)
    (hr : ∀ j, j < n → ∑ l in Finset.range n, m i1 (n + l) * a l j = m i1 j) :
    ∀ j, j < n → ∑ l in Finset.range n, m1 i (n + l) * a l j = m1 i j := by
  intro j hj
  rw [h j (by omega), ← hr j hj]
  refine Finset.sum_congr rfl (fun l hl => ?_)
  have := Finset.mem_range.mp hl
  rw [h (n + l) (by omega)]

theorem solve_invariant_swap (n : Nat) (a m m1 : MatrixT) (k r0 : Nat) (hk : k < n)
    (hr0 : k ≤ r0) (hr0n : r0 < n)
    (h1 : ∀ i j, i < n → j < n * 2 →
      m1 i j = if i = k then m r0 j else if i = r0 then m k j else m i j)
    (hinv : solve_invariant n a m k) : solve_invariant n a m1 k := by
  refine ⟨?_, ?_, ?_⟩
  · intro i hi
    by_cases hik : i = k
    · exact row_related_congr n a m m1 i r0
        (fun c hc => by rw [h1 i c hi hc, if_pos hik]) (hinv.rows_related r0 hr0n)
    · by_cases hir : i = r0
      · exact row_related_congr n a m m1 i k
          (fun c hc => by rw [h1 i c hi hc, if_neg hik, if_pos hir]) (hinv.rows_related k hk)
      · exact row_related_congr n a m m1 i i
          (fun c hc => by rw [h1 i c hi hc, if_neg hik, if_neg hir]) (hinv.rows_related i hi)
  · intro i hi j hj
    rw [h1 i j hi (by omega)]
    by_cases hik : i = k
    · rw [if_pos hik, hinv.unit_columns r0 hr0n j hj, if_neg (by omega), if_neg (by omega)]
    · rw [if_neg hik]
      by_cases hir : i = r0
      · rw [if_pos hir, hinv.unit_columns k hk j hj, if_neg (by omega), if_neg (by omega)]
      · rw [if_neg hir]
        exact hinv.unit_columns i hi j hj
  · obtain ⟨d, hd, hdet⟩ := hinv.det_related
    have e : MatrixT.to_matrix n m1
        = (MatrixT.to_matrix n m).submatrix (Equiv.swap (⟨k, hk⟩ : Fin n) ⟨r0, hr0n⟩) id := by
      ext i j
      simp only [MatrixT.to_matrix, Matrix.of_apply, Matrix.submatrix_apply, id_eq]
      rw [h1 i.val j.val i.isLt (by have := j.isLt; omega), Equiv.swap_apply_def]
      by_cases hik : i.val = k
      · rw [if_pos hik, if_pos (Fin.ext hik)]
      · rw [if_neg hik, if_neg (fun h => hik (congrArg Fin.val h))]
        by_cases hir : i.val = r0
        · rw [if_pos hir, if_pos (Fin.ext hir)]
        · rw [if_neg hir, if_neg (fun h => hir (congrArg Fin.val h))]
    refine ⟨((Equiv.Perm.sign (Equiv.swap (⟨k, hk⟩ : Fin n) ⟨r0, hr0n⟩) : ℤ) : ℚ) * d, ?_, ?_⟩
    · refine mul_ne_zero ?_ hd
      exact Int.cast_ne_zero.mpr (Units.ne_zero _)
    · rw [e, Matrix.det_permute, hdet, mul_assoc]

theorem solve_invariant_scale (n : Nat) (a m1 m2 : MatrixT) (k : Nat) (s : ℚ) (hk : k < n)
    (hs : s ≠ 0)
    (h2 : ∀ i j, i < n → j < n * 2 → m2 i j = if i = k then m1 i j * s else m1 i j)
    (hinv : solve_invariant n a m1 k) : solve_invariant n a m2 k := by
  refine ⟨?_, ?_, ?_⟩
  · intro i hi
    by_cases hik : i = k
    · intro j hj
      rw [h2 i j hi (by omega), if_pos hik, ← hinv.rows_related i hi j hj, Finset.sum_mul]
      refine Finset.sum_congr rfl (fun l hl => ?_)
      have := Finset.mem_range.mp hl
      rw [h2 i (n + l) hi (by omega), if_pos hik]
      ring
    · exact row_related_congr n a m1 m2 i i
        (fun c hc => by rw [h2 i c hi hc, if_neg hik]) (hinv.rows_related i hi)
  · intro i hi j hj
    rw [h2 i j hi (by omega)]
    by_cases hik : i = k
    · rw [if_pos hik, hinv.unit_columns i hi j hj, if_neg (by omega), zero_mul]
    · rw [if_neg hik]
      exact hinv.unit_columns i hi j hj
  · obtain ⟨d, hd, hdet⟩ := hinv.det_related
    have e : MatrixT.to_matrix n m2
        = (MatrixT.to_matrix n m1).updateRow (⟨k, hk⟩ : Fin n)
            (s • (MatrixT.to_matrix n m1) ⟨k, hk⟩) := by
      ext i j
      rw [Matrix.updateRow_apply]
      simp only [MatrixT.to_matrix, Matrix.of_apply, Pi.smul_apply, smul_eq_mul]
      rw [h2 i.val j.val i.isLt (by have := j.isLt; omega)]
      by_cases hik : i.val = k
      · rw [if_pos hik, if_pos (Fin.ext hik)]
        simp only [hik]
        ring
      · rw [if_neg hik, if_neg (fun h => hik (congrArg Fin.val h))]
    refine ⟨s * d, mul_ne_zero hs hd, ?_⟩
    rw [e, Matrix.det_updateRow_smul, Matrix.updateRow_eq_self, hdet, mul_assoc]

theorem solve_invariant_eliminate (n : Nat) (a m2 m3 : MatrixT) (k : Nat) (hk : k < n)
    (hone : m2 k k = 1)
    (h3 : ∀ i j, i < n → j < n * 2 →
      m3 i j = if i ≠ k then
          (if j = k then 0 else if k < j then m2 i j - m2 k j * m2 i k else m2 i j)
        else m2 i j)
    (hinv : solve_invariant n a m2 k) : solve_invariant n a m3 (k + 1) := by
  have hrow : ∀ i j, i < n → j < n * 2 → i ≠ k → m3 i j = m2 i j - m2 k j * m2 i k := by
    intro i j hi hj hik
    rw [h3 i j hi hj, if_pos hik]
    by_cases hjk : j = k
    · rw [if_pos hjk, hjk, hone]
      ring
    · rw [if_neg hjk]
      by_cases hlt : k < j
      · rw [if_pos hlt]
      · rw [if_neg hlt, hinv.unit_columns k hk j (by omega), if_neg (by omega)]
        ring
  have hpiv : ∀ j, j < n * 2 → m3 k j = m2 k j := by
    intro j hj
    rw [h3 k j hk hj, if_neg (by simp)]
  refine ⟨?_, ?_, ?_⟩
  · intro i hi
    by_cases hik : i = k
    · subst hik
      exact row_related_congr n a m2 m3 i i (fun c hc => hpiv c hc) (hinv.rows_related i hi)
    · intro j hj
      rw [hrow i j hi (by omega) hik, ← hinv.rows_related i hi j hj,
        ← hinv.rows_related k hk j hj, Finset.sum_mul, ← Finset.sum_sub_distrib]
      refine Finset.sum_congr rfl (fun l hl => ?_)
      have := Finset.mem_range.mp hl
      rw [hrow i (n + l) hi (by omega) hik]
      ring
  · intro i hi j hj
    by_cases hik : i = k
    · subst hik
      rw [hpiv j (by omega)]
      by_cases hji : j = i
      · rw [hji, hone, if_pos rfl]
      · rw [hinv.unit_columns i hi j (by omega)]
    · rw [h3 i j hi (by omega), if_pos hik]
      by_cases hjk : j = k
      · rw [if_pos hjk, if_neg (by omega)]
      · rw [if_neg hjk, if_neg (by omega)]
        exact hinv.unit_columns i hi j (by omega)
  · obtain ⟨d, hd, hdet⟩ := hinv.det_related
    refine ⟨d, hd, ?_⟩
    rw [← hdet]
    refine Matrix.det_eq_of_forall_row_eq_smul_add_const
      (fun i : Fin n => if i.val = k then 0 else - m2 i.val k) (⟨k, hk⟩ : Fin n)
      (by simp) (fun i j => ?_)
    simp only [MatrixT.to_matrix, Matrix.of_apply]
    by_cases hik : i.val = k
    · rw [if_pos hik, zero_mul, add_zero, hik]
      exact hpiv j.val (by have := j.isLt; omega)
    · rw [if_neg hik, hrow i.val j.val i.isLt (by have := j.isLt; omega) hik]
      ring

theorem solve_invariant_singular (n : Nat) (a m : MatrixT) (k : Nat) (hk : k < n)
    (hzero : ∀ r, k ≤ r → r < n → m r k = 0)
    (hinv : solve_invariant n a m k) : (MatrixT.to_matrix n a).det = 0 := by
  have hm : (MatrixT.to_matrix n m).det = 0 := by
    refine Matrix.exists_mulVec_eq_zero_iff.mp
      ⟨fun j : Fin n => if j.val < k then - m j.val k else if j.val = k then 1 else 0, ?_, ?_⟩
    · intro h
      have := congrFun h (⟨k, hk⟩ : Fin n)
      simp at this
    · funext i
      simp only [Matrix.mulVec, Matrix.dotProduct, MatrixT.to_matrix, Matrix.of_apply,
        Pi.zero_apply]
      have term : ∀ j : Fin n,
          m i.val j.val * (if j.val < k then - m j.val k else if j.val = k then 1 else 0)
            = (if i = j then (if i.val < k then - m i.val k else 0) else 0)
              + (if (⟨k, hk⟩ : Fin n) = j then m i.val k else 0) := by
        intro j
        have hval : ((⟨k, hk⟩ : Fin n) = j) ↔ k = j.val :=
          ⟨fun h => congrArg Fin.val h, fun h => Fin.ext h⟩
        have hij : (i = j) ↔ i.val = j.val := ⟨fun h => congrArg Fin.val h, fun h => Fin.ext h⟩
        by_cases hjk : j.val < k
        · have e1 : ¬ ((⟨k, hk⟩ : Fin n) = j) := fun h => by have := hval.mp h; omega
          rw [if_pos hjk, hinv.unit_columns i.val i.isLt j.val hjk, if_neg e1, add_zero]
          by_cases h : i.val = j.val
          · rw [if_pos h, if_pos (hij.mpr h), h, if_pos hjk, one_mul]
          · rw [if_neg h, if_neg (fun e => h (hij.mp e)), zero_mul]
        · have e2 : ¬ (i.val < k ∧ i = j) := fun h => hjk (by rw [← hij.mp h.2]; exact h.1)
          have e3 : (if i = j then (if i.val < k then - m i.val k else 0) else 0) = 0 := by
            by_cases h : i = j
            · rw [if_pos h, if_neg (fun e => e2 ⟨e, h⟩)]
            · rw [if_neg h]
          rw [if_neg hjk, e3, zero_add]
          by_cases hje : j.val = k
          · rw [if_pos hje, if_pos (hval.mpr hje.symm), mul_one, hje]
          · rw [if_neg hje, if_neg (fun h => hje (hval.mp h).symm), mul_zero]
      rw [Finset.sum_congr rfl (fun j _ => term j), Finset.sum_add_distrib,
        Finset.sum_ite_eq, Finset.sum_ite_eq, if_pos (Finset.mem_univ _),
        if_pos (Finset.mem_univ _)]
      by_cases hik : i.val < k
      · rw [if_pos hik]
        ring
      · rw [if_neg hik, hzero i.val (by omega) i.isLt]
        ring
  obtain ⟨d, hd, hdet⟩ := hinv.det_related
  rw [hm] at hdet
  rcases mul_eq_zero.mp hdet.symm with h | h
  · exact absurd h hd
  · exact h

theorem solve_from_cons_none (rows cols : Nat) (m : MatrixT) (k : Nat) (rest : List Nat)
    (hp : (MatrixT.find_pivot rows m k).2 = -1) :
    MatrixT.solve_from rows cols (k :: rest) m = (false, m) := by
  simp only [MatrixT.solve_from, hp, if_true]

theorem solve_from_cons_some (rows cols : Nat) (m : MatrixT) (k r0 : Nat) (rest : List Nat)
    (hp : (MatrixT.find_pivot rows m k).2 = (r0 : Int)) :
    MatrixT.solve_from rows cols (k :: rest) m
      = MatrixT.solve_from rows cols rest
          (((if r0 ≠ k then m.swapRow cols r0 k else m).scaleRow cols k
              (1 / (if r0 ≠ k then m.swapRow cols r0 k else m) k k)).eliminate
            rows cols k k) := by
  have hne : ¬ ((r0 : Int) = -1) := by omega
  have hc : ((r0 : Int) ≠ (k : Int)) ↔ r0 ≠ k := by
    constructor
    · intro h e
      exact h (by rw [e])
    · intro h e
      exact h (by exact_mod_cast e)
  simp only [MatrixT.solve_from, hp, if_neg hne, hc, Int.toNat_ofNat]

theorem pivot_swap_apply (cols : Nat) (m : MatrixT) (r0 k i j : Nat) (hj : j < cols) :
    (if r0 ≠ k then m.swapRow cols r0 k else m) i j
      = if i = k then m r0 j else if i = r0 then m k j else m i j := by
  by_cases h : r0 = k
  · rw [if_neg (by simpa using h), h]
    by_cases hik : i = k
    · rw [if_pos hik, hik]
    · rw [if_neg hik, if_neg hik]
  · rw [if_pos h, swapRow_apply, if_pos hj]

theorem eliminate_pivot_apply (rows cols : Nat) (m : MatrixT) (k i j : Nat) (hi : i < rows)
    (hj : j < cols) :
    m.eliminate rows cols k k i j
      = if i ≠ k then
          (if j = k then 0 else if k < j then m i j - m k j * m i k else m i j)
        else m i j := by
  rw [eliminate_apply]
  by_cases hik : i = k
  · have e : ¬ (i ≠ k) := fun h => h hik
    rw [if_neg (fun h => h.2 hik), if_neg e]
  · rw [if_pos ⟨hi, hik⟩, if_pos hik]
    by_cases hjk : j = k
    · rw [if_pos hjk, if_pos hjk]
    · rw [if_neg hjk, if_neg hjk]
      by_cases hlt : k < j
      · rw [if_pos ⟨hlt, hj⟩, if_pos hlt]
      · rw [if_neg (fun h => hlt h.1), if_neg hlt]

theorem solve_invariant_pivot (n : Nat) (a m : MatrixT) (k r0 : Nat) (hk : k < n)
    (hr0 : k ≤ r0) (hr0n : r0 < n) (hx : m r0 k ≠ 0) (hinv : solve_invariant n a m k) :
    solve_invariant n a
      (((if r0 ≠ k then m.swapRow (n * 2) r0 k else m).scaleRow (n * 2) k
          (1 / (if r0 ≠ k then m.swapRow (n * 2) r0 k else m) k k)).eliminate
        n (n * 2) k k) (k + 1) := by
  have hkk : (if r0 ≠ k then m.swapRow (n * 2) r0 k else m) k k = m r0 k := by
    rw [pivot_swap_apply (n * 2) m r0 k k k (by omega), if_pos rfl]
  have h1 := solve_invariant_swap n a m (if r0 ≠ k then m.swapRow (n * 2) r0 k else m)
    k r0 hk hr0 hr0n (fun i j _ hj => pivot_swap_apply (n * 2) m r0 k i j hj) hinv
  rw [hkk]
  have h2 := solve_invariant_scale n a (if r0 ≠ k then m.swapRow (n * 2) r0 k else m)
    ((if r0 ≠ k then m.swapRow (n * 2) r0 k else m).scaleRow (n * 2) k (1 / m r0 k))
    k (1 / m r0 k) hk (one_div_ne_zero hx)
    (fun i j _ hj => by
      rw [scaleRow_apply]
      by_cases hik : i = k
      · rw [if_pos ⟨hik, hj⟩, if_pos hik]
      · rw [if_neg (fun h => hik h.1), if_neg hik]) h1
  refine solve_invariant_eliminate n a _ _ k hk ?_
    (fun i j hi hj => eliminate_pivot_apply n (n * 2) _ k i j hi hj) h2
  rw [scaleRow_apply, if_pos ⟨rfl, by omega⟩, hkk]
  exact mul_one_div_cancel hx

theorem solve_invariant_augment (n : Nat) (a : MatrixT) :
    solve_invariant n a (MatrixT.augment n n a) 0 := by
  have hl : ∀ i j, i < n → j < n → MatrixT.augment n n a i j = a i j := by
    intro i j hi hj
    rw [augment_apply, if_pos hi, if_pos hj]
  have hr : ∀ i l, i < n → l < n →
      MatrixT.augment n n a i (n + l) = if l = i then 1 else 0 := by
    intro i l hi hl
    have e : ¬ (n + l < n) := by omega
    rw [augment_apply, if_pos hi, if_neg e, if_pos (by omega), Nat.add_sub_cancel_left]
  refine ⟨?_, ?_, ?_⟩
  · intro i hi j hj
    rw [hl i j hi hj]
    have e : ∀ l ∈ Finset.range n,
        MatrixT.augment n n a i (n + l) * a l j = if i = l then a l j else 0 := by
      intro l hmem
      rw [hr i l hi (Finset.mem_range.mp hmem)]
      by_cases h : l = i
      · rw [if_pos h, if_pos h.symm, one_mul]
      · rw [if_neg h, if_neg (fun e => h e.symm), zero_mul]
    rw [Finset.sum_congr rfl e, Finset.sum_ite_eq, if_pos (Finset.mem_range.mpr hi)]
  · intro i _ j hj
    omega
  · refine ⟨1, one_ne_zero, ?_⟩
    rw [one_mul]
    congr 1
    ext i j
    simp only [MatrixT.to_matrix, Matrix.of_apply]
    exact hl i.val j.val i.isLt j.isLt

theorem solve_from_spec (n : Nat) (a : MatrixT) :
    ∀ (j k : Nat) (m : MatrixT), k + j = n → solve_invariant n a m k →
      ((MatrixT.solve_from n (n * 2) (List.range' k j) m).1 = true →
          solve_invariant n a (MatrixT.solve_from n (n * 2) (List.range' k j) m).2 n)
        ∧ ((MatrixT.solve_from n (n * 2) (List.range' k j) m).1 = false →
          (MatrixT.to_matrix n a).det = 0)
  | 0, k, m, hk, hinv => by
    have e : k = n := by omega
    rw [List.range'_zero, MatrixT.solve_from]
    exact ⟨fun _ => e ▸ hinv, fun h => by simp at h⟩
  | j + 1, k, m, hk, hinv => by
    rw [List.range'_succ]
    rcases find_pivot_spec n m k (by omega) with ⟨hp, hzero⟩ | ⟨r0, hr0, hr0n, hp, hx⟩
    · rw [solve_from_cons_none n (n * 2) m k _ hp]
      exact ⟨fun h => by simp at h,
        fun _ => solve_invariant_singular n a m k (by omega) hzero hinv⟩
    · rw [solve_from_cons_some n (n * 2) m k r0 _ hp]
      exact solve_from_spec n a j (k + 1) _ (by omega)
        (solve_invariant_pivot n a m k r0 (by omega) hr0 hr0n hx hinv)

theorem solve_augment_spec (n : Nat) (a : MatrixT) :
    ((MatrixT.solve n (n * 2) (MatrixT.augment n n a)).1 = true →
        solve_invariant n a (MatrixT.solve n (n * 2) (MatrixT.augment n n a)).2 n)
      ∧ ((MatrixT.solve n (n * 2) (MatrixT.augment n n a)).1 = false →
        (MatrixT.to_matrix n a).det = 0) := by
  unfold MatrixT.solve
  rw [List.range_eq_range']
  exact solve_from_spec n a n 0 _ (by omega) (solve_invariant_augment n a)

theorem solve_invariant_inverse (n : Nat) (a m : MatrixT) (hinv : solve_invariant n a m n) :
    MatrixT.to_matrix n (fun i j => m i (n + j)) * MatrixT.to_matrix n a = 1 := by
  ext i j
  rw [Matrix.mul_apply, Matrix.one_apply]
  simp only [MatrixT.to_matrix, Matrix.of_apply]
  rw [← Finset.sum_range (fun l => m i.val (n + l) * a l j.val),
    hinv.rows_related i.val i.isLt j.val j.isLt, hinv.unit_columns i.val i.isLt j.val j.isLt]
  by_cases h : i = j
  · rw [if_pos h, if_pos (congrArg Fin.val h)]
  · rw [if_neg h, if_neg (fun e => h (Fin.ext e))]

theorem product_to_matrix (n : Nat) (x y dest : MatrixT) (i j : Nat) (hi : i < n)
    (hj : j < n) :
    MatrixT.product n n x y dest i j
      = (MatrixT.to_matrix n x * MatrixT.to_matrix n y) ⟨i, hi⟩ ⟨j, hj⟩ := by
  rw [product_apply, if_pos ⟨hi, hj⟩, Matrix.mul_apply]
  simp only [MatrixT.to_matrix, Matrix.of_apply]
  exact Finset.sum_range (fun l => x i l * y l j)

theorem to_matrix_congr (n : Nat) (x y : MatrixT) (h : ∀ i j, i < n → j < n → x i j = y i j) :
    MatrixT.to_matrix n x = MatrixT.to_matrix n y := by
  ext i j
  simp only [MatrixT.to_matrix, Matrix.of_apply]
  exact h i.val j.val i.isLt j.isLt

/-! # The claims -/

/-! ## C1: the binary round trip -/

/-- C1: Binary round trip. For every registry state `S` whose fields are 32-bit ints, floats,
enums and strings shorter than `2^31`, and every registry `T` of the same shape (whatever its
field values), running the Binary Reader over the bytes the Binary Writer produced from `S`
turns `T` into `S`: every field equals its value in `S`. The whole file is consumed and the
stream is still good. -/
theorem binary_round_trip (S T : Registry) (hS : storable_all S = true)
    (hT : shape_of T = shape_of S) :
    webconfig_pup_all pup_from_binary_file T
        (open_istream (some (webconfig_pup_all pup_to_binary_file S []).2))
      = (S, { data := [], good := true, thrown := false }) := by
  have h := pup_fields_from_binary_file_inverse S T [] hS hT
  rw [List.append_nil] at h
  exact h

theorem binary_round_trip_witness :
    webconfig_pup_all pup_from_binary_file camera_other
        (open_istream (some (webconfig_pup_all pup_to_binary_file camera_saved []).2))
      = (camera_saved, { data := [], good := true, thrown := false }) :=
  binary_round_trip camera_saved camera_other (by decide) (by rfl)

/-! ## C2: an update changes the field at its path and no other -/

/-- C2: For every registry whose fully-qualified field paths are pairwise distinct, every
path `P` of a scalar or enum field in it and every value string `V`, running the Name/Value
Applier with target `P` and value `V` over the whole registry ends with `found == true` and
changes no field other than the one at `P`: the shape is kept, exactly one field has path
`P`, and the new field list is the old one in which a field whose path is `P` holds the
value decoded from `V` and every other field is as it was. -/
theorem applier_updates_only_target (reg : Registry) (P V : Str)
    (hd : ((fields_of [] reg).map Prod.fst).Nodup)
    (hP : P ∈ (fields_of [] reg).map Prod.fst) :
    (webconfig_pup_all (pup_from_name_value P V) reg .init).2.found = true
      ∧ shape_of (webconfig_pup_all (pup_from_name_value P V) reg .init).1 = shape_of reg
      ∧ (((fields_of [] reg).map Prod.fst).filter (fun q => decide (q = P))).length = 1
      ∧ fields_of [] (webconfig_pup_all (pup_from_name_value P V) reg .init).1
          = (fields_of [] reg).map (fun f => if f.1 = P then (f.1, assigned V f.2) else f) := by
  obtain ⟨h1, h2, h3⟩ := applier_fields_effect P V reg .init
  refine ⟨?_, h2, nodup_filter_eq_length hd hP, h3⟩
  unfold webconfig_pup_all
  rw [h1]
  obtain ⟨f, hf, hfP⟩ := List.mem_map.mp hP
  simp only [name_value_state.init, Bool.false_or, List.any_eq_true, decide_eq_true_eq]
  exact ⟨f, hf, hfP⟩

theorem applier_updates_only_target_witness :
    (webconfig_pup_all (pup_from_name_value "camera.y".data "5".data) camera_saved .init).2.found
        = true
      ∧ shape_of (webconfig_pup_all (pup_from_name_value "camera.y".data "5".data)
          camera_saved .init).1 = shape_of camera_saved
      ∧ (((fields_of [] camera_saved).map Prod.fst).filter
            (fun q => decide (q = "camera.y".data))).length = 1
      ∧ fields_of [] (webconfig_pup_all (pup_from_name_value "camera.y".data "5".data)
            camera_saved .init).1
          = (fields_of [] camera_saved).map
              (fun f => if f.1 = "camera.y".data then (f.1, assigned "5".data f.2) else f) :=
  applier_updates_only_target camera_saved "camera.y".data "5".data (by decide) (by decide)

/-! ## C3: an update at an absent path -/

/-- C3: For every registry and every target string `P` that is not the fully-qualified path
of any scalar or enum field (a `P` that names a composite object included, since an object is
not a field), running the Name/Value Applier with `(P, V)` for any `V` ends with
`found == false` and leaves the registry, hence every field, unchanged. -/
theorem applier_absent_path (reg : Registry) (P V : Str)
    (hP : ∀ f ∈ fields_of [] reg, f.1 ≠ P) :
    webconfig_pup_all (pup_from_name_value P V) reg .init
      = (reg, { found := false, address := [], old_addresses := [] }) :=
  applier_fields_absent P V reg .init hP

theorem applier_absent_path_witness :
    webconfig_pup_all (pup_from_name_value "camera".data "9".data) camera_saved .init
      = (camera_saved, { found := false, address := [], old_addresses := [] }) :=
  applier_absent_path camera_saved "camera".data "9".data (by decide)

/-! ## C4: an update is persisted -/

/-- C4: After the editor handles an update request `GET /<form>?P=V` that reaches the
Applier (a query of two characters or more whose first `=` follows `P`), the persistence file
holds exactly the Binary Writer encoding of the registry state after the update was applied,
that state being the registry the process is left with; hence restoring from that file into
any registry of the same shape reproduces the updated state. The registry holds
representable values (32-bit numbers, strings shorter than `2^31`) and the value text is
shorter than `2^31`. -/
theorem editor_update_persists (e : webconfig_editor) (client : http_served_client) (w : World)
    (P V : Str) (hpath : client.path = '/' :: e.form_name ++ '?' :: (P ++ '=' :: V))
    (hP : '=' ∉ P) (hlen : 2 ≤ (P ++ '=' :: V).length)
    (hs : storable_all w.registry = true) (hV : V.length < 2147483648) :
    (e.respond client w).2.2.registry
        = (webconfig_pup_all (pup_from_name_value P V) w.registry .init).1
      ∧ (e.respond client w).2.2.config_file
        = some (webconfig_pup_all pup_to_binary_file (e.respond client w).2.2.registry []).2
      ∧ ∀ T : Registry, shape_of T = shape_of (e.respond client w).2.2.registry →
          (webconfig_restore (World.mk T (e.respond client w).2.2.config_file)).registry
            = (e.respond client w).2.2.registry := by
  have hs1 := applier_fields_storable P V hV w.registry .init hs
  rw [respond_update_world e client w P V hpath hP hlen (storable_all_typed _ hs1)]
  refine ⟨rfl, rfl, ?_⟩
  intro T hT
  have h := pup_fields_from_binary_file_inverse _ T [] hs1 hT
  rw [List.append_nil] at h
  simp only [webconfig_restore, open_istream]
  exact congrArg Prod.fst h

theorem editor_update_persists_witness :
    ((conf_editor.respond (client_asking "/conf?camera.x=3.5".data)
          (World.mk camera none)).2.2.registry
        = (webconfig_pup_all (pup_from_name_value "camera.x".data "3.5".data)
            (World.mk camera none).registry .init).1
      ∧ (conf_editor.respond (client_asking "/conf?camera.x=3.5".data)
          (World.mk camera none)).2.2.config_file
        = some (webconfig_pup_all pup_to_binary_file
            (conf_editor.respond (client_asking "/conf?camera.x=3.5".data)
              (World.mk camera none)).2.2.registry []).2
      ∧ ∀ T : Registry,
          shape_of T = shape_of (conf_editor.respond (client_asking "/conf?camera.x=3.5".data)
            (World.mk camera none)).2.2.registry →
          (webconfig_restore (World.mk T
              (conf_editor.respond (client_asking "/conf?camera.x=3.5".data)
                (World.mk camera none)).2.2.config_file)).registry
            = (conf_editor.respond (client_asking "/conf?camera.x=3.5".data)
                (World.mk camera none)).2.2.registry)
      ∧ "<INPUT type=\"text\" name=\"camera.x\" value=\"3.500000\" />".data
          <:+: (conf_editor.respond (client_asking "/conf".data)
                  (webconfig_restore (World.mk camera
                    (conf_editor.respond (client_asking "/conf?camera.x=3.5".data)
                      (World.mk camera none)).2.2.config_file))).2.1.wire :=
  ⟨editor_update_persists conf_editor (client_asking "/conf?camera.x=3.5".data)
      (World.mk camera none) "camera.x".data "3.5".data
      rfl (by decide) (by decide) (by decide) (by decide),
    by decide!⟩

/-! ## C5: the banner for a missing field -/

/-- C5 fails as stated for the update request with empty path and empty value: the query `=`
has fewer than two characters, so nothing is applied and the full page comes back with no
banner, although the empty path matches no registered field. -/
theorem missing_field_banner_counterexample :
    (∀ f ∈ fields_of [] camera_saved, f.1 ≠ [])
      ∧ ¬ ("ERROR! Missing field \x27\x27!".data <:+:
            (conf_editor.respond (client_asking "/conf?=".data)
              { registry := camera_saved, config_file := none }).2.1.wire) := by
  decide!

/-- C5 (amended): For every update request `GET /<form>?P=V` whose query `P=V` has at least
two characters (`P` being the text before the first `=`) and whose path `P` matches no
registered field, the editor sends one response whose body contains the literal text
`ERROR! Missing field 'P'!`, and every registered field keeps the value it had before the
request (the registry holds values its C++ types can hold). -/
theorem missing_field_banner (e : webconfig_editor) (client : http_served_client) (w : World)
    (P V : Str) (hpath : client.path = '/' :: e.form_name ++ '?' :: (P ++ '=' :: V))
    (hP : '=' ∉ P) (hlen : 2 ≤ (P ++ '=' :: V).length)
    (habsent : ∀ f ∈ fields_of [] w.registry, f.1 ≠ P)
    (htyped : typed_all w.registry = true) :
    ∃ body : Str,
      (e.respond client w).2.1 = client.send "text/html".data body
        ∧ ("ERROR! Missing field \x27".data ++ P ++ "\x27!".data) <:+: body
        ∧ (e.respond client w).2.2.registry = w.registry := by
  rw [respond_missing_field e client w P V hpath hP hlen habsent, webconfig_save_eq w htyped]
  refine ⟨_, rfl, ?_, rfl⟩
  refine ⟨e.page_start ++ "<P>".data, "\n".data, ?_⟩
  simp

theorem missing_field_banner_witness :
    ∃ body : Str,
      (conf_editor.respond (client_asking "/conf?camera.z=9".data)
          { registry := camera_saved, config_file := none }).2.1
        = (client_asking "/conf?camera.z=9".data).send "text/html".data body
        ∧ ("ERROR! Missing field \x27".data ++ "camera.z".data ++ "\x27!".data) <:+: body
        ∧ (conf_editor.respond (client_asking "/conf?camera.z=9".data)
            { registry := camera_saved, config_file := none }).2.2.registry = camera_saved :=
  missing_field_banner conf_editor (client_asking "/conf?camera.z=9".data)
    { registry := camera_saved, config_file := none } "camera.z".data "9".data
    rfl (by decide) (by decide) (by decide) (by decide)

/-! ## C6: the page for a missing field -/

/-- C6 fails as stated: for `GET /conf?camera.z=9` the response is not the page header, the
banner, the re-rendered form and the page footer; it is the page header and the banner
alone. -/
theorem missing_field_page_counterexample :
    (conf_editor.respond (client_asking "/conf?camera.z=9".data)
        { registry := camera_saved, config_file := none }).2.1
      ≠ (client_asking "/conf?camera.z=9".data).send "text/html".data
          ((webconfig_pup_all (pup_to_HTML_form conf_editor.form_name) camera_saved
              (.init (conf_editor.page_start
                ++ "<P>ERROR! Missing field \x27camera.z\x27!\n".data))).2.html
            ++ conf_editor.page_end)
      ∧ (conf_editor.respond (client_asking "/conf?camera.z=9".data)
          { registry := camera_saved, config_file := none }).2.1
        = (client_asking "/conf?camera.z=9".data).send "text/html".data
            (conf_editor.page_start ++ "<P>ERROR! Missing field \x27camera.z\x27!\n".data) := by
  decide!

/-- C6 (amended): For every update request `GET /<form>?P=V` whose query has at least two
characters (`P` being the text before the first `=`) and whose path `P` matches no registered
field, the editor answers, and the response body is the page header followed by the banner
`<P>ERROR! Missing field 'P'!` and nothing else: no form is rendered and no page footer is
sent. -/
theorem missing_field_page (e : webconfig_editor) (client : http_served_client) (w : World)
    (P V : Str) (hpath : client.path = '/' :: e.form_name ++ '?' :: (P ++ '=' :: V))
    (hP : '=' ∉ P) (hlen : 2 ≤ (P ++ '=' :: V).length)
    (habsent : ∀ f ∈ fields_of [] w.registry, f.1 ≠ P) :
    (e.respond client w).1 = true
      ∧ (e.respond client w).2.1
        = client.send "text/html".data
            (e.page_start ++ "<P>ERROR! Missing field \x27".data ++ P ++ "\x27!\n".data) := by
  rw [respond_missing_field e client w P V hpath hP hlen habsent]
  simp

theorem missing_field_page_witness :
    (conf_editor.respond (client_asking "/conf?camera.z=9".data)
        { registry := camera_saved, config_file := none }).1 = true
      ∧ (conf_editor.respond (client_asking "/conf?camera.z=9".data)
          { registry := camera_saved, config_file := none }).2.1
        = (client_asking "/conf?camera.z=9".data).send "text/html".data
            (conf_editor.page_start ++ "<P>ERROR! Missing field \x27".data
              ++ "camera.z".data ++ "\x27!\n".data) :=
  missing_field_page conf_editor (client_asking "/conf?camera.z=9".data)
    { registry := camera_saved, config_file := none } "camera.z".data "9".data
    rfl (by decide) (by decide) (by decide)

/-! ## C7: the editing page -/

/-- The specification's end-to-end example: for the object `camera` with `x: float=1.0`,
`y: int=2`, `label: string="home"`, the response to `GET /conf` (and to `GET /`) is this
page, with three text inputs named `camera.x`, `camera.y`, `camera.label` holding
`1.000000`, `2`, `home`. -/
theorem camera_page :
    (conf_editor.respond (client_asking "/conf".data) (World.mk camera none)).2.1.wire
      = ("HTTP/1.1 200 OK\r\nContent-Length: 833\r\nConnection: close\r\n"
        ++ "Content-Type: text/html\r\n\r\n"
        ++ "<HTML><TITLE>Edit Configuration</TITLE> <BODY> <H1>Configuration Editor</H1>\n"
        ++ "<FORM ACTION=\"/conf\"><INPUT type=\"submit\" value=\"Refresh\" /></FORM>\n\n"
        ++ "Enter new values and hit enter or Submit:<br>\n"
        ++ "<DIV STYLE=\"background-color:#f0f0f9\">\n\t<B>camera</B> \x7b"
        ++ "<DIV STYLE=\"margin-left:1em; padding-left:1em;\">\n"
        ++ "<DIV STYLE=\"background-color:#d9d0d0\">\n\t<FORM ACTION=\"/conf\">x: "
        ++ "<INPUT type=\"text\" name=\"camera.x\" value=\"1.000000\" />"
        ++ "<INPUT type=\"submit\" value=\"Go!\"/></FORM></DIV>\n\n"
        ++ "<DIV STYLE=\"background-color:#d0d0d9\">\n\t<FORM ACTION=\"/conf\">y: "
        ++ "<INPUT type=\"text\" name=\"camera.y\" value=\"2\" />"
        ++ "<INPUT type=\"submit\" value=\"Go!\"/></FORM></DIV>\n\n"
        ++ "<DIV STYLE=\"background-color:#d9d0d0\">\n\t<FORM ACTION=\"/conf\">label: "
        ++ "<INPUT type=\"text\" name=\"camera.label\" value=\"home\" />"
        ++ "<INPUT type=\"submit\" value=\"Go!\"/></FORM></DIV>\n\n"
        ++ "</DIV>\x7d<br>\n\n</DIV><br></BODY> </HTML>\n").data
      ∧ (conf_editor.respond (client_asking "/".data) (World.mk camera none)).2.1.wire
        = (conf_editor.respond (client_asking "/conf".data) (World.mk camera none)).2.1.wire := by
  decide!

/-- The page for `GET /` or `GET /<form>` when the registry holds one object `o` with an int
field `f = n` and a string field `g = s`, the string free of newlines and of NUL characters:
`page_start`, the form with its two text inputs, `page_end`. -/
theorem int_string_object_page (e : webconfig_editor) (client : http_served_client) (w : World)
    (o f g s : Str) (n : Int)
    (hreg : w.registry = [.object o [.pint f n, .pstring g s]])
    (hpath : client.path = ['/'] ∨ client.path = '/' :: e.form_name)
    (hnl : '\n' ∉ s) (hnul : Char.ofNat 0 ∉ s) :
    (e.respond client w).2.1
      = client.send "text/html".data
          (e.page_start
            ++ ("<DIV STYLE=\"background-color:#f0f0f9\">\n\t<B>".data ++ o ++ "</B> \x7b".data
              ++ "<DIV STYLE=\"margin-left:1em; padding-left:1em;\">\n".data
              ++ "<DIV STYLE=\"background-color:#d9d0d0\">\n\t<FORM ACTION=\"/".data
              ++ e.form_name ++ "\">".data ++ f ++ ": <INPUT type=\"text\" name=\"".data
              ++ (o ++ ['.'] ++ f) ++ "\" value=\"".data ++ itos n ++ "\" />".data ++ endform
              ++ "<DIV STYLE=\"background-color:#d0d0d9\">\n\t<FORM ACTION=\"/".data
              ++ e.form_name ++ "\">".data ++ g ++ ": <INPUT type=\"text\" name=\"".data
              ++ (o ++ ['.'] ++ g) ++ "\" value=\"".data ++ escape_HTML s ++ "\" />".data
              ++ endform ++ "</DIV>\x7d<br>\n\n</DIV><br>".data)
            ++ e.page_end) := by
  rw [respond_initial e client w hpath, hreg, rendered_int_string_object _ o f g s n hnl hnul]

/-- C7 at a string value that holds a NUL character: for the object `o` with `f = 1` and
`g = "a\0b"` the page returned for `GET /conf` has the text input named `o.g` with the value
`a`, the escaped value cut at the NUL by `escape_HTML(value).c_str()`; no input of the page
carries the whole HTML-escaped value. -/
theorem string_input_cut_at_nul :
    escape_HTML ['a', Char.ofNat 0, 'b'] = ['a', Char.ofNat 0, 'b']
      ∧ count_newlines ['a', Char.ofNat 0, 'b'] = 0
      ∧ "<INPUT type=\"text\" name=\"o.g\" value=\"a\" />".data
          <:+: (conf_editor.respond (client_asking "/conf".data)
                  (World.mk nul_registry none)).2.1.wire
      ∧ ¬ ("<INPUT type=\"text\" name=\"o.g\" value=\"".data ++ ['a', Char.ofNat 0, 'b']
            ++ "\" />".data)
          <:+: (conf_editor.respond (client_asking "/conf".data)
                  (World.mk nul_registry none)).2.1.wire := by
  decide!

/-! ## C8: which paths the editor claims -/

/-- C8: The Config Editor's `respond` returns true, having sent exactly one response, if and
only if the request path equals `/`, equals `/` + form_name, or begins with
`/` + form_name + `?`; for every other path it returns false, sends nothing, changes no field
and writes no file. For the two exact paths the body is `page_start`, then the rendered form
of the whole registry, then `page_end`. -/
theorem respond_routes (e : webconfig_editor) (client : http_served_client) (w : World) :
    ((e.respond client w).1 = true
        ↔ (client.path = ['/'] ∨ client.path = '/' :: e.form_name
            ∨ ('/' :: e.form_name ++ ['?']) <+: client.path))
      ∧ ((e.respond client w).1 = true →
          ∃ body : Str, (e.respond client w).2.1 = client.send "text/html".data body)
      ∧ ((e.respond client w).1 = false →
          (e.respond client w).2.1 = client ∧ (e.respond client w).2.2 = w)
      ∧ ((client.path = ['/'] ∨ client.path = '/' :: e.form_name) →
          (e.respond client w).2.1
            = client.send "text/html".data
                (e.page_start
                  ++ (webconfig_pup_all (pup_to_HTML_form e.form_name) w.registry
                        (.init [])).2.html
                  ++ e.page_end)) := by
  have hpre := take_eq_iff_prefix ('/' :: e.form_name ++ ['?']) client.path
    (2 + e.form_name.length) (by simp; omega)
  refine ⟨?_, ?_, ?_, ?_⟩
  · rw [respond_fst, Bool.or_eq_true, decide_eq_true_eq, decide_eq_true_eq, hpre, or_assoc]
  · intro _
    by_cases h2 : client.path.take (2 + e.form_name.length) = '/' :: e.form_name ++ ['?']
    · obtain ⟨q, hq⟩ := hpre.mp h2
      have hpath : client.path = '/' :: e.form_name ++ '?' :: q := by
        rw [← hq]; simp
      rw [respond_coming_back e client w q hpath]
      exact ⟨_, rfl⟩
    · by_cases h1 : client.path = ['/'] ∨ client.path = '/' :: e.form_name
      · rw [respond_initial e client w h1]
        exact ⟨_, rfl⟩
      · rename_i ht
        rw [respond_other e client w h1 h2] at ht
        cases ht
  · intro hf
    rw [respond_fst, Bool.or_eq_false_iff, decide_eq_false_iff_not, decide_eq_false_iff_not] at hf
    rw [respond_other e client w hf.1 hf.2]
    exact ⟨rfl, rfl⟩
  · intro h1
    rw [respond_initial e client w h1]

theorem respond_routes_witness :
    ((conf_editor.respond (client_asking "/conf".data) (World.mk camera_saved none)).1 = true
        ↔ ((client_asking "/conf".data).path = ['/']
            ∨ (client_asking "/conf".data).path = '/' :: conf_editor.form_name
            ∨ ('/' :: conf_editor.form_name ++ ['?']) <+: (client_asking "/conf".data).path))
      ∧ ((conf_editor.respond (client_asking "/conf".data) (World.mk camera_saved none)).1
            = true →
          ∃ body : Str,
            (conf_editor.respond (client_asking "/conf".data) (World.mk camera_saved none)).2.1
              = (client_asking "/conf".data).send "text/html".data body)
      ∧ ((conf_editor.respond (client_asking "/conf".data) (World.mk camera_saved none)).1
            = false →
          (conf_editor.respond (client_asking "/conf".data) (World.mk camera_saved none)).2.1
              = client_asking "/conf".data
            ∧ (conf_editor.respond (client_asking "/conf".data)
                (World.mk camera_saved none)).2.2 = World.mk camera_saved none)
      ∧ (((client_asking "/conf".data).path = ['/']
            ∨ (client_asking "/conf".data).path = '/' :: conf_editor.form_name) →
          (conf_editor.respond (client_asking "/conf".data) (World.mk camera_saved none)).2.1
            = (client_asking "/conf".data).send "text/html".data
                (conf_editor.page_start
                  ++ (webconfig_pup_all (pup_to_HTML_form conf_editor.form_name)
                        (World.mk camera_saved none).registry (.init [])).2.html
                  ++ conf_editor.page_end)) :=
  respond_routes conf_editor (client_asking "/conf".data) (World.mk camera_saved none)

/-! ## C9: the query is split at the first `=` only -/

/-- C9: For every query string `q` of length at least 2 that contains `=`, the editor splits
`q` at the first `=` only: it runs the Applier once, its target path being the text before
that `=` and its raw value the entire remainder (further `=` or `&`-separated pairs
included), saves, and reports whether that one path was found. -/
theorem query_split_first_equals (e : webconfig_editor) (html q : Str) (w : World)
    (hlen : 2 ≤ q.length) (heq : '=' ∈ q) :
    e.apply_parameters html q w
      = if (webconfig_pup_all
              (pup_from_name_value (q.takeWhile (fun c => c ≠ '='))
                (q.dropWhile (fun c => c ≠ '=')).tail) w.registry .init).2.found
        then (true, html, webconfig_save { w with
          registry := (webconfig_pup_all
              (pup_from_name_value (q.takeWhile (fun c => c ≠ '='))
                (q.dropWhile (fun c => c ≠ '=')).tail) w.registry .init).1 })
        else (false,
          html ++ ("<P>ERROR! Missing field \x27".data ++ q.takeWhile (fun c => c ≠ '=')
            ++ "\x27!\n".data),
          webconfig_save { w with
            registry := (webconfig_pup_all
              (pup_from_name_value (q.takeWhile (fun c => c ≠ '='))
                (q.dropWhile (fun c => c ≠ '=')).tail) w.registry .init).1 }) := by
  obtain ⟨h1, h2⟩ := split_at_first_eq q heq
  have h := apply_parameters_eq e html (q.takeWhile (fun c => c ≠ '='))
    (q.dropWhile (fun c => c ≠ '=')).tail w h2 (h1 ▸ hlen)
  rw [← h1] at h
  exact h

theorem query_split_first_equals_witness :
    (conf_editor.apply_parameters [] "a=1&b=2".data (World.mk ab_registry none)
      = if (webconfig_pup_all
              (pup_from_name_value ("a=1&b=2".data.takeWhile (fun c => c ≠ '='))
                ("a=1&b=2".data.dropWhile (fun c => c ≠ '=')).tail)
              (World.mk ab_registry none).registry .init).2.found
        then (true, [], webconfig_save { World.mk ab_registry none with
          registry := (webconfig_pup_all
              (pup_from_name_value ("a=1&b=2".data.takeWhile (fun c => c ≠ '='))
                ("a=1&b=2".data.dropWhile (fun c => c ≠ '=')).tail)
              (World.mk ab_registry none).registry .init).1 })
        else (false,
          [] ++ ("<P>ERROR! Missing field \x27".data
            ++ "a=1&b=2".data.takeWhile (fun c => c ≠ '=') ++ "\x27!\n".data),
          webconfig_save { World.mk ab_registry none with
            registry := (webconfig_pup_all
              (pup_from_name_value ("a=1&b=2".data.takeWhile (fun c => c ≠ '='))
                ("a=1&b=2".data.dropWhile (fun c => c ≠ '=')).tail)
              (World.mk ab_registry none).registry .init).1 }))
      ∧ "a=1&b=2".data.takeWhile (fun c => c ≠ '=') = "a".data
      ∧ ("a=1&b=2".data.dropWhile (fun c => c ≠ '=')).tail = "1&b=2".data
      ∧ fields_of [] (conf_editor.apply_parameters [] "a=1&b=2".data
          (World.mk ab_registry none)).2.2.registry
        = [("a".data, .vint 1), ("b".data, .vint 0)] :=
  ⟨query_split_first_equals conf_editor [] "a=1&b=2".data (World.mk ab_registry none)
      (by decide) (by decide),
    by decide, by decide, by decide⟩

/-! ## C10: the value is decoded by the method of the field kind -/

/-- C10 fails as stated for an int field: after `GET /conf?camera.y=%35` the int field
`camera.y` holds 0, the numeric parse of the raw text `%35`, and not 5, the numeric parse of
the percent-decoded text. -/
theorem int_update_decoded_counterexample :
    fields_of [] (conf_editor.respond (client_asking "/conf?camera.y=%35".data)
        (World.mk camera_saved none)).2.2.registry
      = [("camera.x".data, .vfloat 1065353216), ("camera.y".data, .vint 0),
         ("camera.label".data, .vstring "home".data), ("camera.mode".data, .venum 1)]
      ∧ atoi (c_str (unescape_URL "%35".data)) = 5 := by
  decide

/-- C10 (amended): On an update request `P=V` (a query of two characters or more, `P` the
text before the first `=`) the value is decoded by the method of the field found at `P`:
a string field at `P` receives the percent-decoded value (with `+` as space), while an int
field at `P` receives the numeric parse of the raw, undecoded value (and so do a float and
an enum field); every field whose path is not `P` keeps its value. -/
theorem update_value_decoding (e : webconfig_editor) (client : http_served_client) (w : World)
    (P V : Str) (hpath : client.path = '/' :: e.form_name ++ '?' :: (P ++ '=' :: V))
    (hP : '=' ∉ P) (hlen : 2 ≤ (P ++ '=' :: V).length)
    (htyped : typed_all w.registry = true) :
    fields_of [] (e.respond client w).2.2.registry
        = (fields_of [] w.registry).map
            (fun f => if f.1 = P then (f.1, assigned V f.2) else f)
      ∧ (∀ s : Str, assigned V (.vstring s) = .vstring (unescape_URL V))
      ∧ (∀ n : Int, assigned V (.vint n) = .vint (atoi (c_str V))) := by
  rw [respond_update_world e client w P V hpath hP hlen
    (applier_fields_typed P V w.registry .init htyped)]
  exact ⟨(applier_fields_effect P V w.registry .init).2.2, fun _ => rfl, fun _ => rfl⟩

theorem update_value_decoding_witness :
    (fields_of [] (conf_editor.respond (client_asking "/conf?camera.label=a+b%21".data)
          (World.mk camera_saved none)).2.2.registry
        = (fields_of [] (World.mk camera_saved none).registry).map
            (fun f => if f.1 = "camera.label".data
              then (f.1, assigned "a+b%21".data f.2) else f)
      ∧ (∀ s : Str, assigned "a+b%21".data (.vstring s)
          = .vstring (unescape_URL "a+b%21".data))
      ∧ (∀ n : Int, assigned "a+b%21".data (.vint n)
          = .vint (atoi (c_str "a+b%21".data))))
      ∧ unescape_URL "a+b%21".data = "a b!".data :=
  ⟨update_value_decoding conf_editor (client_asking "/conf?camera.label=a+b%21".data)
      (World.mk camera_saved none) "camera.label".data "a+b%21".data
      rfl (by decide) (by decide) (by decide),
    by decide⟩

/-! ## C11: the URL decoder on well-formed input -/

/-- C11: `unescape_URL` equals the reference URL-value decoder on well-formed input: for
every string in which each `%` is followed by two hexadecimal digits, the output is the one
obtained by replacing each `+` by a space, each `%XY` by the single byte with value `16*X+Y`,
and copying every other character; in particular, for every byte string `b`, decoding the
string that writes each byte of `b` as `%` plus its two hex digits returns `b`. -/
theorem unescape_URL_well_formed (s b : Str) (hs : percent_well_formed s)
    (hb : ∀ c ∈ b, c.toNat < 256) :
    unescape_URL s = reference_url_decode s ∧ unescape_URL (percent_encode b) = b :=
  ⟨unescape_URL_eq_reference s.length s (le_refl _) hs, unescape_URL_percent_encode b hb⟩

theorem unescape_URL_well_formed_witness :
    (unescape_URL "a+b%21%3d".data = reference_url_decode "a+b%21%3d".data
      ∧ unescape_URL (percent_encode ['h', 'i', Char.ofNat 200]) = ['h', 'i', Char.ofNat 200])
      ∧ reference_url_decode "a+b%21%3d".data = "a b!=".data
      ∧ percent_encode ['h', 'i', Char.ofNat 200] = "%68%69%C8".data :=
  ⟨unescape_URL_well_formed "a+b%21%3d".data ['h', 'i', Char.ofNat 200] (by decide)
      (by decide),
    by decide, by decide⟩

/-! ## C12: plain strings decode to themselves -/

/-- C12: For every string `s` that contains neither `%` nor `+`, `unescape_URL(s) == s`. -/
theorem unescape_URL_of_plain (s : Str) (hp : '%' ∉ s) (hq : '+' ∉ s) : unescape_URL s = s :=
  unescape_URL_plain s hp hq

theorem unescape_URL_of_plain_witness : unescape_URL "camera.x=3.5&b".data = "camera.x=3.5&b".data :=
  unescape_URL_of_plain "camera.x=3.5&b".data (by decide) (by decide)

/-! ## C13: the Renderer and the Applier compute the same paths -/

/-- C13. For every registry, the HTML Form Renderer and the Name/Value Applier call their
field methods for the same fields in the same order, and at each call `address + shortname`
is the same text in both: the names of the enclosing composites and the short name joined
with `.` (the short name alone for a field with no enclosing composite). The Renderer's
method puts `name="` that path `"` into the page, the Applier's method compares that path
with its target; consequently the Applier run with any name the Renderer emits reports
found. -/
theorem renderer_applier_same_paths (reg : Registry) (form_name html P V : Str) :
    (field_visits_of (pup_to_HTML_form form_name) reg (html_form_state.init html)).map Prod.fst
        = (field_visits_of (pup_from_name_value P V) reg name_value_state.init).map Prod.fst
      ∧ (field_visits_of (pup_to_HTML_form form_name) reg (html_form_state.init html)).map
          (fun c => c.2.address ++ c.1.shortname) = dotted_paths_of [] reg
      ∧ (field_visits_of (pup_from_name_value P V) reg name_value_state.init).map
          (fun c => c.2.address ++ c.1.shortname) = dotted_paths_of [] reg
      ∧ (∀ n : Str, dotted ([] ++ [n]) = n)
      ∧ (∀ (a : Str) (enclosing : List Str) (n : Str),
          dotted ((a :: enclosing) ++ [n]) = dotted (a :: enclosing) ++ '.' :: n)
      ∧ (∀ c ∈ field_visits_of (pup_to_HTML_form form_name) reg (html_form_state.init html),
          ∃ before after, (pup (pup_to_HTML_form form_name) c.1 c.2).2.html
            = c.2.html ++ (before
                ++ ("name=\"".data ++ (c.2.address ++ c.1.shortname) ++ "\"".data) ++ after))
      ∧ (∀ c ∈ field_visits_of (pup_from_name_value P V) reg name_value_state.init,
          (pup (pup_from_name_value P V) c.1 c.2).2.found
            = (c.2.found || decide (c.2.address ++ c.1.shortname = P)))
      ∧ (∀ name ∈ (field_visits_of (pup_to_HTML_form form_name) reg
            (html_form_state.init html)).map (fun c => c.2.address ++ c.1.shortname),
          ∀ newvalue : Str,
            (webconfig_pup_all (pup_from_name_value name newvalue) reg
              name_value_state.init).2.found = true) := by
  have hR := field_visits_of_paths (renderer_tracks_address form_name) reg
    (html_form_state.init html) [] rfl
  have hA := field_visits_of_paths (applier_tracks_address P V) reg
    name_value_state.init [] rfl
  refine ⟨field_visits_of_items _ _ reg _ _, hR, hA, fun n => rfl, dotted_cons_append, ?_, ?_,
    ?_⟩
  · intro c hc
    exact renderer_field_emits_name form_name c.1 c.2
      (field_visits_of_are_fields _ reg _ c hc)
  · intro c hc
    exact applier_field_compares P V c.1 c.2 (field_visits_of_are_fields _ reg _ c hc)
  · intro name hname newvalue
    rw [hR, ← fields_of_dotted_paths reg []] at hname
    obtain ⟨f, hf, hfn⟩ := List.mem_map.mp hname
    have h := (applier_fields_effect name newvalue reg name_value_state.init).1
    show (pup_fields (pup_from_name_value name newvalue) reg name_value_state.init).2.found
      = true
    rw [h]
    show (false || (fields_of [] reg).any (fun f => decide (f.1 = name))) = true
    rw [Bool.false_or, List.any_eq_true]
    exact ⟨f, hf, decide_eq_true hfn⟩

/-! ## C14: a path identifies one field when the names are distinct -/

/-- C14, the case that fails. Two `int` variables registered under the same name `speed`:
the traversal computes the path `speed` for both fields, and the Applier aimed at `speed`
assigns both. Nothing in `webconfig_add_pup` or in the visitors looks at the names. -/
theorem duplicate_registration_counterexample :
    speed_twice = registered [.pint "speed".data 3, .pint "speed".data 4]
      ∧ (field_visits_of (pup_from_name_value "speed".data "9".data) speed_twice
            name_value_state.init).map (fun c => c.2.address ++ c.1.shortname)
          = ["speed".data, "speed".data]
      ∧ ¬ ((field_visits_of (pup_from_name_value "speed".data "9".data) speed_twice
            name_value_state.init).map (fun c => c.2.address ++ c.1.shortname)).Nodup
      ∧ (webconfig_pup_all (pup_from_name_value "speed".data "9".data) speed_twice
            name_value_state.init).1 = [.pint "speed".data 9, .pint "speed".data 9] :=
  ⟨rfl, by decide, by decide, rfl⟩

/-- C14, amended. For a registry built by registration calls in which no name holds a dot,
the registration names are pairwise distinct and so are the names pup'd inside each object,
a fully-qualified path identifies one field: the paths (`address + shortname`) the Applier
and the Renderer compute in one traversal are pairwise distinct. -/
theorem paths_identify_fields (entries : List Item) (form_name html P V : Str)
    (hnames : well_named_all (registered entries) = true)
    (hdistinct : (names_of (registered entries)).Nodup) :
    ((field_visits_of (pup_from_name_value P V) (registered entries)
        name_value_state.init).map (fun c => c.2.address ++ c.1.shortname)).Nodup
      ∧ ((field_visits_of (pup_to_HTML_form form_name) (registered entries)
        (html_form_state.init html)).map (fun c => c.2.address ++ c.1.shortname)).Nodup
      ∧ (field_visits_of (pup_from_name_value P V) (registered entries)
          name_value_state.init).map (fun c => c.2.address ++ c.1.shortname)
        = (fields_of [] (registered entries)).map Prod.fst := by
  have hA := field_visits_of_paths (applier_tracks_address P V) (registered entries)
    name_value_state.init [] rfl
  have hR := field_visits_of_paths (renderer_tracks_address form_name) (registered entries)
    (html_form_state.init html) [] rfl
  have hF := fields_of_dotted_paths (registered entries) []
  have hN := nodup_fields_of (registered entries) [] hnames hdistinct
  rw [hA, hR, ← hF]
  exact ⟨hN, hN, rfl⟩

/-- C14, amended, at the registry holding a float `a` and an object `q` with an int `b` and
an inner object `r`: the four paths `a`, `q.b`, `q.r.c`, `q.r.d` are distinct. -/
theorem paths_identify_fields_witness :
    (well_named_all (registered camera_renamed) = true
      ∧ (names_of (registered camera_renamed)).Nodup)
      ∧ ((field_visits_of (pup_from_name_value "q.b".data "5".data) (registered camera_renamed)
          name_value_state.init).map (fun c => c.2.address ++ c.1.shortname)).Nodup
      ∧ ((field_visits_of (pup_to_HTML_form "conf".data) (registered camera_renamed)
          (html_form_state.init [])).map (fun c => c.2.address ++ c.1.shortname)).Nodup
      ∧ (field_visits_of (pup_from_name_value "q.b".data "5".data) (registered camera_renamed)
            name_value_state.init).map (fun c => c.2.address ++ c.1.shortname)
          = (fields_of [] (registered camera_renamed)).map Prod.fst :=
  ⟨⟨by decide, by decide⟩,
    paths_identify_fields camera_renamed "conf".data [] "q.b".data "5".data (by decide)
      (by decide)⟩

/-! ## C15: what the Binary Writer writes -/

/-- C15: The Binary Writer's output is exactly the concatenation, in traversal order, of 4
bytes for each int, float or enum field and, for each string field, a 4-byte length followed
by the string's raw bytes, with nothing written for composite boundaries; so its length is
`4 * (number of numeric fields)` plus the sum over string fields of `4 + length`, and it
depends only on the ordered leaf values, not on field names or nesting: a registry `reg2`
with the same values in the same order gives the same bytes. String lengths fit the 4-byte
length (they are below `2^31`). -/
theorem binary_writer_output (reg reg2 : Registry)
    (hs : ∀ f ∈ fields_of [] reg, f.2.length_fits = true)
    (hs2 : ∀ f ∈ fields_of [] reg2, f.2.length_fits = true)
    (hsame : (fields_of [] reg2).map Prod.snd = (fields_of [] reg).map Prod.snd) :
    (webconfig_pup_all pup_to_binary_file reg []).2
        = encode_values ((fields_of [] reg).map Prod.snd)
      ∧ (webconfig_pup_all pup_to_binary_file reg []).2.length
        = 4 * (((fields_of [] reg).map Prod.snd).filter Value.is_numeric).length
          + (((fields_of [] reg).map Prod.snd).map Value.string_share).sum
      ∧ (webconfig_pup_all pup_to_binary_file reg2 []).2
        = (webconfig_pup_all pup_to_binary_file reg []).2 := by
  have h1 := pup_fields_to_binary_file_values reg [] hs
  have h2 := pup_fields_to_binary_file_values reg2 [] hs2
  refine ⟨h1, ?_, ?_⟩
  · unfold webconfig_pup_all
    rw [h1, encode_values_length]
  · unfold webconfig_pup_all
    rw [h1, h2, hsame]

theorem binary_writer_output_witness :
    ((webconfig_pup_all pup_to_binary_file camera_saved []).2
        = encode_values ((fields_of [] camera_saved).map Prod.snd)
      ∧ (webconfig_pup_all pup_to_binary_file camera_saved []).2.length
        = 4 * (((fields_of [] camera_saved).map Prod.snd).filter Value.is_numeric).length
          + (((fields_of [] camera_saved).map Prod.snd).map Value.string_share).sum
      ∧ (webconfig_pup_all pup_to_binary_file camera_renamed []).2
        = (webconfig_pup_all pup_to_binary_file camera_saved []).2)
      ∧ (webconfig_pup_all pup_to_binary_file camera_saved []).2
        = bytes4 1065353216 ++ bytes4 4294967294 ++ bytes4 4 ++ "home".data ++ bytes4 1
      ∧ 4 * (((fields_of [] camera_saved).map Prod.snd).filter Value.is_numeric).length
          + (((fields_of [] camera_saved).map Prod.snd).map Value.string_share).sum = 20 :=
  ⟨binary_writer_output camera_saved camera_renamed (by decide) (by decide) (by decide),
    by decide, by decide⟩

/-! ## C16: the traversal of the registry -/

/-- C16 fails as stated for a registered scalar variable: for `int speed` registered under
its name the visitor receives the one scalar call and no `pup_objectbegin` or
`pup_objectend`, and the path of the field is `speed`, which does not start with `speed.`. -/
theorem registered_scalar_counterexample :
    (webconfig_pup_all call_recorder speed_registry []).2 = [.scalar "speed".data]
      ∧ fields_of [] speed_registry = [("speed".data, .vint 3)]
      ∧ ¬ ("speed.".data <+: "speed".data) := by
  decide

/-- C16 (amended): `webconfig_pup_all` runs the visitor over every registered entry exactly
once, in the order of the `webconfig_add_pup` calls; an entry registered for a composite
object is visited between a `pup_objectbegin` and a `pup_objectend` carrying its registration
name, so every field path of that object starts with the registration name followed by `.`;
an entry registered for a `float`, `int` or `std::string` variable is visited as one scalar
field, without bracket, whose path is the registration name. -/
theorem registry_traversal (reg : Registry) (entry : Item) (name : Str) (fs : List Item)
    (bits : Nat) (v : Int) (s : Str) :
    (webconfig_pup_all call_recorder [] []).2 = []
      ∧ (webconfig_pup_all call_recorder (webconfig_add_pup reg entry) []).2
        = (webconfig_pup_all call_recorder reg []).2 ++ (pup call_recorder entry []).2
      ∧ (pup call_recorder (.object name fs) []).2
        = [.objectbegin name] ++ (pup_fields call_recorder fs []).2 ++ [.objectend name]
      ∧ (∀ f ∈ (Item.object name fs).fields [], (name ++ ['.']) <+: f.1)
      ∧ ((pup call_recorder (.pfloat name bits) []).2 = [.scalar name]
          ∧ (Item.pfloat name bits).fields [] = [(name, .vfloat bits)])
      ∧ ((pup call_recorder (.pint name v) []).2 = [.scalar name]
          ∧ (Item.pint name v).fields [] = [(name, .vint v)])
      ∧ ((pup call_recorder (.pstring name s) []).2 = [.scalar name]
          ∧ (Item.pstring name s).fields [] = [(name, .vstring s)]) := by
  refine ⟨rfl, ?_, ?_, ?_, ⟨rfl, rfl⟩, ⟨rfl, rfl⟩, ⟨rfl, rfl⟩⟩
  · unfold webconfig_pup_all webconfig_add_pup
    rw [pup_fields_append]
    simp only [pup_fields]
    exact call_recorder_append entry _
  · simp only [pup, recorder_objectbegin, recorder_objectend, List.nil_append]
    rw [call_recorder_fields_append fs [Call.objectbegin name]]
  · intro f hf
    simp only [Item.fields, List.nil_append] at hf
    exact fields_of_start_with_address fs _ f hf

theorem registry_traversal_witness :
    ((webconfig_pup_all call_recorder [] []).2 = []
      ∧ (webconfig_pup_all call_recorder (webconfig_add_pup speed_registry
            (.object "camera".data [.pfloat "x".data 1065353216, .pint "y".data 2])) []).2
        = (webconfig_pup_all call_recorder speed_registry []).2
          ++ (pup call_recorder
                (.object "camera".data [.pfloat "x".data 1065353216, .pint "y".data 2]) []).2
      ∧ (pup call_recorder (.object "camera".data [.pint "y".data 2]) []).2
        = [.objectbegin "camera".data] ++ (pup_fields call_recorder [.pint "y".data 2] []).2
          ++ [.objectend "camera".data]
      ∧ (∀ f ∈ (Item.object "camera".data [.pint "y".data 2]).fields [],
          ("camera".data ++ ['.']) <+: f.1)
      ∧ ((pup call_recorder (.pfloat "camera".data 0) []).2 = [.scalar "camera".data]
          ∧ (Item.pfloat "camera".data 0).fields [] = [("camera".data, .vfloat 0)])
      ∧ ((pup call_recorder (.pint "camera".data 3) []).2 = [.scalar "camera".data]
          ∧ (Item.pint "camera".data 3).fields [] = [("camera".data, .vint 3)])
      ∧ ((pup call_recorder (.pstring "camera".data []) []).2 = [.scalar "camera".data]
          ∧ (Item.pstring "camera".data []).fields [] = [("camera".data, .vstring [])]))
      ∧ (webconfig_pup_all call_recorder (webconfig_add_pup speed_registry
            (.object "camera".data [.pfloat "x".data 1065353216, .pint "y".data 2])) []).2
        = [.scalar "speed".data, .objectbegin "camera".data, .scalar "x".data,
           .scalar "y".data, .objectend "camera".data] :=
  ⟨registry_traversal speed_registry
      (.object "camera".data [.pfloat "x".data 1065353216, .pint "y".data 2])
      "camera".data [.pint "y".data 2] 0 3 [],
    by decide⟩

/-! ## C17: enums are pup'd like ints by the binary visitors -/

/-- C17: For the visitors that do not specialise enums (Binary Writer and Binary Reader),
visiting an enumerated field behaves exactly like visiting an int field holding the same
32-bit pattern: the writer appends the same 4 bytes, the pattern itself lowest byte first,
and leaves the unsigned value unchanged (the unsigned -> int -> unsigned conversion is the
identity on `[0, 2^32)`); the reader leaves the stream as the int visit does and stores the
unsigned value with the pattern the int visit stores. -/
theorem enum_visited_like_int (shortname : Str) (value : Nat) (namevalues : List name_value_record)
    (out : Str) (s : istream) (hv : value < 4294967296) :
    pup_to_binary_file.pup_enum shortname value namevalues out
        = (value, (pup_to_binary_file.pup_int shortname (to_int value) out).2)
      ∧ (pup_to_binary_file.pup_int shortname (to_int value) out).2 = out ++ bytes4 value
      ∧ to_unsigned (to_int value) = value
      ∧ pup_from_binary_file.pup_enum shortname value namevalues s
        = (to_unsigned (pup_from_binary_file.pup_int shortname (to_int value) s).1,
           (pup_from_binary_file.pup_int shortname (to_int value) s).2)
      ∧ int_bytes (to_int value) = bytes4 value := by
  have h := to_unsigned_to_int value hv
  refine ⟨?_, ?_, h, ?_, ?_⟩
  · rw [writer_enum, writer_int, h]
  · rw [writer_int, int_bytes, h]
  · rw [reader_enum, reader_int]
    by_cases ht : s.thrown = true
    · simp only [ht, if_true, h]
    · simp only [ht, if_false, Bool.false_eq_true]
  · rw [int_bytes, h]

theorem enum_visited_like_int_witness :
    pup_to_binary_file.pup_enum "mode".data 4000000000 [] []
        = (4000000000, (pup_to_binary_file.pup_int "mode".data (to_int 4000000000) []).2)
      ∧ (pup_to_binary_file.pup_int "mode".data (to_int 4000000000) []).2
        = [] ++ bytes4 4000000000
      ∧ to_unsigned (to_int 4000000000) = 4000000000
      ∧ pup_from_binary_file.pup_enum "mode".data 4000000000 []
          { data := bytes4 7, good := true, thrown := false }
        = (to_unsigned (pup_from_binary_file.pup_int "mode".data (to_int 4000000000)
              { data := bytes4 7, good := true, thrown := false }).1,
           (pup_from_binary_file.pup_int "mode".data (to_int 4000000000)
              { data := bytes4 7, good := true, thrown := false }).2)
      ∧ int_bytes (to_int 4000000000) = bytes4 4000000000 :=
  enum_visited_like_int "mode".data 4000000000 [] []
    { data := bytes4 7, good := true, thrown := false } (by decide)

/-! ## C18: single-line inputs and text areas -/

/-- C18 at a newline-free string value that holds a NUL character: the field `g` of the
object `o`, holding `a`, NUL, `b`, is rendered as a single-line text input named `o.g` whose
content is `a`, the escaped value cut at the NUL by `escape_HTML(value).c_str()`, and not
`escape_HTML` of the value. -/
theorem single_line_input_cut_at_nul :
    ((pup_to_HTML_form "conf".data).pup_string "g".data ['a', Char.ofNat 0, 'b']
        { html := [], indent := 1, divcount := 2, address := "o.".data,
          old_addresses := [[]] }).2.html
      = ("<DIV STYLE=\"background-color:#d0d0d9\">\n\t<FORM ACTION=\"/conf\">g: "
        ++ "<INPUT type=\"text\" name=\"o.g\" value=\"a\" />"
        ++ "<INPUT type=\"submit\" value=\"Go!\"/></FORM></DIV>\n\n").data
      ∧ count_newlines ['a', Char.ofNat 0, 'b'] = 0
      ∧ escape_HTML ['a', Char.ofNat 0, 'b'] = ['a', Char.ofNat 0, 'b'] := by
  decide!

/-! ## C19: restoring from a file that does not exist -/

/-- C19: `webconfig_restore` from a file that does not exist (a stream on which every read
fails) terminates normally and leaves every registered field at its prior, compiled-in
default value: the process state is unchanged. The registry holds representable values
(32-bit numbers, strings shorter than `2^31`). -/
theorem restore_missing_file (w : World) (hfile : w.config_file = none)
    (hs : storable_all w.registry = true) : webconfig_restore w = w := by
  obtain ⟨h1, -, -⟩ := reader_fields_exhausted w.registry (open_istream none) rfl rfl hs
  unfold webconfig_restore webconfig_pup_all
  rw [hfile, h1]
  cases w
  cases hfile
  rfl

theorem restore_missing_file_witness :
    webconfig_restore (World.mk camera_saved none) = World.mk camera_saved none :=
  restore_missing_file (World.mk camera_saved none) rfl (by decide)

/-! ## C20: restoring from a truncated file -/

/-- C20 fails as stated: restoring `camera` (defaults `x = 1.0`, `y = 2`, `label = "home"`)
from the first 4 bytes of the file saved for `camera_edited` leaves `camera.x`, which
precedes the truncation point, at the saved `3.5` and not at its default. -/
theorem restore_truncated_counterexample :
    fields_of [] (webconfig_restore (World.mk camera
        (some ((webconfig_pup_all pup_to_binary_file camera_edited []).2.take 4)))).registry
      = [("camera.x".data, .vfloat 1080033280), ("camera.y".data, .vint 2),
         ("camera.label".data, .vstring "home".data)]
      ∧ fields_of [] (webconfig_restore (World.mk camera
          (some ((webconfig_pup_all pup_to_binary_file camera_edited []).2.take 4)))).registry
        ≠ fields_of [] camera := by
  decide

/-- C20 (amended): `webconfig_restore` from a file truncated at a field boundary (the file
holds the encoding of the first `k` fields of a saved state `S` of the registry's shape, a
prefix of the file saved for `S`, and nothing more) terminates normally; the `k` fields that
precede the truncation point take their saved values and every later field keeps its
compiled-in default value. Saved and default values are representable (32-bit numbers,
strings shorter than `2^31`). -/
theorem restore_truncated_file (S T : Registry) (k : Nat) (file : Str)
    (hS : storable_all S = true) (hT : storable_all T = true)
    (hshape : shape_of T = shape_of S)
    (hfile : file = encode_values (((fields_of [] S).take k).map Prod.snd)) :
    file <+: (webconfig_pup_all pup_to_binary_file S []).2
      ∧ shape_of (webconfig_restore (World.mk T (some file))).registry = shape_of T
      ∧ fields_of [] (webconfig_restore (World.mk T (some file))).registry
        = (fields_of [] S).take k ++ (fields_of [] T).drop k := by
  subst hfile
  refine ⟨?_, ?_, ?_⟩
  · have h := pup_fields_to_binary_file_values S [] (storable_all_length_fits S [] hS)
    unfold webconfig_pup_all
    rw [h, List.map_take]
    exact encode_values_take_prefix _ k
  · exact pup_fields_shape pup_from_binary_file T _
  · exact (reader_fields_truncated S T [] k true hS hT hshape (Or.inl rfl)).2.2

theorem restore_truncated_file_witness :
    ((webconfig_pup_all pup_to_binary_file camera_edited []).2.take 8
        <+: (webconfig_pup_all pup_to_binary_file camera_edited []).2
      ∧ shape_of (webconfig_restore (World.mk camera
          (some ((webconfig_pup_all pup_to_binary_file camera_edited []).2.take 8)))).registry
        = shape_of camera
      ∧ fields_of [] (webconfig_restore (World.mk camera
          (some ((webconfig_pup_all pup_to_binary_file camera_edited []).2.take 8)))).registry
        = (fields_of [] camera_edited).take 2 ++ (fields_of [] camera).drop 2)
      ∧ (fields_of [] camera_edited).take 2 ++ (fields_of [] camera).drop 2
        = [("camera.x".data, .vfloat 1080033280), ("camera.y".data, .vint 7),
           ("camera.label".data, .vstring "home".data)] :=
  ⟨restore_truncated_file camera_edited camera 2
      ((webconfig_pup_all pup_to_binary_file camera_edited []).2.take 8)
      (by decide) (by decide) (by rfl) (by decide),
    by decide⟩

/-! ## C21: the path of a request line -/

/-- C21: For every path string `p` that does not contain the substring ` HTTP/` and every
version string `v`, parsing the request line `GET ` + `p` + ` HTTP/` + `v` yields
`get_path() == p` exactly, query string included, with no normalization and no
percent-decoding: the client built is the one with path `p`, no error and the headers the
header loop stores. The path is shorter than `2^31` (its length is held in an `int`). -/
theorem get_path_verbatim (p v : Str) (rest : List Str)
    (hp : ¬ (" HTTP/".data <:+: p)) (hlen : p.length < 2147483648) :
    http_served_client.new (("GET ".data ++ p ++ " HTTP/".data ++ v) :: rest)
        = (read_headers rest []).map (fun header =>
            { path := p, header := header, error := none, wire := [] })
      ∧ (∀ c, http_served_client.new (("GET ".data ++ p ++ " HTTP/".data ++ v) :: rest)
            = some c → c.get_path = p)
      ∧ ∃ c, http_served_client.new (("GET ".data ++ p ++ " HTTP/".data ++ v) :: [] :: rest)
            = some c ∧ c.get_path = p ∧ c.get_error = none := by
  have hnew : ∀ rest : List Str,
      http_served_client.new (("GET ".data ++ p ++ " HTTP/".data ++ v) :: rest)
        = (read_headers rest []).map (fun header =>
            { path := p, header := header, error := none, wire := [] }) := by
    intro rest
    have hdrop : ("GET ".data ++ p ++ " HTTP/".data ++ v).drop 4 = p ++ (" HTTP/".data ++ v) := by
      simp only [List.append_assoc]
      rfl
    rw [new_of_get _ rest ⟨p ++ " HTTP/".data ++ v, by simp only [List.append_assoc]⟩, hdrop,
      find_str_after ' ' "HTTP/".data v (by decide) p hp, find_result_int_some p.length hlen,
      List.take_left]
  refine ⟨hnew rest, ?_, ?_⟩
  · intro c hc
    rw [hnew rest] at hc
    obtain ⟨header, -, hh⟩ := Option.map_eq_some'.mp hc
    rw [← hh]
    rfl
  · rw [hnew ([] :: rest)]
    exact ⟨_, rfl, rfl, rfl⟩

/-- C21 at the request line `GET /conf?name=a%20b+c HTTP/1.1` followed by one header. -/
theorem get_path_verbatim_witness :
    http_served_client.new
        (("GET ".data ++ "/conf?name=a%20b+c".data ++ " HTTP/".data ++ "1.1".data)
          :: ["Host: example.com".data, []])
        = (read_headers ["Host: example.com".data, []] []).map (fun header =>
            { path := "/conf?name=a%20b+c".data, header := header, error := none, wire := [] })
      ∧ (∀ c, http_served_client.new
          (("GET ".data ++ "/conf?name=a%20b+c".data ++ " HTTP/".data ++ "1.1".data)
            :: ["Host: example.com".data, []]) = some c
          → c.get_path = "/conf?name=a%20b+c".data)
      ∧ ∃ c, http_served_client.new
          (("GET ".data ++ "/conf?name=a%20b+c".data ++ " HTTP/".data ++ "1.1".data)
            :: [] :: ["Host: example.com".data, []]) = some c
          ∧ c.get_path = "/conf?name=a%20b+c".data ∧ c.get_error = none :=
  get_path_verbatim "/conf?name=a%20b+c".data "1.1".data ["Host: example.com".data, []]
    (by decide) (by decide)

/-! ## C22: a request line that is not a GET -/

/-- C22: For every first request line that does not begin with `GET ` (any other method, or
a line shorter than 4 characters), the parsed session reports a MalformedRequest condition:
`get_error()` is non-null and `get_path()` is empty. -/
theorem non_get_is_malformed (req : Str) (rest : List Str) (h : ¬ ("GET ".data <+: req)) :
    ∃ c, http_served_client.new (req :: rest) = some c
      ∧ c.get_error ≠ none ∧ c.get_path = [] := by
  rw [new_of_other req rest h]
  exact ⟨_, rfl, by simp [http_served_client.get_error], rfl⟩

/-- C22 at a POST request. -/
theorem non_get_is_malformed_witness :
    (∃ c, http_served_client.new ("POST /conf HTTP/1.1".data :: ["Host: a".data, []]) = some c
      ∧ c.get_error ≠ none ∧ c.get_path = [])
      ∧ (http_served_client.new ["GE".data, []]).map (fun c => (c.get_error, c.get_path))
        = some (some "Malformed HTTP header (only GET supported for now)".data, []) :=
  ⟨non_get_is_malformed "POST /conf HTTP/1.1".data ["Host: a".data, []] (by decide),
    by decide⟩

/-! ## C23: a GET line without the HTTP marker -/

/-- C23 fails as stated: the request line `GET /conf` begins with `GET ` and holds no
` HTTP/` marker, and the client built from it has no error and the path `/conf`. -/
theorem missing_marker_counterexample :
    ("GET ".data <+: "GET /conf".data) ∧ ¬ (" HTTP/".data <:+: "GET /conf".data)
      ∧ (http_served_client.new ["GET /conf".data, []]).map
          (fun c => (c.get_error, c.get_path)) = some (none, "/conf".data) := by
  decide

/-- C23 (amended): For every first request line that begins with `GET ` but contains no
` HTTP/` marker, the parser reports no error: the client built is the one whose path is
everything after `GET `, with `get_error()` null and the headers the header loop stores. -/
theorem missing_marker_no_error (req : Str) (rest : List Str) (hget : "GET ".data <+: req)
    (hmark : ¬ (" HTTP/".data <:+: req)) (hsize : req.length < npos) :
    http_served_client.new (req :: rest)
        = (read_headers rest []).map (fun header =>
            { path := req.drop 4, header := header, error := none, wire := [] })
      ∧ ∃ c, http_served_client.new (req :: [] :: rest) = some c
          ∧ c.get_error = none ∧ c.get_path = req.drop 4 := by
  have hnew : ∀ rest : List Str, http_served_client.new (req :: rest)
      = (read_headers rest []).map (fun header =>
          { path := req.drop 4, header := header, error := none, wire := [] }) := by
    intro rest
    have hd : ¬ (" HTTP/".data <:+: req.drop 4) := fun hi =>
      hmark (hi.trans (List.drop_suffix 4 req).isInfix)
    have hl : (req.drop 4).length < npos := by
      rw [List.length_drop]
      omega
    rw [new_of_get req rest hget, find_str_none _ _ hd, find_result_int_none, take_npos _ hl]
  refine ⟨hnew rest, ?_⟩
  rw [hnew ([] :: rest)]
  exact ⟨_, rfl, rfl, rfl⟩

/-- C23 (amended) at the request line `GET /conf?a=1`. -/
theorem missing_marker_no_error_witness :
    http_served_client.new ("GET /conf?a=1".data :: ["Host: a".data])
        = (read_headers ["Host: a".data] []).map (fun header =>
            { path := "GET /conf?a=1".data.drop 4, header := header, error := none,
              wire := [] })
      ∧ ∃ c, http_served_client.new ("GET /conf?a=1".data :: [] :: ["Host: a".data]) = some c
          ∧ c.get_error = none ∧ c.get_path = "GET /conf?a=1".data.drop 4 :=
  missing_marker_no_error "GET /conf?a=1".data ["Host: a".data] (by decide) (by decide)
    (by decide)

/-! ## C24: the value of a header line -/

/-- C24 at the header line `Host:example.com`, whose value does not start with a space:
the parser stores `xample.com` under `Host`, the value without its first character, since
the value is taken from two characters after the colon whatever follows the colon. -/
theorem header_value_loses_first_character :
    header_line "Host:example.com".data = some ("Host".data, "xample.com".data)
      ∧ (http_served_client.new
          ["GET / HTTP/1.1".data, "Host:example.com".data, []]).map
            (fun c => (c.get_header "Host".data).1) = some "xample.com".data := by
  decide

/-! ## C25: several header lines with one name -/

/-- C25: When several header lines of one request carry the same (case-sensitive) name,
`get_header(name)` returns the value of the last such line; for a name that appeared in no
header line `get_header` returns the empty string. The request is a GET whose header lines
`hs`, none of them empty, are followed by the empty line; names and values are those the
header loop takes from the lines (`header_line`), every line giving one. -/
theorem get_header_last_wins (req : Str) (hs more : List Str) (name : Str)
    (hget : "GET ".data <+: req)
    (hlines : ∀ l ∈ hs, l ≠ [] ∧ (header_line l).isSome = true) :
    ∃ c, http_served_client.new (req :: (hs ++ [] :: more)) = some c
      ∧ (c.get_header name).1 = last_header_value name (hs.filterMap header_line)
      ∧ (name ∉ (hs.filterMap header_line).map Prod.fst → (c.get_header name).1 = []) := by
  rw [new_of_get req _ hget, read_headers_lines more hs [] hlines]
  refine ⟨_, rfl, ?_, ?_⟩
  · rw [get_header_eq]
    show (map_find ((hs.filterMap header_line).foldl (fun m e => map_assign m e.1 e.2) [])
      name).getD [] = _
    rw [map_find_foldl]
    unfold last_header_value
    cases ((hs.filterMap header_line).filter (fun e => decide (e.1 = name))).getLast? <;> rfl
  · intro hname
    rw [get_header_eq]
    show (map_find ((hs.filterMap header_line).foldl (fun m e => map_assign m e.1 e.2) [])
      name).getD [] = _
    rw [map_find_foldl]
    have hnil : (hs.filterMap header_line).filter (fun e => decide (e.1 = name)) = [] := by
      rw [List.filter_eq_nil_iff]
      intro e he hd
      exact hname (List.mem_map.mpr ⟨e, he, of_decide_eq_true hd⟩)
    rw [hnil]
    rfl

/-- C25 at a request with two `Accept` lines around a `Host` line. -/
theorem get_header_last_wins_witness :
    (∃ c, http_served_client.new ("GET / HTTP/1.1".data
          :: (["Accept: a".data, "Host: h".data, "Accept: b".data] ++ [] :: [])) = some c
      ∧ (c.get_header "Accept".data).1 = last_header_value "Accept".data
          (["Accept: a".data, "Host: h".data, "Accept: b".data].filterMap header_line)
      ∧ ("Accept".data ∉ (["Accept: a".data, "Host: h".data, "Accept: b".data].filterMap
            header_line).map Prod.fst → (c.get_header "Accept".data).1 = []))
      ∧ last_header_value "Accept".data
          (["Accept: a".data, "Host: h".data, "Accept: b".data].filterMap header_line)
        = "b".data
      ∧ (http_served_client.new ["GET / HTTP/1.1".data, "Accept: a".data, "Host: h".data,
          "Accept: b".data, []]).map (fun c => ((c.get_header "Accept".data).1,
            (c.get_header "accept".data).1)) = some ("b".data, []) :=
  ⟨get_header_last_wins "GET / HTTP/1.1".data
      ["Accept: a".data, "Host: h".data, "Accept: b".data] [] "Accept".data (by decide)
      (by decide),
    by decide, by decide⟩

/-! ## C26: the framing of a response -/

/-- C26: For every mime type shorter than 800 characters and every body, `send(mime, body)`
writes exactly `HTTP/1.1 200 OK`, `Content-Length: L`, `Connection: close`,
`Content-Type: mime`, each ended by CR LF, an empty line and then the body, where `L` is
the decimal byte count of the body; `send_error` writes the same framing with the given
status code (404 by default) and the reason phrase `error` for every status other than 200.
The mime type is a text without NUL character, the byte count and the status are `int`s. -/
theorem send_writes_framing (c : http_served_client) (mime body : Str) (status : Int)
    (hmime : mime.length < 800) (hnul : Char.ofNat 0 ∉ mime)
    (hbody : body.length < 2147483648)
    (hstatus : -2147483648 ≤ status ∧ status < 2147483648) (h200 : status ≠ 200) :
    (c.send mime body).wire
        = c.wire ++ ("HTTP/1.1 200 OK\r\nContent-Length: ".data ++ decimal body.length
            ++ "\r\nConnection: close\r\nContent-Type: ".data ++ mime ++ "\r\n\r\n".data)
          ++ body
      ∧ (c.send_error mime body status).wire
        = c.wire ++ ("HTTP/1.1 ".data ++ itos status ++ " error\r\nContent-Length: ".data
            ++ decimal body.length
            ++ "\r\nConnection: close\r\nContent-Type: ".data ++ mime ++ "\r\n\r\n".data)
          ++ body
      ∧ send_error_default_type = 404
      ∧ (c.send mime body).error = c.error
      ∧ (c.send_error mime body status).error = c.error := by
  have hb : -2147483648 ≤ to_int body.length ∧ to_int body.length < 2147483648 :=
    to_int_range _
  have ht : body.take (to_int body.length).toNat = body := by
    rw [to_int_of_small _ (by omega) (by omega), Int.toNat_ofNat, List.take_length]
  unfold http_served_client.send http_served_client.send_error
  rw [send_header_eq c mime _ 200 hmime hb (by decide),
    send_header_eq c mime _ status hmime hb hstatus]
  unfold http_served_client.send_raw
  simp only [ht, if_neg h200, c_str_eq_self mime hnul, itos_of_length body.length hbody,
    List.append_assoc, true_and, and_true]
  exact ⟨rfl, rfl, rfl⟩

/-- C26 at the mime type `text/html` and the body `gone`, with the default status of
`send_error`. -/
theorem send_writes_framing_witness :
    (((client_asking "/x".data).send "text/html".data "gone".data).wire
        = [] ++ ("HTTP/1.1 200 OK\r\nContent-Length: ".data ++ decimal "gone".data.length
            ++ "\r\nConnection: close\r\nContent-Type: ".data ++ "text/html".data
            ++ "\r\n\r\n".data) ++ "gone".data
      ∧ ((client_asking "/x".data).send_error "text/html".data "gone".data
            send_error_default_type).wire
        = [] ++ ("HTTP/1.1 ".data ++ itos send_error_default_type
            ++ " error\r\nContent-Length: ".data ++ decimal "gone".data.length
            ++ "\r\nConnection: close\r\nContent-Type: ".data ++ "text/html".data
            ++ "\r\n\r\n".data) ++ "gone".data
      ∧ send_error_default_type = 404
      ∧ ((client_asking "/x".data).send "text/html".data "gone".data).error = none
      ∧ ((client_asking "/x".data).send_error "text/html".data "gone".data
            send_error_default_type).error = none)
      ∧ ((client_asking "/x".data).send_error "text/html".data "gone".data
            send_error_default_type).wire
        = ("HTTP/1.1 404 error\r\nContent-Length: 4\r\nConnection: close\r\n"
            ++ "Content-Type: text/html\r\n\r\ngone").data :=
  ⟨send_writes_framing (client_asking "/x".data) "text/html".data "gone".data
      send_error_default_type (by decide) (by decide) (by decide) (by decide) (by decide),
    by decide⟩

/-! ## C28: the range of `Random::nextInt` -/

/-- C28: For every `n > 0` (an `int`) and every generator whose `next(31)` returns a value
in `[0, 2^31)`, `Random::nextInt(n)`, whenever it returns, returns a value `v` with
`0 <= v <= n-1`, both on the power-of-two path and on the rejection-loop path; on the
power-of-two path it always returns. -/
theorem nextInt_in_range {γ : Type} (r : Random γ)
    (hnext : ∀ g, 0 ≤ (r.next 31 g).1 ∧ (r.next 31 g).1 < 2147483648)
    (n : Int) (hn : 0 < n) (hint : n < 2147483648) (fuel : Nat) (g : γ) :
    (∀ v g2, r.nextInt fuel n g = some (v, g2) → 0 ≤ v ∧ v ≤ n - 1)
      ∧ (int_and n (to_int (-n)) = n → (r.nextInt fuel n g).isSome = true) := by
  constructor
  · intro v g2 h
    unfold Random.nextInt at h
    split at h
    · simp only [Option.some.injEq, Prod.mk.injEq] at h
      rw [← h.1]
      exact nextInt_power_of_two_range n _ hn hint (hnext g).1 (hnext g).2
    · exact nextInt_loop_range r hnext n hn fuel g v g2 h
  · intro hp
    unfold Random.nextInt
    rw [if_pos hp]
    rfl

/-- C28 at `Random32` seeded with 1: `nextInt(1500000000)` rejects the first draw and
returns the second, `nextInt(8)` takes the power-of-two path. -/
theorem nextInt_in_range_witness :
    Random32.nextInt 10 1500000000 (Random32.setSeed 1)
        = some (426662548, { seed := -1255656740, mul := 69069, add := 1 })
      ∧ Random32.nextInt 1 1500000000 (Random32.setSeed 1) = none
      ∧ Random32.nextInt 0 8 (Random32.setSeed 1)
        = some (7, { seed := 978448990, mul := 69069, add := 1 })
      ∧ ((0 : Int) ≤ 426662548 ∧ (426662548 : Int) ≤ 1500000000 - 1) :=
  ⟨by decide, by decide, by decide,
    (nextInt_in_range Random32 Random32_next_range 1500000000 (by decide) (by decide) 10
      (Random32.setSeed 1)).1 426662548 { seed := -1255656740, mul := 69069, add := 1 }
      (by decide)⟩

/-! ## C29: containing a segment and intersecting with it -/

/-- C29: For all segments `a` and `b` of `seg1dT<int>` (empty or not), `a.contains(b)` holds
if and only if `a.getIntersection(b)` has the same min and the same max as `b`. -/
theorem contains_iff_intersection (a b : seg1dT) :
    a.contains_seg b = true
      ↔ (a.getIntersection b).min = b.min ∧ (a.getIntersection b).max = b.max := by
  simp only [seg1dT.contains_seg, seg1dT.getIntersection, Bool.and_eq_true, decide_eq_true_eq]
  constructor
  · rintro ⟨h1, h2⟩
    constructor
    · split <;> omega
    · split <;> omega
  · rintro ⟨h1, h2⟩
    constructor
    · split at h1 <;> omega
    · split at h2 <;> omega

/-! ## C30: segments that share a point -/

/-- C30 at an empty segment: the segment of all points `intersects` the empty segment,
although the empty segment contains no point, so the two share none. -/
theorem intersects_empty_segment :
    seg1dT.infinity.intersects seg1dT.empty = true
      ∧ seg1dT.empty.isEmpty = true
      ∧ ¬ ∃ x, seg1dT.infinity.contains x = true ∧ seg1dT.empty.contains x = true := by
  refine ⟨by decide, by decide, ?_⟩
  rintro ⟨x, -, h⟩
  simp only [seg_contains_iff, seg1dT.empty, seg1dT.getHiValue, seg1dT.getLoValue] at h
  omega

/-! ## C31: `invert` by Gauss-Jordan elimination -/

/-- C31: for every square matrix `a` (`n` rows and `n` columns) over exact arithmetic,
`a.invert(inv)` returns true exactly when `a` is non-singular (its determinant is not
zero); whenever it returns true, the product of `a` and the `inv` it leaves is the
identity matrix (as `product` computes it, in either order); when it returns false, `inv`
is left unchanged. -/
theorem invert_correct (n : Nat) (a inv dest : MatrixT) :
    ((MatrixT.invert n n a inv).1 = true ↔ (MatrixT.to_matrix n a).det ≠ 0)
      ∧ ((MatrixT.invert n n a inv).1 = true →
          ∀ i j, i < n → j < n →
            MatrixT.product n n a (MatrixT.invert n n a inv).2 dest i j
                = (if i = j then 1 else 0)
              ∧ MatrixT.product n n (MatrixT.invert n n a inv).2 a dest i j
                = (if i = j then 1 else 0))
      ∧ ((MatrixT.invert n n a inv).1 = false → (MatrixT.invert n n a inv).2 = inv) := by
  have hspec := solve_augment_spec n a
  rw [invert_eq]
  by_cases hs : (MatrixT.solve n (n * 2) (MatrixT.augment n n a)).1 = true
  · rw [if_pos hs]
    have hinv := hspec.1 hs
    have hleft := solve_invariant_inverse n a _ hinv
    have he : MatrixT.to_matrix n
        (fun i j => if i < n ∧ j < n then
            (MatrixT.solve n (n * 2) (MatrixT.augment n n a)).2 i (n + j) else inv i j)
        = MatrixT.to_matrix n
            (fun i j => (MatrixT.solve n (n * 2) (MatrixT.augment n n a)).2 i (n + j)) :=
      to_matrix_congr n _ _ (fun i j hi hj => if_pos ⟨hi, hj⟩)
    have hright := Matrix.mul_eq_one_comm.mp hleft
    refine ⟨⟨fun _ => Matrix.det_ne_zero_of_left_inverse hleft, fun _ => rfl⟩, ?_,
      fun h => by simp at h⟩
    intro _ i j hi hj
    have hone : ∀ (x : Matrix (Fin n) (Fin n) ℚ), x = 1 →
        x ⟨i, hi⟩ ⟨j, hj⟩ = if i = j then 1 else 0 := by
      intro x hx
      rw [hx, Matrix.one_apply]
      by_cases h : i = j
      · rw [if_pos h, if_pos (Fin.ext h)]
      · rw [if_neg h, if_neg (fun e => h (congrArg Fin.val e))]
    constructor
    · rw [product_to_matrix n _ _ dest i j hi hj]
      exact hone _ (by rw [he]; exact hright)
    · rw [product_to_matrix n _ _ dest i j hi hj]
      exact hone _ (by rw [he]; exact hleft)
  · rw [if_neg hs]
    have hf : (MatrixT.solve n (n * 2) (MatrixT.augment n n a)).1 = false := by
      simpa using hs
    refine ⟨⟨fun h => by simp at h, fun h => absurd (hspec.2 hf) h⟩, fun h => by simp at h,
      fun _ => rfl⟩

/-- C31 at the matrix with the rows (2, 1) and (5, 3): `invert` returns true and leaves the
rows (3, -1) and (-5, 2); at the singular matrix with the rows (1, 2) and (2, 4) it returns
false. -/
theorem invert_correct_witness :
    (MatrixT.invert 2 2 (MatrixT.of_rows [[2, 1], [5, 3]]) (fun _ _ => 0)).1 = true
      ∧ (MatrixT.invert 2 2 (MatrixT.of_rows [[1, 2], [2, 4]]) (fun _ _ => 7)).1 = false
      ∧ (∀ i j, i < 2 → j < 2 →
          MatrixT.product 2 2 (MatrixT.of_rows [[2, 1], [5, 3]])
              (MatrixT.invert 2 2 (MatrixT.of_rows [[2, 1], [5, 3]]) (fun _ _ => 0)).2
              (fun _ _ => 0) i j
              = (if i = j then 1 else 0)
            ∧ MatrixT.product 2 2
              (MatrixT.invert 2 2 (MatrixT.of_rows [[2, 1], [5, 3]]) (fun _ _ => 0)).2
              (MatrixT.of_rows [[2, 1], [5, 3]]) (fun _ _ => 0) i j
              = (if i = j then 1 else 0))
      ∧ (MatrixT.invert 2 2 (MatrixT.of_rows [[1, 2], [2, 4]]) (fun _ _ => 7)).2
          = (fun _ _ => 7) :=
  ⟨by decide!, by decide!,
    (invert_correct 2 (MatrixT.of_rows [[2, 1], [5, 3]]) (fun _ _ => 0) (fun _ _ => 0)).2.1
      (by decide!),
    (invert_correct 2 (MatrixT.of_rows [[1, 2], [2, 4]]) (fun _ _ => 7) (fun _ _ => 0)).2.2
      (by decide!)⟩

/-! ## C32: `greedyDiscreteMin` ends at a per-axis local minimum -/

/-- C32: For every objective that is a pure function of its unknowns, every start point and
every step vector for which `greedyDiscreteMin` terminates (exact arithmetic), the returned
point is a per-axis local minimum: for every axis `u`, moving the returned point by
`+step[u]` or by `-step[u]` along `u` alone does not give a strictly smaller objective
value; and the returned point's objective value is not larger than the start point's. -/
theorem greedyDiscreteMin_local_minimum (obj : Objective) (start step : Nat → ℚ)
    (fuel : Nat) (p : Nat → ℚ) (h : greedyDiscreteMin obj start step fuel = some p) :
    (∀ u : Nat, (u : Int) < obj.getUnknowns →
        obj.getObjective p ≤ obj.getObjective (Function.update p u (p u + step u))
        ∧ obj.getObjective p ≤ obj.getObjective (Function.update p u (p u - step u)))
      ∧ obj.getObjective p ≤ obj.getObjective start := by
  unfold greedyDiscreteMin at h
  by_cases hn : obj.getUnknowns < 0
  · rw [if_pos hn] at h
    exact absurd h (by simp)
  · rw [if_neg hn] at h
    obtain ⟨r, hr, hp⟩ := Option.map_eq_some'.mp h
    obtain ⟨r1, r2, r3⟩ := greedy_outer_spec obj step fuel fuel (obj.getObjective start + 1)
      { test := start, best := start, vBest := obj.getObjective start } r rfl rfl
      (fun hnot => absurd (lt_add_one (obj.getObjective start)) hnot) hr
    subst hp
    simp only at r2
    refine ⟨fun u hu => ?_, r1 ▸ r2⟩
    have hmem : u ∈ List.range obj.getUnknowns.toNat := by
      rw [List.mem_range]
      omega
    obtain ⟨h1, h2⟩ := r3 u hmem
    rw [one_mul] at h1
    rw [neg_one_mul, ← sub_eq_add_neg] at h2
    exact ⟨r1 ▸ h1, r1 ▸ h2⟩

/-- C32 at the objective `bowl`, started at `(0, 0)` with steps of 1: the search ends at
`(3, -3)`. -/
theorem greedyDiscreteMin_local_minimum_witness :
    ∃ p, greedyDiscreteMin bowl (fun _ => 0) (fun _ => 1) 20 = some p
      ∧ [p 0, p 1] = [3, -3]
      ∧ (∀ u : Nat, (u : Int) < bowl.getUnknowns →
          bowl.getObjective p ≤ bowl.getObjective (Function.update p u (p u + 1))
          ∧ bowl.getObjective p ≤ bowl.getObjective (Function.update p u (p u - 1)))
      ∧ bowl.getObjective p ≤ bowl.getObjective (fun _ => 0) := by
  have hv : (greedyDiscreteMin bowl (fun _ => 0) (fun _ => 1) 20).map (fun p => [p 0, p 1])
      = some [3, -3] := by decide!
  obtain ⟨p, hp, hl⟩ := Option.map_eq_some'.mp hv
  exact ⟨p, hp, hl, greedyDiscreteMin_local_minimum bowl (fun _ => 0) (fun _ => 1) 20 p hp⟩

/-! ## C33: the headers after a request line that is not a GET -/

/-- C33 fails as stated: after the request line `POST / HTTP/1.1` the header line
`Host: example.com` is not stored, and `get_header("Host")` returns the empty string. -/
theorem non_get_headers_counterexample :
    ¬ ("GET ".data <+: "POST / HTTP/1.1".data)
      ∧ (http_served_client.new
          ["POST / HTTP/1.1".data, "Host: example.com".data, []]).map
            (fun c => (c.get_error, c.header, (c.get_header "Host".data).1))
        = some (some "Malformed HTTP header (only GET supported for now)".data, [], [])
      ∧ (http_served_client.new
          ["GET / HTTP/1.1".data, "Host: example.com".data, []]).map
            (fun c => (c.get_header "Host".data).1) = some "example.com".data := by
  decide

/-- C33 (amended): For a request whose first line does not begin with `GET `, the parser
records the error flag and stops: the header lines that follow are not read, the header map
stays empty and `get_header` returns the empty string for every name. -/
theorem non_get_reads_no_header (req : Str) (rest : List Str) (name : Str)
    (h : ¬ ("GET ".data <+: req)) :
    ∃ c, http_served_client.new (req :: rest) = some c
      ∧ c.get_error = some "Malformed HTTP header (only GET supported for now)".data
      ∧ c.header = [] ∧ (c.get_header name).1 = [] := by
  rw [new_of_other req rest h]
  exact ⟨_, rfl, rfl, rfl, rfl⟩

/-- C33 (amended) at a POST request followed by a `Host` line. -/
theorem non_get_reads_no_header_witness :
    ∃ c, http_served_client.new ("POST / HTTP/1.1".data :: ["Host: example.com".data, []])
        = some c
      ∧ c.get_error = some "Malformed HTTP header (only GET supported for now)".data
      ∧ c.header = [] ∧ (c.get_header "Host".data).1 = [] :=
  non_get_reads_no_header "POST / HTTP/1.1".data ["Host: example.com".data, []] "Host".data
    (by decide)

/-! ## C34: the bisection fallback of `secantRoot1D` -/

/-- C34 at the objective `g * g` with the guesses 1 and 2 (exact arithmetic): the secant
guess is `gN = -10` with `|vN| = 100 > |v1| = 1`, no swap is made, and the guess `g2`
carried into the next iteration is `gN = -10`, not the midpoint `0.5*(1+2) = 3/2`: the
assignment of the bisection branch is overwritten by `g2=gN`. -/
theorem secant_bisection_overwritten :
    secant_guess rat_arith { g1 := 1, g2 := 2, v1 := 1, v2 := 4 } = -10
      ∧ secant_swap rat_arith { g1 := 1, g2 := 2, v1 := 1, v2 := 4 }
        = { g1 := 1, g2 := 2, v1 := 1, v2 := 4 }
      ∧ rat_arith.gt (rat_arith.fabs ((-10 : ℚ) * (-10))) (rat_arith.fabs 1) = true
      ∧ rat_arith.mul rat_arith.half (rat_arith.add 1 2) = 3 / 2
      ∧ secant_step rat_arith (fun g => g * g) { g1 := 1, g2 := 2, v1 := 1, v2 := 4 }
        = { g1 := 1, g2 := -10, v1 := 1, v2 := 100 } := by
  decide!

/-! ## C35: splitting a header line -/

/-- C35 at the header line `Host:`, which ends with its first colon: the value would start
at index 6 of a line of 5 characters, `substr` throws, no pair is made and the exception
leaves the constructor. -/
theorem header_line_ending_with_colon :
    find_first_of ':' "Host:".data = some 4
      ∧ "Host:".data.length = 5
      ∧ substr "Host:".data (4 + 2) npos = none
      ∧ header_line "Host:".data = none
      ∧ http_served_client.new ["GET / HTTP/1.1".data, "Host:".data, []] = none := by
  decide

/-! ## C36: a query without an equals sign -/

/-- C36: For every query string that contains no `=`, the editor changes no field and does
not write the persistence file (the process state is the one before the request): a query
of fewer than 2 characters produces the full editing page with no error, and a query of 2
or more characters produces `page_start` followed by the paragraph
`ERROR! Missing equals sign in CGI parameters!` with no form rendered. -/
theorem query_without_equals (e : webconfig_editor) (client : http_served_client) (w : World)
    (q : Str) (hpath : client.path = '/' :: e.form_name ++ '?' :: q) (hq : '=' ∉ q) :
    (e.respond client w).1 = true
      ∧ (e.respond client w).2.2 = w
      ∧ (q.length < 2 → (e.respond client w).2.1
          = client.send "text/html".data
              (e.page_start
                ++ (webconfig_pup_all (pup_to_HTML_form e.form_name) w.registry
                      (.init [])).2.html
                ++ e.page_end))
      ∧ (2 ≤ q.length → (e.respond client w).2.1
          = client.send "text/html".data
              (e.page_start
                ++ ("<P>".data ++ "ERROR! Missing equals sign in CGI parameters!".data
                    ++ "\n".data))) := by
  rw [respond_coming_back e client w q hpath, apply_parameters_no_equals e _ q w hq]
  by_cases hlen : q.length < 2
  · simp only [if_pos hlen, if_true, true_and]
    refine ⟨?_, fun _ => ?_, fun h2 => absurd hlen (by omega)⟩
    · simp only [webconfig_pup_all, pup_fields_to_HTML_form_fst, world_eta]
    · rw [rendered_form_append]
  · simp only [if_neg hlen, Bool.false_eq_true, if_false, true_and]
    exact ⟨fun h => absurd h hlen, fun _ => rfl⟩

/-- C36 at the queries `a` and `ab` sent to the editor of the `camera` object. -/
theorem query_without_equals_witness :
    ((conf_editor.respond (client_asking "/conf?ab".data) (World.mk camera none)).1 = true
      ∧ (conf_editor.respond (client_asking "/conf?ab".data) (World.mk camera none)).2.2
        = World.mk camera none
      ∧ ("ab".data.length < 2 →
          (conf_editor.respond (client_asking "/conf?ab".data) (World.mk camera none)).2.1
          = (client_asking "/conf?ab".data).send "text/html".data
              (conf_editor.page_start
                ++ (webconfig_pup_all (pup_to_HTML_form conf_editor.form_name)
                      (World.mk camera none).registry (.init [])).2.html
                ++ conf_editor.page_end))
      ∧ (2 ≤ "ab".data.length →
          (conf_editor.respond (client_asking "/conf?ab".data) (World.mk camera none)).2.1
          = (client_asking "/conf?ab".data).send "text/html".data
              (conf_editor.page_start
                ++ ("<P>".data ++ "ERROR! Missing equals sign in CGI parameters!".data
                    ++ "\n".data))))
      ∧ (conf_editor.respond (client_asking "/conf?a".data) (World.mk camera none)).2.1.wire
        = (conf_editor.respond (client_asking "/conf".data) (World.mk camera none)).2.1.wire
      ∧ (conf_editor.respond (client_asking "/conf?a".data) (World.mk camera none)).2.2.config_file
        = none :=
  ⟨query_without_equals conf_editor (client_asking "/conf?ab".data) (World.mk camera none)
      "ab".data rfl (by decide),
    by decide!, by decide!⟩

/-! ## C37: the Renderer and the Writer are read-only -/

/-- C37: Running the HTML Form Renderer or the Binary Writer over any registry is
read-only: after the traversal every field (int, float, string, enum) holds exactly the
value it held before; the registry is the one before the traversal. The values are ones the
C++ types hold (the Writer passes an enum through an `int` and back). -/
theorem renderer_writer_read_only (reg : Registry) (form_name html out : Str)
    (ht : typed_all reg = true) :
    (webconfig_pup_all (pup_to_HTML_form form_name) reg (.init html)).1 = reg
      ∧ (webconfig_pup_all pup_to_binary_file reg out).1 = reg
      ∧ fields_of [] (webconfig_pup_all (pup_to_HTML_form form_name) reg (.init html)).1
        = fields_of [] reg
      ∧ fields_of [] (webconfig_pup_all pup_to_binary_file reg out).1 = fields_of [] reg := by
  have h1 : (webconfig_pup_all (pup_to_HTML_form form_name) reg (.init html)).1 = reg :=
    pup_fields_to_HTML_form_fst form_name reg _
  have h2 : (webconfig_pup_all pup_to_binary_file reg out).1 = reg :=
    pup_fields_to_binary_file_fst reg out ht
  rw [h1, h2]
  exact ⟨rfl, rfl, rfl, rfl⟩

/-- C37 at the `camera` object with a float, an int, a string and an enum. -/
theorem renderer_writer_read_only_witness :
    ((webconfig_pup_all (pup_to_HTML_form "conf".data) camera_saved (.init [])).1
        = camera_saved
      ∧ (webconfig_pup_all pup_to_binary_file camera_saved []).1 = camera_saved
      ∧ fields_of [] (webconfig_pup_all (pup_to_HTML_form "conf".data) camera_saved
          (.init [])).1 = fields_of [] camera_saved
      ∧ fields_of [] (webconfig_pup_all pup_to_binary_file camera_saved []).1
        = fields_of [] camera_saved)
      ∧ fields_of [] camera_saved
        = [("camera.x".data, .vfloat 1065353216), ("camera.y".data, .vint (-2)),
           ("camera.label".data, .vstring "home".data), ("camera.mode".data, .venum 1)] :=
  ⟨renderer_writer_read_only camera_saved "conf".data [] [] (by decide), by decide⟩

/-! ## C38: the path stack -/

/-- C38: Path-stack discipline: for the Applier and the Renderer, after any well-bracketed
sequence of visits (every `pup_objectbegin` matched by a later `pup_objectend`, with any
object names, including names containing `.`), the current address prefix and the
saved-address stack equal what they were before the sequence, and so does the Renderer's
indent; in particular both are empty after a full registry traversal, and the Renderer's
indent is back to 0. -/
theorem path_stack_discipline (vs : List Visit) (hb : well_bracketed vs = true)
    (P V form_name html : Str) (a : name_value_state) (r : html_form_state)
    (reg : Registry) :
    ((run_visits (pup_from_name_value P V) vs a).address = a.address
        ∧ (run_visits (pup_from_name_value P V) vs a).old_addresses = a.old_addresses)
      ∧ ((run_visits (pup_to_HTML_form form_name) vs r).address = r.address
        ∧ (run_visits (pup_to_HTML_form form_name) vs r).old_addresses = r.old_addresses
        ∧ (run_visits (pup_to_HTML_form form_name) vs r).indent = r.indent)
      ∧ ((webconfig_pup_all (pup_from_name_value P V) reg .init).2.address = []
        ∧ (webconfig_pup_all (pup_from_name_value P V) reg .init).2.old_addresses = [])
      ∧ ((webconfig_pup_all (pup_to_HTML_form form_name) reg (.init html)).2.address = []
        ∧ (webconfig_pup_all (pup_to_HTML_form form_name) reg (.init html)).2.old_addresses
          = []
        ∧ (webconfig_pup_all (pup_to_HTML_form form_name) reg (.init html)).2.indent = 0) := by
  have hA := run_visits_keeps_address (applier_tracks_address P V) vs hb a
  have hR := run_visits_keeps_address (renderer_tracks_address form_name) vs hb r
  have hi : (run_visits (pup_to_HTML_form form_name) vs r).indent = r.indent := by
    simp only [well_bracketed, decide_eq_true_eq] at hb
    rw [run_visits_indent form_name vs 0 0 r hb]
    simp
  have hTA := pup_fields_keeps_address (applier_tracks_address P V) reg .init
  have hTR := pup_fields_keeps_address (renderer_tracks_address form_name) reg (.init html)
  exact ⟨hA, ⟨hR.1, hR.2, hi⟩, hTA, hTR.1, hTR.2,
    pup_fields_to_HTML_form_indent form_name reg _⟩

/-- C38 at a sequence with an object named `a.b`, an inner object, and `pup_objectend`
calls under other names, run from inside an object `o`. -/
theorem path_stack_discipline_witness :
    (((run_visits (pup_from_name_value "o.a.b.x".data "5".data)
          [.objectbegin "a.b".data, .pint "x".data 1, .objectbegin "c".data,
           .pstring "s".data "t".data, .objectend "zz".data, .objectend "q".data]
          { found := false, address := "o.".data, old_addresses := [[]] }).address
        = (name_value_state.mk false "o.".data [[]]).address
        ∧ (run_visits (pup_from_name_value "o.a.b.x".data "5".data)
          [.objectbegin "a.b".data, .pint "x".data 1, .objectbegin "c".data,
           .pstring "s".data "t".data, .objectend "zz".data, .objectend "q".data]
          { found := false, address := "o.".data, old_addresses := [[]] }).old_addresses
        = (name_value_state.mk false "o.".data [[]]).old_addresses)
      ∧ ((run_visits (pup_to_HTML_form "conf".data)
          [.objectbegin "a.b".data, .pint "x".data 1, .objectbegin "c".data,
           .pstring "s".data "t".data, .objectend "zz".data, .objectend "q".data]
          (html_form_state.mk [] 1 0 "o.".data [[]])).address
        = (html_form_state.mk [] 1 0 "o.".data [[]]).address
        ∧ (run_visits (pup_to_HTML_form "conf".data)
          [.objectbegin "a.b".data, .pint "x".data 1, .objectbegin "c".data,
           .pstring "s".data "t".data, .objectend "zz".data, .objectend "q".data]
          (html_form_state.mk [] 1 0 "o.".data [[]])).old_addresses
        = (html_form_state.mk [] 1 0 "o.".data [[]]).old_addresses
        ∧ (run_visits (pup_to_HTML_form "conf".data)
          [.objectbegin "a.b".data, .pint "x".data 1, .objectbegin "c".data,
           .pstring "s".data "t".data, .objectend "zz".data, .objectend "q".data]
          (html_form_state.mk [] 1 0 "o.".data [[]])).indent
        = (html_form_state.mk [] 1 0 "o.".data [[]]).indent)
      ∧ ((webconfig_pup_all (pup_from_name_value "o.a.b.x".data "5".data) camera_renamed
            .init).2.address = []
        ∧ (webconfig_pup_all (pup_from_name_value "o.a.b.x".data "5".data) camera_renamed
            .init).2.old_addresses = [])
      ∧ ((webconfig_pup_all (pup_to_HTML_form "conf".data) camera_renamed
            (.init [])).2.address = []
        ∧ (webconfig_pup_all (pup_to_HTML_form "conf".data) camera_renamed
            (.init [])).2.old_addresses = []
        ∧ (webconfig_pup_all (pup_to_HTML_form "conf".data) camera_renamed
            (.init [])).2.indent = 0))
      ∧ (run_visits (pup_from_name_value "o.a.b.x".data "5".data)
          [.objectbegin "a.b".data, .pint "x".data 1]
          { found := false, address := "o.".data, old_addresses := [[]] })
        = { found := true, address := "o.a.b.".data, old_addresses := ["o.".data, []] } :=
  ⟨path_stack_discipline
      [.objectbegin "a.b".data, .pint "x".data 1, .objectbegin "c".data,
       .pstring "s".data "t".data, .objectend "zz".data, .objectend "q".data]
      (by decide) "o.a.b.x".data "5".data "conf".data []
      { found := false, address := "o.".data, old_addresses := [[]] }
      (html_form_state.mk [] 1 0 "o.".data [[]]) camera_renamed,
    by decide⟩

/-! ## C39: what `escape_HTML` lets through -/

/-- C39: For every input string, the output of `escape_HTML` contains no `"`, `<` or `>`
character, and every `&` in the output is the first character of one of the four entities
`&quot;` `&lt;` `&gt;` `&amp;` (what follows it starts with `quot;`, `lt;`, `gt;` or
`amp;`); so a string field's value can never terminate the `value="..."` attribute or the
TEXTAREA it is rendered into: the text the Renderer puts between the quotes holds no `"`,
the text it puts into the TEXTAREA holds no `<`. -/
theorem escape_HTML_output (s fn n : Str) (st : html_form_state) :
    ('"' ∉ escape_HTML s ∧ '<' ∉ escape_HTML s ∧ '>' ∉ escape_HTML s)
      ∧ (∀ pre post, escape_HTML s = pre ++ '&' :: post →
          ∃ tail ∈ entity_tails, tail <+: post)
      ∧ (count_newlines s = 0 →
          ((pup_to_HTML_form fn).pup_string n s st).2.html
            = st.html ++ ((startform fn st).1 ++ n ++ ": <INPUT type=\"text\" name=\"".data
                ++ (st.address ++ n) ++ "\" value=\"".data ++ c_str (escape_HTML s)
                ++ "\" />".data ++ endform)
          ∧ '"' ∉ c_str (escape_HTML s))
      ∧ (count_newlines s ≠ 0 →
          ((pup_to_HTML_form fn).pup_string n s st).2.html
            = st.html ++ ((startform fn st).1 ++ n ++ ":<br>\n<textarea name=\"".data
                ++ (st.address ++ n) ++ "\" cols=\"85\" rows=\"".data
                ++ itos (to_int (count_newlines s + 2)) ++ "\">".data ++ escape_HTML s
                ++ "</textarea><br>".data ++ endform)
          ∧ '<' ∉ escape_HTML s) := by
  have hq := escape_HTML_no_quote s
  refine ⟨hq, escape_HTML_ampersand s, fun h0 => ⟨?_, ?_⟩, fun h0 => ⟨?_, hq.2.1⟩⟩
  · rw [renderer_string_eq, if_pos h0]
    rfl
  · exact fun hm => hq.1 ((c_str_sublist _).subset hm)
  · rw [renderer_string_eq, if_neg h0]

/-! ## C40: an int field shown and submitted again -/

/-- C40: For every 32-bit int `n`, parsing the decimal text that `itos(n)` produces with
`atoi` gives back `n`; hence submitting the value the Renderer shows for an int field
(`itos(n)`) to that field's own path through the Applier leaves the field unchanged: the
Applier's int method stores `n` again, the field is still in the registry with the value
`n`, and when the paths are pairwise distinct the registry's fields are all as before. -/
theorem atoi_reads_itos (n : Int) (hlo : -2147483648 ≤ n) (hhi : n < 2147483648)
    (form_name name P : Str) (st : html_form_state) (a : name_value_state)
    (reg : Registry) (hfield : (P, Value.vint n) ∈ fields_of [] reg) :
    atoi (itos n) = n
      ∧ (pup_to_HTML_form form_name).pup_int name n st
        = (n, pup_to_HTML_form_inner form_name name (itos n) st)
      ∧ (pup_from_name_value (a.address ++ name) (itos n)).pup_int name n a
        = (n, { a with found := true })
      ∧ (P, Value.vint n)
          ∈ fields_of [] (webconfig_pup_all (pup_from_name_value P (itos n)) reg .init).1
      ∧ (((fields_of [] reg).map Prod.fst).Nodup →
          fields_of [] (webconfig_pup_all (pup_from_name_value P (itos n)) reg .init).1
            = fields_of [] reg) := by
  have hf := (applier_fields_effect P (itos n) reg .init).2.2
  have hu := update_field_itos P n hlo hhi
  refine ⟨atoi_itos n hlo hhi, rfl, ?_, ?_, ?_⟩
  · rw [applier_int, if_pos rfl, c_str_eq_self _ (itos_no_nul n), atoi_itos n hlo hhi]
  · show _ ∈ fields_of [] (pup_fields (pup_from_name_value P (itos n)) reg .init).1
    have := List.mem_map_of_mem (update_field P (itos n)) hfield
    rw [hu] at this
    exact hf ▸ this
  · intro hnd
    show fields_of [] (pup_fields (pup_from_name_value P (itos n)) reg .init).1 = _
    have hf2 : fields_of [] (pup_fields (pup_from_name_value P (itos n)) reg .init).1
        = (fields_of [] reg).map (update_field P (itos n)) := hf
    rw [hf2]
    conv_rhs => rw [← List.map_id (fields_of [] reg)]
    apply List.map_congr_left
    intro f hfm
    by_cases hk : f.1 = P
    · have : f = (P, Value.vint n) := eq_of_mem_of_nodup_keys _ f _ hnd hfm hfield hk
      rw [this, hu]
      rfl
    · simp only [update_field, hk, if_false, id]

/-- C40 at the field `camera.y` holding `-2147483648`. -/
theorem atoi_reads_itos_witness :
    (atoi (itos (-2147483648)) = -2147483648
      ∧ (pup_to_HTML_form "conf".data).pup_int "y".data (-2147483648)
          (html_form_state.mk [] 1 0 "camera.".data [[]])
        = (-2147483648, pup_to_HTML_form_inner "conf".data "y".data (itos (-2147483648))
            (html_form_state.mk [] 1 0 "camera.".data [[]]))
      ∧ (pup_from_name_value ((name_value_state.mk false "camera.".data [[]]).address
            ++ "y".data) (itos (-2147483648))).pup_int "y".data (-2147483648)
          (name_value_state.mk false "camera.".data [[]])
        = (-2147483648, { name_value_state.mk false "camera.".data [[]] with found := true })
      ∧ ("camera.y".data, Value.vint (-2147483648))
          ∈ fields_of [] (webconfig_pup_all (pup_from_name_value "camera.y".data
              (itos (-2147483648)))
              [.object "camera".data [.pfloat "x".data 0, .pint "y".data (-2147483648)]]
              .init).1
      ∧ (((fields_of []
            [.object "camera".data [.pfloat "x".data 0, .pint "y".data (-2147483648)]]).map
              Prod.fst).Nodup →
          fields_of [] (webconfig_pup_all (pup_from_name_value "camera.y".data
              (itos (-2147483648)))
              [.object "camera".data [.pfloat "x".data 0, .pint "y".data (-2147483648)]]
              .init).1
            = fields_of []
              [.object "camera".data [.pfloat "x".data 0, .pint "y".data (-2147483648)]]))
      ∧ itos (-2147483648) = "-2147483648".data :=
  ⟨atoi_reads_itos (-2147483648) (by decide) (by decide) "conf".data "y".data
      "camera.y".data (html_form_state.mk [] 1 0 "camera.".data [[]])
      (name_value_state.mk false "camera.".data [[]])
      [.object "camera".data [.pfloat "x".data 0, .pint "y".data (-2147483648)]]
      (by decide),
    by decide⟩

end osl
